import Mathlib

/-!
Verification development for the MyDB storage engine (C++ sources under src/).
The C++ code is shallowly embedded: byte buffers become `List Nat` (each byte
a `Nat < 256`, carried as hypotheses), machine integers become `Nat` with
explicit `% 2^w` where the C++ arithmetic can wrap, and fallible operations
return `Except Status _` mirroring `mydb::Result<T>` / `mydb::Status`.
-/

set_option maxRecDepth 4096

namespace MyDB

/-! ## Status (src/include/mydb/common/status.hpp) -/

inductive StatusCode where
  | ok | notFound | corruption | notSupported | invalidArgument
  | ioError | alreadyExists | busy | timedOut | aborted | outOfMemory | unknown
deriving Repr, DecidableEq

/-- `mydb::Status`: an error code plus a human-readable message. -/
structure Status where
  code : StatusCode
  message : String
deriving Repr, DecidableEq

def Status.okStatus : Status := ⟨.ok, ""⟩
def Status.notFound (msg : String) : Status := ⟨.notFound, msg⟩
def Status.corruption (msg : String) : Status := ⟨.corruption, msg⟩
def Status.ioError (msg : String) : Status := ⟨.ioError, msg⟩
def Status.invalidArgument (msg : String) : Status := ⟨.invalidArgument, msg⟩

def Status.isOk (s : Status) : Bool := s.code == .ok
def Status.isNotFound (s : Status) : Bool := s.code == .notFound

/-! ## Little-endian integer codecs

The C++ sources encode fixed-width integers with loops of the shape
`for i in 0..n-1: push((v >> (i*8)) & 0xFF)` and decode them with
`v |= byte << (i*8)`.  `encBytes n v` / `decBytes n bs` are the common
shapes; `encU32 = encBytes 4`, `encU64 = encBytes 8`. -/

def encBytes (n : Nat) (v : Nat) : List Nat :=
  (List.range n).map fun i => (v >>> (8 * i)) &&& 255

def decBytes (n : Nat) (bs : List Nat) : Nat :=
  (List.range n).foldl (fun acc i => acc ||| (bs.getD i 0 <<< (8 * i))) 0

abbrev encU32 (v : Nat) : List Nat := encBytes 4 v
abbrev encU64 (v : Nat) : List Nat := encBytes 8 v
abbrev decU32 (bs : List Nat) : Nat := decBytes 4 bs
abbrev decU64 (bs : List Nat) : Nat := decBytes 8 bs

theorem encBytes_length (n v : Nat) : (encBytes n v).length = n := by
  simp [encBytes]

theorem encBytes_byte_lt (n v : Nat) : ∀ b ∈ encBytes n v, b < 256 := by
  intro b hb
  simp only [encBytes, List.mem_map] at hb
  obtain ⟨i, -, rfl⟩ := hb
  have : (v >>> (8 * i)) &&& 255 ≤ 255 := Nat.and_le_right
  omega

theorem and_255_eq_mod (x : Nat) : x &&& 255 = x % 256 := by
  apply Nat.eq_of_testBit_eq
  intro j
  rw [Nat.testBit_and, show (256 : Nat) = 2 ^ 8 by norm_num, Nat.testBit_mod_two_pow,
    show (255 : Nat) = 2 ^ 8 - 1 by norm_num, Nat.testBit_two_pow_sub_one]
  exact Bool.and_comm _ _

theorem encBytes_succ (n v : Nat) :
    encBytes (n + 1) v = encBytes n v ++ [(v >>> (8 * n)) &&& 255] := by
  simp [encBytes, List.range_succ]

theorem decBytes_succ (n : Nat) (bs : List Nat) :
    decBytes (n + 1) bs = decBytes n bs ||| (bs.getD n 0 <<< (8 * n)) := by
  simp [decBytes, List.range_succ]

theorem getD_append_lt {α : Type} (xs ys : List α) (i : Nat) (d : α) (h : i < xs.length) :
    (xs ++ ys).getD i d = xs.getD i d := by
  simp [List.getD_eq_getElem?_getD, List.getElem?_append_left h]

theorem getD_append_ge {α : Type} (xs ys : List α) (i : Nat) (d : α) (h : xs.length ≤ i) :
    (xs ++ ys).getD i d = ys.getD (i - xs.length) d := by
  simp [List.getD_eq_getElem?_getD, List.getElem?_append_right h]

theorem decBytes_congr (n : Nat) (bs cs : List Nat)
    (h : ∀ i < n, bs.getD i 0 = cs.getD i 0) : decBytes n bs = decBytes n cs := by
  induction n with
  | zero => rfl
  | succ m ih =>
    rw [decBytes_succ, decBytes_succ, ih (fun i hi => h i (by omega)), h m (by omega)]

theorem decBytes_append (n : Nat) (bs rest : List Nat) (h : n ≤ bs.length) :
    decBytes n (bs ++ rest) = decBytes n bs := by
  refine decBytes_congr n _ _ fun i hi => ?_
  exact getD_append_lt bs rest i 0 (by omega)

theorem decBytes_encBytes (n v : Nat) : decBytes n (encBytes n v) = v % 2 ^ (8 * n) := by
  induction n with
  | zero => simp [decBytes, Nat.mod_one]
  | succ m ih =>
    rw [decBytes_succ, encBytes_succ]
    have hlen : (encBytes m v).length = m := encBytes_length m v
    have hgd : (encBytes m v ++ [(v >>> (8 * m)) &&& 255]).getD m 0
        = (v >>> (8 * m)) &&& 255 := by
      rw [getD_append_ge _ _ m 0 (by omega)]
      simp [hlen]
    have hfront : decBytes m (encBytes m v ++ [(v >>> (8 * m)) &&& 255])
        = decBytes m (encBytes m v) := decBytes_append m _ _ (by omega)
    rw [hfront, ih, hgd]
    apply Nat.eq_of_testBit_eq
    intro j
    have h255 : (255 : Nat) = 2 ^ 8 - 1 := by norm_num
    simp only [Nat.testBit_or, Nat.testBit_mod_two_pow, Nat.testBit_shiftLeft,
      Nat.testBit_and, Nat.testBit_shiftRight, h255, Nat.testBit_two_pow_sub_one]
    rcases lt_or_ge j (8 * m) with hj | hj
    · have h1 : j < 8 * (m + 1) := by omega
      have h2 : ¬ (8 * m ≤ j) := by omega
      simp [h1, h2, hj]
    · rcases lt_or_ge j (8 * (m + 1)) with hj2 | hj2
      · have h2 : 8 * m ≤ j := hj
        have h3 : ¬ (j < 8 * m) := by omega
        have h4 : 8 * m + (j - 8 * m) = j := by omega
        have h5 : j - 8 * m < 8 := by omega
        simp [h3, h2, hj2, h4, h5]
      · have h3 : ¬ (j < 8 * m) := by omega
        have h4 : ¬ (j < 8 * (m + 1)) := by omega
        have h5 : 8 * m ≤ j := hj
        have h6 : ¬ (j - 8 * m < 8) := by omega
        simp [h3, h4, h5, h6]

theorem decBytes_encBytes_of_lt (n v : Nat) (h : v < 2 ^ (8 * n)) :
    decBytes n (encBytes n v) = v := by
  rw [decBytes_encBytes, Nat.mod_eq_of_lt h]

/-! ## MurmurHash3 (src/src/engine/bloom_filter.cpp)

32-bit arithmetic is modelled on `Nat` with `% 2^32` applied exactly where the
C++ `uint32_t` operations can wrap (multiplication, addition, left shift). -/

def rotl32 (x : Nat) (r : Nat) : Nat := ((x <<< r) ||| (x >>> (32 - r))) % 2 ^ 32

def fmix32 (h : Nat) : Nat :=
  let h := h ^^^ (h >>> 16)
  let h := (h * 0x85ebca6b) % 2 ^ 32
  let h := h ^^^ (h >>> 13)
  let h := (h * 0xc2b2ae35) % 2 ^ 32
  h ^^^ (h >>> 16)

/-- The `memcpy(&k1, blocks + i, 4)` of a little-endian `uint32_t`. -/
def le32At (data : List Nat) (i : Nat) : Nat :=
  data.getD i 0 + data.getD (i + 1) 0 * 256 + data.getD (i + 2) 0 * 65536 +
    data.getD (i + 3) 0 * 16777216

def murmurMixK1 (k1 : Nat) : Nat :=
  let k1 := (k1 * 0xcc9e2d51) % 2 ^ 32
  let k1 := rotl32 k1 15
  (k1 * 0x1b873593) % 2 ^ 32

/-- `MurmurHash3_32` over a byte list (the body loop, the tail switch with its
fall-throughs, and the finalisation). -/
def murmur3_32 (data : List Nat) (seed : Nat) : Nat :=
  let len := data.length
  let nblocks := len / 4
  let h1 := (List.range nblocks).foldl
    (fun h1 i =>
      let k1 := murmurMixK1 (le32At data (4 * i))
      let h1 := h1 ^^^ k1
      let h1 := rotl32 h1 13
      (h1 * 5 + 0xe6546b64) % 2 ^ 32)
    (seed % 2 ^ 32)
  let tail := 4 * nblocks
  let rem := len % 4
  let h1 :=
    if rem = 0 then h1
    else
      let k1 := (if rem = 3 then (data.getD (tail + 2) 0) <<< 16 else 0)
        ^^^ (if rem ≥ 2 then (data.getD (tail + 1) 0) <<< 8 else 0)
        ^^^ data.getD tail 0
      h1 ^^^ murmurMixK1 k1
  fmix32 (h1 ^^^ (len % 2 ^ 32))

/-! ## Bloom filter (src/src/engine/bloom_filter.cpp) -/

structure BloomFilter where
  bits : List Nat      -- `std::vector<uint8_t> bits_`
  numHashes : Nat
  numKeys : Nat
deriving Repr, DecidableEq

/-- `BloomFilter::HashKey`: `h1 = Murmur(key, 0)`, `h2 = Murmur(key, h1)`. -/
def hashKey (key : List Nat) : Nat × Nat :=
  let h1 := murmur3_32 key 0
  (h1, murmur3_32 key h1)

/-- Loop body of `BloomFilter::AddKey`:
`bits_[bit_pos / 8] |= (1 << (bit_pos % 8))` with `bit_pos = (h1 + i*h2) % num_bits`. -/
def bloomSetStep (h1 h2 numBits : Nat) (bits : List Nat) (i : Nat) : List Nat :=
  let bitPos := (h1 + i * h2) % numBits
  bits.set (bitPos / 8) (bits.getD (bitPos / 8) 0 ||| (1 <<< (bitPos % 8)))

/-- `BloomFilter::AddKey`: double hashing `h1 + i*h2`, setting one bit per hash. -/
def BloomFilter.addKey (f : BloomFilter) (key : List Nat) : BloomFilter :=
  let h := hashKey key
  let numBits := f.bits.length * 8
  { f with bits := (List.range f.numHashes).foldl (bloomSetStep h.1 h.2 numBits) f.bits }

/-- `BloomFilter::MayContain`: true iff every probed bit is set (the C++ loop
returns `false` at the first clear bit). -/
def BloomFilter.mayContain (f : BloomFilter) (key : List Nat) : Bool :=
  let h := hashKey key
  let numBits := f.bits.length * 8
  (List.range f.numHashes).all fun i =>
    let bitPos := (h.1 + i * h.2) % numBits
    f.bits.getD (bitPos / 8) 0 &&& (1 <<< (bitPos % 8)) != 0

/-- The hash-function count in `BloomFilter::Create` is
`std::ceil(bits_per_key * 0.693147)` clamped to `[1, 30]`, computed with C++
`double` arithmetic; it is modelled by the exact rational ceiling.  The claims
proved below hold for every value of `numHashes`, so they are insensitive to
any floating-point/rational disagreement. -/
def createNumHashes (bitsPerKey : Nat) : Nat :=
  let h := (bitsPerKey * 693147 + 999999) / 1000000
  min 30 (max 1 h)

/-- `BloomFilter::Create`: size the bit array (min 8 bytes), pick the hash
count, then add every key. -/
def BloomFilter.create (keys : List (List Nat)) (bitsPerKey : Nat) : BloomFilter :=
  let numBits := keys.length * bitsPerKey
  let numBytes := (numBits + 7) / 8
  let numBytes := if numBytes < 8 then 8 else numBytes
  let f : BloomFilter :=
    { bits := List.replicate numBytes 0
      numHashes := createNumHashes bitsPerKey
      numKeys := keys.length }
  keys.foldl BloomFilter.addKey f

/-- `BloomFilter::Serialize`: 4-byte LE hash count, then the raw bit array. -/
def BloomFilter.serialize (f : BloomFilter) : List Nat :=
  encU32 f.numHashes ++ f.bits

/-- `BloomFilter::Deserialize`: `nullptr` (here `none`) for inputs under 5
bytes, else hash count from the first 4 bytes and the rest as the bit array. -/
def BloomFilter.deserialize (data : List Nat) : Option BloomFilter :=
  if data.length < 5 then none
  else some { bits := data.drop 4, numHashes := decU32 (data.take 4), numKeys := 0 }

/-! ### Bloom filter lemmas -/

/-- A probed bit, as both `AddKey` and `MayContain` address it. -/
def bloomBitSet (bits : List Nat) (bitPos : Nat) : Prop :=
  bits.getD (bitPos / 8) 0 &&& (1 <<< (bitPos % 8)) ≠ 0

theorem nat_and_or_right (a b c : Nat) : (a ||| b) &&& c = (a &&& c) ||| (b &&& c) := by
  apply Nat.eq_of_testBit_eq
  intro j
  simp only [Nat.testBit_and, Nat.testBit_or]
  cases a.testBit j <;> cases b.testBit j <;> cases c.testBit j <;> rfl

theorem nat_or_ne_zero_left (a b : Nat) (h : a ≠ 0) : a ||| b ≠ 0 := by
  obtain ⟨i, hi⟩ := Nat.ne_zero_implies_bit_true h
  intro hc
  have hbit : (a ||| b).testBit i = true := by
    rw [Nat.testBit_or, hi, Bool.true_or]
  rw [hc, Nat.zero_testBit] at hbit
  exact Bool.false_ne_true hbit

theorem nat_or_ne_zero_right (a b : Nat) (h : b ≠ 0) : a ||| b ≠ 0 := by
  rw [Nat.or_comm]
  exact nat_or_ne_zero_left b a h

theorem getD_set (bs : List Nat) (p j v : Nat) :
    (bs.set p v).getD j 0 = if p = j ∧ p < bs.length then v else bs.getD j 0 := by
  by_cases hpj : p = j
  · subst hpj
    by_cases hl : p < bs.length
    · simp [List.getD_eq_getElem?_getD, List.getElem?_set, hl]
    · have hnone : bs[p]? = none := List.getElem?_eq_none (by omega)
      simp [List.getD_eq_getElem?_getD, List.getElem?_set, hl, hnone]
  · simp [List.getD_eq_getElem?_getD, List.getElem?_set, hpj]

theorem bloomSetStep_length (h1 h2 nb : Nat) (bits : List Nat) (i : Nat) :
    (bloomSetStep h1 h2 nb bits i).length = bits.length := by
  simp [bloomSetStep]

theorem bloomSetStep_foldl_length (h1 h2 nb : Nat) (l : List Nat) (bits : List Nat) :
    (l.foldl (bloomSetStep h1 h2 nb) bits).length = bits.length := by
  induction l generalizing bits with
  | nil => rfl
  | cons i is ih => rw [List.foldl_cons, ih, bloomSetStep_length]

theorem bloomSetStep_mono (h1 h2 nb : Nat) (bits : List Nat) (i pos : Nat)
    (h : bloomBitSet bits pos) : bloomBitSet (bloomSetStep h1 h2 nb bits i) pos := by
  unfold bloomBitSet at *
  unfold bloomSetStep
  rw [getD_set]
  split
  · next hc =>
    obtain ⟨he, -⟩ := hc
    rw [← he] at h
    rw [nat_and_or_right]
    exact nat_or_ne_zero_left _ _ h
  · exact h

theorem bloomSetStep_foldl_mono (h1 h2 nb : Nat) (l : List Nat) (bits : List Nat) (pos : Nat)
    (h : bloomBitSet bits pos) : bloomBitSet (l.foldl (bloomSetStep h1 h2 nb) bits) pos := by
  induction l generalizing bits with
  | nil => exact h
  | cons i is ih => exact ih _ (bloomSetStep_mono h1 h2 nb bits i pos h)

theorem bloomSetStep_sets (h1 h2 nb : Nat) (bits : List Nat) (i : Nat)
    (hnb : nb = bits.length * 8) (hpos : 0 < bits.length) :
    bloomBitSet (bloomSetStep h1 h2 nb bits i) ((h1 + i * h2) % nb) := by
  unfold bloomBitSet bloomSetStep
  have hlt : (h1 + i * h2) % nb < nb := by
    apply Nat.mod_lt
    omega
  have hdiv : (h1 + i * h2) % nb / 8 < bits.length := by
    subst hnb; omega
  rw [getD_set, if_pos ⟨rfl, hdiv⟩]
  rw [nat_and_or_right, Nat.and_self]
  apply nat_or_ne_zero_right
  rw [Nat.shiftLeft_eq]
  positivity

theorem bloomSetStep_foldl_sets (h1 h2 nb : Nat) (l : List Nat) (bits : List Nat) (i : Nat)
    (hmem : i ∈ l) (hnb : nb = bits.length * 8) (hpos : 0 < bits.length) :
    bloomBitSet (l.foldl (bloomSetStep h1 h2 nb) bits) ((h1 + i * h2) % nb) := by
  induction l generalizing bits with
  | nil => cases hmem
  | cons j js ih =>
    rw [List.foldl_cons]
    rcases List.mem_cons.mp hmem with rfl | hmem2
    · exact bloomSetStep_foldl_mono h1 h2 nb js _ _
        (bloomSetStep_sets h1 h2 nb bits i hnb hpos)
    · exact ih _ hmem2 (by rw [hnb, bloomSetStep_length]) (by rw [bloomSetStep_length]; exact hpos)

theorem addKey_bits_length (f : BloomFilter) (key : List Nat) :
    (f.addKey key).bits.length = f.bits.length := by
  unfold BloomFilter.addKey
  exact bloomSetStep_foldl_length _ _ _ _ _

theorem addKey_numHashes (f : BloomFilter) (key : List Nat) :
    (f.addKey key).numHashes = f.numHashes := rfl

theorem addKey_mono (f : BloomFilter) (key : List Nat) (pos : Nat)
    (h : bloomBitSet f.bits pos) : bloomBitSet (f.addKey key).bits pos := by
  unfold BloomFilter.addKey
  exact bloomSetStep_foldl_mono _ _ _ _ _ _ h

theorem addKey_sets (f : BloomFilter) (key : List Nat) (i : Nat)
    (hi : i < f.numHashes) (hpos : 0 < f.bits.length) :
    bloomBitSet (f.addKey key).bits
      (((hashKey key).1 + i * (hashKey key).2) % (f.bits.length * 8)) := by
  unfold BloomFilter.addKey
  exact bloomSetStep_foldl_sets _ _ _ _ _ i (List.mem_range.mpr hi) rfl hpos

theorem foldl_addKey_bits_length (keys : List (List Nat)) (f : BloomFilter) :
    (keys.foldl BloomFilter.addKey f).bits.length = f.bits.length := by
  induction keys generalizing f with
  | nil => rfl
  | cons k ks ih => rw [List.foldl_cons, ih, addKey_bits_length]

theorem foldl_addKey_numHashes (keys : List (List Nat)) (f : BloomFilter) :
    (keys.foldl BloomFilter.addKey f).numHashes = f.numHashes := by
  induction keys generalizing f with
  | nil => rfl
  | cons k ks ih => rw [List.foldl_cons, ih, addKey_numHashes]

theorem foldl_addKey_mono (keys : List (List Nat)) (f : BloomFilter) (pos : Nat)
    (h : bloomBitSet f.bits pos) :
    bloomBitSet (keys.foldl BloomFilter.addKey f).bits pos := by
  induction keys generalizing f with
  | nil => exact h
  | cons k ks ih => exact ih _ (addKey_mono f k pos h)

theorem foldl_addKey_sets (keys : List (List Nat)) (f : BloomFilter) (key : List Nat)
    (hmem : key ∈ keys) (i : Nat) (hi : i < f.numHashes) (hpos : 0 < f.bits.length) :
    bloomBitSet (keys.foldl BloomFilter.addKey f).bits
      (((hashKey key).1 + i * (hashKey key).2) % (f.bits.length * 8)) := by
  induction keys generalizing f with
  | nil => cases hmem
  | cons k ks ih =>
    rw [List.foldl_cons]
    rcases List.mem_cons.mp hmem with rfl | hmem2
    · have hset := addKey_sets f key i hi hpos
      exact foldl_addKey_mono ks (f.addKey key) _ hset
    · have h1 := addKey_bits_length f k
      exact (h1 ▸ ih (f.addKey k) hmem2 (by rw [addKey_numHashes]; exact hi) (by omega) :)

theorem mayContain_of_all_set (f : BloomFilter)
    (key : List Nat)
    (hall : ∀ i < f.numHashes,
      bloomBitSet f.bits (((hashKey key).1 + i * (hashKey key).2) % (f.bits.length * 8))) :
    f.mayContain key = true := by
  unfold BloomFilter.mayContain
  rw [List.all_eq_true]
  intro i hi
  have hb := hall i (List.mem_range.mp hi)
  unfold bloomBitSet at hb
  simpa [bne_iff_ne] using hb

theorem create_bits_pos (keys : List (List Nat)) (bpk : Nat) :
    0 < (BloomFilter.create keys bpk).bits.length := by
  unfold BloomFilter.create
  rw [foldl_addKey_bits_length]
  simp only [List.length_replicate]
  split <;> omega

theorem create_numHashes_le (keys : List (List Nat)) (bpk : Nat) :
    (BloomFilter.create keys bpk).numHashes ≤ 30 := by
  unfold BloomFilter.create
  rw [foldl_addKey_numHashes]
  exact Nat.min_le_left _ _

theorem create_mayContain (keys : List (List Nat)) (bpk : Nat) (key : List Nat)
    (hmem : key ∈ keys) : (BloomFilter.create keys bpk).mayContain key = true := by
  apply mayContain_of_all_set
  intro i hi
  unfold BloomFilter.create at hi ⊢
  rw [foldl_addKey_numHashes] at hi
  have hlen : (0:Nat) <
      (List.replicate (if (keys.length * bpk + 7) / 8 < 8 then 8
        else (keys.length * bpk + 7) / 8) (0:Nat)).length := by
    simp only [List.length_replicate]
    split <;> omega
  have := foldl_addKey_sets keys _ key hmem i hi hlen
  rwa [foldl_addKey_bits_length]

/-- Deserializing a serialized filter recovers the bit array exactly and the
hash count modulo 2^32. -/
theorem deserialize_serialize (f : BloomFilter) (hlen : 0 < f.bits.length) :
    BloomFilter.deserialize f.serialize
      = some { bits := f.bits, numHashes := f.numHashes % 2 ^ 32, numKeys := 0 } := by
  unfold BloomFilter.deserialize BloomFilter.serialize
  have h4 : (encU32 f.numHashes).length = 4 := encBytes_length 4 f.numHashes
  rw [if_neg (by simp [h4]; omega)]
  congr 1
  have hdrop : (encU32 f.numHashes ++ f.bits).drop 4 = f.bits := by
    rw [List.drop_append_of_le_length (by omega), List.drop_eq_nil_of_le (by omega),
      List.nil_append]
  have htake : (encU32 f.numHashes ++ f.bits).take 4 = encU32 f.numHashes := by
    rw [List.take_append_of_le_length (by omega), List.take_of_length_le (by omega)]
  rw [hdrop, htake]
  have := decBytes_encBytes 4 f.numHashes
  simp only [decU32, this]

theorem mayContain_congr (f g : BloomFilter) (hbits : g.bits = f.bits)
    (hnh : g.numHashes = f.numHashes) (key : List Nat) :
    g.mayContain key = f.mayContain key := by
  unfold BloomFilter.mayContain
  rw [hbits, hnh]

/-- C6: for every list of keys and every key in it, the filter built by
`BloomFilter::Create` reports `MayContain = true`, and so does the filter
obtained by `Serialize` followed by `Deserialize` — no false negatives,
including across the serialization round trip. -/
theorem bloom_no_false_negatives (keys : List (List Nat)) (bitsPerKey : Nat)
    (key : List Nat) (hmem : key ∈ keys) :
    (BloomFilter.create keys bitsPerKey).mayContain key = true ∧
    ∃ f2, BloomFilter.deserialize (BloomFilter.create keys bitsPerKey).serialize = some f2 ∧
      f2.mayContain key = true := by
  have hmc := create_mayContain keys bitsPerKey key hmem
  refine ⟨hmc, ?_⟩
  have hpos := create_bits_pos keys bitsPerKey
  have hnh30 := create_numHashes_le keys bitsPerKey
  have hmod : (BloomFilter.create keys bitsPerKey).numHashes % 2 ^ 32
      = (BloomFilter.create keys bitsPerKey).numHashes := Nat.mod_eq_of_lt (by omega)
  refine ⟨_, deserialize_serialize _ hpos, ?_⟩
  have hcongr := mayContain_congr (BloomFilter.create keys bitsPerKey)
    { bits := (BloomFilter.create keys bitsPerKey).bits
      numHashes := (BloomFilter.create keys bitsPerKey).numHashes % 2 ^ 32
      numKeys := 0 } rfl hmod key
  rw [hcongr]
  exact hmc

/-- Witness for `bloom_no_false_negatives` at a concrete key list. -/
theorem bloom_no_false_negatives_witness :
    ([6, 6, 6] ∈ [[97], [6, 6, 6]] ∧
      (BloomFilter.create [[97], [6, 6, 6]] 10).mayContain [6, 6, 6] = true) ∧
    ∃ f2, BloomFilter.deserialize (BloomFilter.create [[97], [6, 6, 6]] 10).serialize
        = some f2 ∧ f2.mayContain [6, 6, 6] = true := by
  have h := bloom_no_false_negatives [[97], [6, 6, 6]] 10 [6, 6, 6] (by decide)
  exact ⟨⟨by decide, h.1⟩, h.2⟩

/-! ## CRC32 (src/src/engine/wal.cpp)

IEEE 802.3 CRC-32 in its table-driven byte-at-a-time form.  The table entry
for index `i` is eight rounds of `crc = (crc >> 1) ^ (poly & (-(crc & 1)))`;
the C++ `-(crc & 1)` is an all-ones `uint32_t` mask exactly when the low bit
is set, modelled by the conditional below. -/

def crcPoly : Nat := 0xEDB88320

def crcRound (c : Nat) : Nat :=
  if c &&& 1 = 1 then (c >>> 1) ^^^ crcPoly else c >>> 1

/-- `kCRC32Table[i]` from `GenerateCRC32Table`. -/
def crcEntry (i : Nat) : Nat := crcRound^[8] i

/-- One byte of `CalculateCRC32`:
`crc = kCRC32Table[(crc ^ byte) & 0xFF] ^ (crc >> 8)`. -/
def crcStep (crc b : Nat) : Nat := crcEntry ((crc ^^^ b) &&& 255) ^^^ (crc >>> 8)

/-- `CalculateCRC32`: init `0xFFFFFFFF`, byte steps, final xor `0xFFFFFFFF`. -/
def crc32 (data : List Nat) : Nat := (data.foldl crcStep 0xFFFFFFFF) ^^^ 0xFFFFFFFF

/-! ### CRC32 single-byte error detection -/

theorem crcRound_lt (c : Nat) (h : c < 2 ^ 32) : crcRound c < 2 ^ 32 := by
  unfold crcRound
  have h1 : c >>> 1 < 2 ^ 32 := by
    rw [Nat.shiftRight_eq_div_pow]
    omega
  split
  · exact Nat.xor_lt_two_pow h1 (by norm_num [crcPoly])
  · exact h1

theorem crcEntry_lt (i : Nat) (h : i < 2 ^ 32) : crcEntry i < 2 ^ 32 := by
  unfold crcEntry
  induction 8 with
  | zero => exact h
  | succ n ih => rw [Function.iterate_succ_apply' crcRound n i]; exact crcRound_lt _ ih

theorem crcStep_lt (c b : Nat) (h : c < 2 ^ 32) : crcStep c b < 2 ^ 32 := by
  unfold crcStep
  apply Nat.xor_lt_two_pow
  · exact crcEntry_lt _ (by have := @Nat.and_le_right (c ^^^ b) 255; omega)
  · rw [Nat.shiftRight_eq_div_pow]
    omega

/-- The top byte of each table entry. -/
def crcTop (i : Nat) : Nat := crcEntry i >>> 24

theorem crcTop_lt (i : Nat) (h : i < 256) : crcTop i < 256 := by
  have h1 := crcEntry_lt i (by omega)
  unfold crcTop
  rw [Nat.shiftRight_eq_div_pow]
  omega

/-- Bit mask accumulating the top bytes of all 256 table entries. -/
def crcTopMask : Nat := (List.range 256).foldl (fun a i => a ||| (1 <<< crcTop i)) 0

/-- The 256 top bytes cover every value in `[0, 256)`. -/
theorem crcTopMask_full : crcTopMask = 2 ^ 256 - 1 := by decide

theorem testBit_one_shiftLeft (k v : Nat) : (1 <<< k).testBit v = decide (k = v) := by
  rw [Nat.shiftLeft_eq, one_mul, Nat.testBit_two_pow]

theorem foldl_orMask_testBit (l : List Nat) (a v : Nat)
    (h : (l.foldl (fun a i => a ||| (1 <<< crcTop i)) a).testBit v = true) :
    a.testBit v = true ∨ ∃ i ∈ l, crcTop i = v := by
  induction l generalizing a with
  | nil => exact Or.inl h
  | cons x xs ih =>
    rw [List.foldl_cons] at h
    rcases ih _ h with hbit | ⟨i, hi, hv⟩
    · rw [Nat.testBit_or, Bool.or_eq_true] at hbit
      rcases hbit with hbit | hbit
      · exact Or.inl hbit
      · rw [testBit_one_shiftLeft, decide_eq_true_eq] at hbit
        exact Or.inr ⟨x, List.mem_cons_self x xs, hbit⟩
    · exact Or.inr ⟨i, List.mem_cons_of_mem x hi, hv⟩

theorem crcTop_surj (v : Nat) (hv : v < 256) : ∃ i < 256, crcTop i = v := by
  have hbit : crcTopMask.testBit v = true := by
    rw [crcTopMask_full, Nat.testBit_two_pow_sub_one]
    exact decide_eq_true hv
  rcases foldl_orMask_testBit (List.range 256) 0 v hbit with h0 | ⟨i, hi, hiv⟩
  · rw [Nat.zero_testBit] at h0
    cases h0
  · exact ⟨i, List.mem_range.mp hi, hiv⟩

/-- The top bytes of the CRC table are pairwise distinct (via surjectivity of
a self-map of `Fin 256`). -/
theorem crcTop_inj (i j : Nat) (hi : i < 256) (hj : j < 256)
    (h : crcTop i = crcTop j) : i = j := by
  let g : Fin 256 → Fin 256 := fun x => ⟨crcTop x.1, crcTop_lt x.1 x.2⟩
  have hsurj : Function.Surjective g := by
    intro ⟨v, hv⟩
    obtain ⟨w, hw, hwv⟩ := crcTop_surj v hv
    exact ⟨⟨w, hw⟩, Fin.ext hwv⟩
  have hinj : Function.Injective g := Finite.injective_iff_surjective.mpr hsurj
  have heq : g ⟨i, hi⟩ = g ⟨j, hj⟩ → (⟨i, hi⟩ : Fin 256) = ⟨j, hj⟩ := fun hgg => hinj hgg
  have heq2 := heq (Fin.ext h)
  exact congrArg Fin.val heq2

theorem crcEntry_inj (i j : Nat) (hi : i < 256) (hj : j < 256)
    (h : crcEntry i = crcEntry j) : i = j :=
  crcTop_inj i j hi hj (by unfold crcTop; rw [h])

theorem nat_xor_and (a b c : Nat) : (a ^^^ b) &&& c = (a &&& c) ^^^ (b &&& c) := by
  apply Nat.eq_of_testBit_eq
  intro j
  simp only [Nat.testBit_and, Nat.testBit_xor]
  cases a.testBit j <;> cases b.testBit j <;> cases c.testBit j <;> rfl

theorem nat_xor_shiftRight (a b n : Nat) : (a ^^^ b) >>> n = (a >>> n) ^^^ (b >>> n) := by
  apply Nat.eq_of_testBit_eq
  intro j
  simp [Nat.testBit_shiftRight, Nat.testBit_xor]

theorem nat_xor_right_cancel (a b c : Nat) (h : a ^^^ c = b ^^^ c) : a = b := by
  have := congrArg (· ^^^ c) h
  simpa [Nat.xor_assoc] using this

theorem nat_xor_left_cancel (a b c : Nat) (h : c ^^^ a = c ^^^ b) : a = b := by
  rw [Nat.xor_comm c a, Nat.xor_comm c b] at h
  exact nat_xor_right_cancel a b c h

theorem and_255_lt (x : Nat) : x &&& 255 < 256 := by
  have := @Nat.and_le_right x 255
  omega

theorem and_255_of_lt (b : Nat) (h : b < 256) : b &&& 255 = b := by
  rw [and_255_eq_mod, Nat.mod_eq_of_lt h]

theorem shiftRight_high_zero (h n : Nat) (hlt : h < 2 ^ n) : h >>> n = 0 := by
  rw [Nat.shiftRight_eq_div_pow]
  exact Nat.div_eq_of_lt hlt

/-- The CRC byte step is injective in the state (on 32-bit states). -/
theorem crcStep_state_inj (c1 c2 b : Nat) (h1 : c1 < 2 ^ 32) (h2 : c2 < 2 ^ 32)
    (hs : crcStep c1 b = crcStep c2 b) : c1 = c2 := by
  unfold crcStep at hs
  have hi1 : (c1 ^^^ b) &&& 255 < 256 := and_255_lt _
  have hi2 : (c2 ^^^ b) &&& 255 < 256 := and_255_lt _
  have hh1 : c1 >>> 8 < 2 ^ 24 := by
    rw [Nat.shiftRight_eq_div_pow]
    omega
  have hh2 : c2 >>> 8 < 2 ^ 24 := by
    rw [Nat.shiftRight_eq_div_pow]
    omega
  have htop := congrArg (· >>> 24) hs
  simp only [nat_xor_shiftRight] at htop
  rw [shiftRight_high_zero _ 24 hh1, shiftRight_high_zero _ 24 hh2,
    Nat.xor_zero, Nat.xor_zero] at htop
  have hidx : (c1 ^^^ b) &&& 255 = (c2 ^^^ b) &&& 255 :=
    crcTop_inj _ _ hi1 hi2 htop
  rw [hidx] at hs
  have hhi : c1 >>> 8 = c2 >>> 8 := nat_xor_left_cancel _ _ _ hs
  have hlo : c1 &&& 255 = c2 &&& 255 := by
    rw [nat_xor_and, nat_xor_and] at hidx
    exact nat_xor_right_cancel _ _ _ hidx
  have e1 : c1 = 2 ^ 8 * (c1 >>> 8) + (c1 &&& 255) := by
    rw [Nat.shiftRight_eq_div_pow, and_255_eq_mod]
    omega
  have e2 : c2 = 2 ^ 8 * (c2 >>> 8) + (c2 &&& 255) := by
    rw [Nat.shiftRight_eq_div_pow, and_255_eq_mod]
    omega
  omega

/-- The CRC byte step is injective in the byte (at any fixed state). -/
theorem crcStep_byte_inj (c b1 b2 : Nat) (hb1 : b1 < 256) (hb2 : b2 < 256)
    (hne : b1 ≠ b2) : crcStep c b1 ≠ crcStep c b2 := by
  intro hs
  unfold crcStep at hs
  have hent : crcEntry ((c ^^^ b1) &&& 255) = crcEntry ((c ^^^ b2) &&& 255) :=
    nat_xor_right_cancel _ _ _ hs
  have hidx := crcEntry_inj _ _ (and_255_lt _) (and_255_lt _) hent
  rw [nat_xor_and, nat_xor_and, and_255_of_lt b1 hb1, and_255_of_lt b2 hb2] at hidx
  exact hne (nat_xor_left_cancel _ _ _ hidx)

theorem crc_foldl_lt (l : List Nat) (s : Nat) (hs : s < 2 ^ 32) :
    l.foldl crcStep s < 2 ^ 32 := by
  induction l generalizing s with
  | nil => exact hs
  | cons b bs ih => exact ih _ (crcStep_lt s b hs)

theorem crc_foldl_inj (l : List Nat) (s1 s2 : Nat) (h1 : s1 < 2 ^ 32) (h2 : s2 < 2 ^ 32)
    (hne : s1 ≠ s2) : l.foldl crcStep s1 ≠ l.foldl crcStep s2 := by
  induction l generalizing s1 s2 with
  | nil => exact hne
  | cons b bs ih =>
    simp only [List.foldl_cons]
    apply ih _ _ (crcStep_lt s1 b h1) (crcStep_lt s2 b h2)
    intro hc
    exact hne (crcStep_state_inj s1 s2 b h1 h2 hc)

/-- CRC-32 detects every single-byte substitution. -/
theorem crc32_flip_ne (pre suf : List Nat) (x y : Nat) (hx : x < 256) (hy : y < 256)
    (hxy : x ≠ y) : crc32 (pre ++ x :: suf) ≠ crc32 (pre ++ y :: suf) := by
  unfold crc32
  intro hc
  have hxor := nat_xor_right_cancel _ _ _ hc
  rw [List.foldl_append, List.foldl_append, List.foldl_cons, List.foldl_cons] at hxor
  have hpre : pre.foldl crcStep 0xFFFFFFFF < 2 ^ 32 := crc_foldl_lt pre _ (by norm_num)
  have hstep : crcStep (pre.foldl crcStep 0xFFFFFFFF) x
      ≠ crcStep (pre.foldl crcStep 0xFFFFFFFF) y :=
    crcStep_byte_inj _ x y hx hy hxy
  exact crc_foldl_inj suf _ _ (crcStep_lt _ x hpre) (crcStep_lt _ y hpre) hstep hxor

/-! ## WAL records (src/src/engine/wal.cpp)

Wire format: `[CRC32 4][sequence 8][op 1][key_len 4][key][value_len 4][value]`,
all integers little-endian; the CRC covers every byte after the CRC field. -/

/-- A decoded WAL record.  `type` is the raw op byte
(`OperationType::kPut = 0x01`, `kDelete = 0x02`). -/
structure WALRecord where
  type : Nat
  key : List Nat
  value : List Nat
  sequence : Nat
deriving Repr, DecidableEq

/-- The bytes after the CRC field, as `WALWriter::Append` lays them out.
`static_cast<char>(type)` truncates the op byte modulo 256. -/
def walPayload (type : Nat) (key value : List Nat) (seq : Nat) : List Nat :=
  encU64 seq ++ [type % 256] ++ encU32 key.length ++ key ++ encU32 value.length ++ value

/-- `WALWriter::Append`: the CRC of the payload, then the payload. -/
def walAppendRecord (type : Nat) (key value : List Nat) (seq : Nat) : List Nat :=
  encU32 (crc32 (walPayload type key value seq)) ++ walPayload type key value seq

/-- A `file_.read(buf, n)` on a byte stream: `none` models a short read
(`gcount() < n`). -/
def readN (n : Nat) (bs : List Nat) : Option (List Nat × List Nat) :=
  if n ≤ bs.length then some (bs.take n, bs.drop n) else none

/-- `WALReader::ReadRecord`.  A short read of the 4 CRC bytes is end-of-file
(`Status::NotFound("End of WAL")`); any later short read is a truncated
record (`Status::Corruption`); after a full parse the CRC is recomputed over
the re-assembled payload bytes and compared with the stored CRC. -/
def readRecord (bs : List Nat) : Except Status (WALRecord × List Nat) :=
  match readN 4 bs with
  | none => .error (.notFound "End of WAL")
  | some (crcBuf, r1) =>
    match readN 8 r1 with
    | none => .error (.corruption "Truncated record (sequence)")
    | some (seqBuf, r2) =>
      match readN 1 r2 with
      | none => .error (.corruption "Truncated record (op)")
      | some (opBuf, r3) =>
        match readN 4 r3 with
        | none => .error (.corruption "Truncated record (key_len)")
        | some (keyLenBuf, r4) =>
          match readN (decU32 keyLenBuf) r4 with
          | none => .error (.corruption "Truncated record (key)")
          | some (key, r5) =>
            match readN 4 r5 with
            | none => .error (.corruption "Truncated record (val_len)")
            | some (valLenBuf, r6) =>
              match readN (decU32 valLenBuf) r6 with
              | none => .error (.corruption "Truncated record (value)")
              | some (value, r7) =>
                if crc32 (seqBuf ++ opBuf ++ keyLenBuf ++ key ++ valLenBuf ++ value)
                    = decU32 crcBuf then
                  .ok ({ type := opBuf.getD 0 0, key := key, value := value,
                         sequence := decU64 seqBuf }, r7)
                else .error (.corruption "CRC mismatch in WAL record")

theorem readN_some (n : Nat) (bs : List Nat) (pr : List Nat × List Nat)
    (h : readN n bs = some pr) : pr.1 = bs.take n ∧ pr.2 = bs.drop n ∧ n ≤ bs.length := by
  unfold readN at h
  split at h
  · next hle => cases h; exact ⟨rfl, rfl, hle⟩
  · cases h

theorem readN_pos (n : Nat) (bs : List Nat) (h : n ≤ bs.length) :
    readN n bs = some (bs.take n, bs.drop n) := by
  unfold readN
  rw [if_pos h]

theorem readN_exact (a b : List Nat) (n : Nat) (h : a.length = n) :
    readN n (a ++ b) = some (a, b) := by
  subst h
  unfold readN
  rw [if_pos (by simp)]
  rw [List.take_append_of_le_length (le_refl _), List.take_length,
    List.drop_append_of_le_length (le_refl _), List.drop_length, List.nil_append]

/-- Parsing a stream that starts with a 4-byte CRC field followed by
syntactically consistent record segments: the parse consumes exactly the
record and the result is decided by the CRC comparison. -/
theorem readRecord_segments (c : Nat) (s o kl ky vl vv rest : List Nat)
    (hs : s.length = 8) (ho : o.length = 1) (hkl : kl.length = 4) (hvl : vl.length = 4)
    (hk : decU32 kl = ky.length) (hv : decU32 vl = vv.length) :
    readRecord (encU32 c ++ (s ++ (o ++ (kl ++ (ky ++ (vl ++ (vv ++ rest))))))) =
      if crc32 (s ++ o ++ kl ++ ky ++ vl ++ vv) = c % 2 ^ 32 then
        .ok ({ type := o.getD 0 0, key := ky, value := vv, sequence := decU64 s }, rest)
      else .error (.corruption "CRC mismatch in WAL record") := by
  have e0 := readN_exact (encU32 c) (s ++ (o ++ (kl ++ (ky ++ (vl ++ (vv ++ rest)))))) 4
    (encBytes_length 4 c)
  have e1 := readN_exact s (o ++ (kl ++ (ky ++ (vl ++ (vv ++ rest))))) 8 hs
  have e2 := readN_exact o (kl ++ (ky ++ (vl ++ (vv ++ rest)))) 1 ho
  have e3 := readN_exact kl (ky ++ (vl ++ (vv ++ rest))) 4 hkl
  have e4 := readN_exact ky (vl ++ (vv ++ rest)) (decU32 kl) (hk.symm)
  have e5 := readN_exact vl (vv ++ rest) 4 hvl
  have e6 := readN_exact vv rest (decU32 vl) (hv.symm)
  have hc : decU32 (encU32 c) = c % 2 ^ 32 := by
    have := decBytes_encBytes 4 c
    norm_num at this
    exact this
  unfold readRecord
  rw [e0]
  dsimp only
  rw [e1]
  dsimp only
  rw [e2]
  dsimp only
  rw [e3]
  dsimp only
  rw [e4]
  dsimp only
  rw [e5]
  dsimp only
  rw [e6]
  dsimp only
  rw [hc]

/-- `WALReader::ForEach`, fuel-indexed.  The C++ loop terminates because every
successfully parsed record consumes at least its 21 fixed header bytes; the
fuel (one unit per parsed record) makes that explicit.  The callback result is
checked after delivery: a non-Ok status stops the loop and is returned. -/
def forEachGo (cb : WALRecord → Status) : Nat → List Nat → List WALRecord × Status
  | 0, _ => ([], Status.okStatus)
  | fuel + 1, bs =>
    if bs.isEmpty then ([], Status.okStatus)
    else
      match readRecord bs with
      | .error e => if e.isNotFound then ([], Status.okStatus) else ([], e)
      | .ok (r, rest) =>
        let s := cb r
        if s.isOk then
          let res := forEachGo cb fuel rest
          (r :: res.1, res.2)
        else ([r], s)

/-- `WALReader::ForEach` over a byte stream: the list of records delivered to
the callback, and the returned status. -/
def walForEach (cb : WALRecord → Status) (bs : List Nat) : List WALRecord × Status :=
  forEachGo cb (bs.length + 1) bs

/-- Field bounds guaranteed by the C++ types
(`uint8_t` op, `uint64_t` sequence, `uint32_t` lengths). -/
def recWF (r : WALRecord) : Prop :=
  r.type < 256 ∧ r.sequence < 2 ^ 64 ∧ r.key.length < 2 ^ 32 ∧ r.value.length < 2 ^ 32

instance (r : WALRecord) : Decidable (recWF r) := by
  unfold recWF
  exact inferInstance

/-- The byte stream produced by a sequence of `WALWriter::Append` calls. -/
def encodeRecords (rs : List WALRecord) : List Nat :=
  (rs.map fun r => walAppendRecord r.type r.key r.value r.sequence).flatten

/-- The status `ForEach` reports for the bytes after the last complete record:
`Ok` at a record boundary (empty tail, or a tail shorter than the 4 CRC bytes,
which `ReadRecord` reports as `NotFound`/EOF), otherwise the error `ReadRecord`
raised there. -/
def tailStatus (t : List Nat) : Status :=
  if t.isEmpty then Status.okStatus
  else
    match readRecord t with
    | .error e => if e.isNotFound then Status.okStatus else e
    | .ok _ => Status.okStatus

theorem crc32_lt (data : List Nat) : crc32 data < 2 ^ 32 :=
  Nat.xor_lt_two_pow (crc_foldl_lt data _ (by norm_num)) (by norm_num)

theorem walAppendRecord_length (t : Nat) (key value : List Nat) (s : Nat) :
    (walAppendRecord t key value s).length = 21 + key.length + value.length := by
  simp [walAppendRecord, walPayload, encBytes_length]
  omega

/-- Round trip: `ReadRecord` after `Append` recovers the record (with the op
byte and the sequence reduced to their machine widths) and consumes exactly
the record. -/
theorem walAppend_readRecord (t : Nat) (key value : List Nat) (s : Nat) (rest : List Nat)
    (hkl : key.length < 2 ^ 32) (hvl : value.length < 2 ^ 32) :
    readRecord (walAppendRecord t key value s ++ rest)
      = .ok ({ type := t % 256, key := key, value := value,
               sequence := s % 2 ^ 64 }, rest) := by
  have hk : decU32 (encU32 key.length) = key.length :=
    decBytes_encBytes_of_lt 4 _ (lt_of_lt_of_le hkl (by norm_num))
  have hv : decU32 (encU32 value.length) = value.length :=
    decBytes_encBytes_of_lt 4 _ (lt_of_lt_of_le hvl (by norm_num))
  have hsh := readRecord_segments (crc32 (walPayload t key value s)) (encU64 s) [t % 256]
    (encU32 key.length) key (encU32 value.length) value rest (encBytes_length 8 s) rfl
    (encBytes_length 4 _) (encBytes_length 4 _) hk hv
  have harr : walAppendRecord t key value s ++ rest
      = encU32 (crc32 (walPayload t key value s)) ++ (encU64 s ++ ([t % 256]
          ++ (encU32 key.length ++ (key ++ (encU32 value.length ++ (value ++ rest)))))) := by
    simp [walAppendRecord, walPayload, List.append_assoc]
  rw [harr, hsh, if_pos]
  · have hseq : decU64 (encU64 s) = s % 2 ^ 64 := by
      have := decBytes_encBytes 8 s
      norm_num at this
      exact this
    rw [hseq]
    rfl
  · rw [Nat.mod_eq_of_lt (crc32_lt _)]
    rfl

theorem encodeRecords_cons (r : WALRecord) (rs : List WALRecord) :
    encodeRecords (r :: rs)
      = walAppendRecord r.type r.key r.value r.sequence ++ encodeRecords rs := by
  simp [encodeRecords]

/-- `ForEach` on well-formed records followed by an unparseable tail: every
record is delivered (while the callback keeps returning Ok) and the status is
decided by the tail. -/
theorem forEachGo_clean (cb : WALRecord → Status) (rs : List WALRecord) (t : List Nat)
    (fuel : Nat) (hwf : ∀ r ∈ rs, recWF r) (hcb : ∀ r ∈ rs, (cb r).isOk = true)
    (hfuel : (encodeRecords rs ++ t).length < fuel)
    (htail : ∀ p, readRecord t ≠ .ok p) :
    forEachGo cb fuel (encodeRecords rs ++ t) = (rs, tailStatus t) := by
  induction rs generalizing fuel with
  | nil =>
    simp only [encodeRecords, List.map_nil, List.flatten_nil, List.nil_append] at hfuel ⊢
    cases fuel with
    | zero => omega
    | succ f =>
      unfold forEachGo tailStatus
      by_cases he : t.isEmpty
      · rw [if_pos he, if_pos he]
      · rw [if_neg he, if_neg he]
        cases hr : readRecord t with
        | error e =>
          dsimp only
          by_cases hn : e.isNotFound = true
          · rw [if_pos hn, if_pos hn]
          · rw [if_neg hn, if_neg hn]
        | ok p => exact absurd hr (htail p)
  | cons r rs ih =>
    have hwfr := hwf r (List.mem_cons_self r rs)
    have hread := walAppend_readRecord r.type r.key r.value r.sequence
      (encodeRecords rs ++ t) hwfr.2.2.1 hwfr.2.2.2
    have hrec : WALRecord.mk (r.type % 256) r.key r.value (r.sequence % 2 ^ 64) = r := by
      obtain ⟨ht1, ht2, -, -⟩ := hwfr
      cases r
      simp only [Nat.mod_eq_of_lt ht1, Nat.mod_eq_of_lt ht2]
    rw [encodeRecords_cons, List.append_assoc] at hfuel ⊢
    have hlen := walAppendRecord_length r.type r.key r.value r.sequence
    cases fuel with
    | zero =>
      exfalso
      simp only [List.length_append] at hfuel
      omega
    | succ f =>
      unfold forEachGo
      rw [if_neg (by
        simp only [List.isEmpty_iff, ← List.length_eq_zero, List.length_append]
        omega)]
      rw [hread]
      simp only [hrec, hcb r (List.mem_cons_self r rs),
        ih f (fun x hx => hwf x (List.mem_cons_of_mem r hx))
          (fun x hx => hcb x (List.mem_cons_of_mem r hx))
          (by simp only [List.length_append, hlen] at hfuel ⊢; omega),
        if_true]

/-- `ForEach` with a callback that rejects some record: the records up to and
including the offending one are delivered and the callback error is the
result. -/
theorem forEachGo_cbError (cb : WALRecord → Status) (rs1 : List WALRecord) (r : WALRecord)
    (rs2 : List WALRecord) (t : List Nat) (fuel : Nat)
    (hwf : ∀ x ∈ rs1, recWF x) (hcb : ∀ x ∈ rs1, (cb x).isOk = true)
    (hwfr : recWF r) (hcbr : (cb r).isOk = false)
    (hfuel : (encodeRecords (rs1 ++ r :: rs2) ++ t).length < fuel) :
    forEachGo cb fuel (encodeRecords (rs1 ++ r :: rs2) ++ t) = (rs1 ++ [r], cb r) := by
  induction rs1 generalizing fuel with
  | nil =>
    rw [List.nil_append] at hfuel ⊢
    rw [encodeRecords_cons, List.append_assoc] at hfuel ⊢
    have hlen := walAppendRecord_length r.type r.key r.value r.sequence
    cases fuel with
    | zero =>
      exfalso
      simp only [List.length_append] at hfuel
      omega
    | succ f =>
      have hread := walAppend_readRecord r.type r.key r.value r.sequence
        (encodeRecords rs2 ++ t) hwfr.2.2.1 hwfr.2.2.2
      have hrec : WALRecord.mk (r.type % 256) r.key r.value (r.sequence % 2 ^ 64) = r := by
        obtain ⟨ht1, ht2, -, -⟩ := hwfr
        cases r
        simp only [Nat.mod_eq_of_lt ht1, Nat.mod_eq_of_lt ht2]
      unfold forEachGo
      rw [if_neg (by
        simp only [List.isEmpty_iff, ← List.length_eq_zero, List.length_append]
        omega)]
      rw [hread]
      simp only [hrec, hcbr, Bool.false_eq_true, if_false, List.nil_append]
  | cons x rs1 ih =>
    have hwfx := hwf x (List.mem_cons_self x rs1)
    have hread := walAppend_readRecord x.type x.key x.value x.sequence
      (encodeRecords (rs1 ++ r :: rs2) ++ t) hwfx.2.2.1 hwfx.2.2.2
    have hrec : WALRecord.mk (x.type % 256) x.key x.value (x.sequence % 2 ^ 64) = x := by
      obtain ⟨ht1, ht2, -, -⟩ := hwfx
      cases x
      simp only [Nat.mod_eq_of_lt ht1, Nat.mod_eq_of_lt ht2]
    rw [List.cons_append, encodeRecords_cons, List.append_assoc] at hfuel ⊢
    have hlen := walAppendRecord_length x.type x.key x.value x.sequence
    cases fuel with
    | zero =>
      exfalso
      simp only [List.length_append] at hfuel
      omega
    | succ f =>
      unfold forEachGo
      rw [if_neg (by
        simp only [List.isEmpty_iff, ← List.length_eq_zero, List.length_append]
        omega)]
      rw [hread]
      simp only [hrec, hcb x (List.mem_cons_self x rs1),
        ih f (fun y hy => hwf y (List.mem_cons_of_mem x hy))
          (fun y hy => hcb y (List.mem_cons_of_mem x hy))
          (by simp only [List.length_append, hlen] at hfuel ⊢; omega),
        if_true, List.cons_append]

/-- `ReadRecord` fails on these bytes (EOF, truncation or CRC mismatch). -/
def readFails (t : List Nat) : Bool :=
  match readRecord t with
  | .ok _ => false
  | .error _ => true

theorem readFails_iff (t : List Nat) (h : readFails t = true) :
    ∀ p, readRecord t ≠ .ok p := by
  intro p hc
  unfold readFails at h
  rw [hc] at h
  cases h

/-- C4 counterexample: one good record followed by a torn tail (a truncated
second record).  `ForEach` delivers the good record but returns the
`Corruption` status — not success as the claim states. -/
theorem wal_forEach_torn_not_ok :
    walForEach (fun _ => Status.okStatus)
        (walAppendRecord 1 [107] [118] 1 ++ [92, 183, 91, 219, 5])
      = ([WALRecord.mk 1 [107] [118] 1], Status.corruption "Truncated record (sequence)")
    ∧ (Status.corruption "Truncated record (sequence)").isOk = false := by
  constructor
  · decide
  · decide

/-- C4 (amended): when `WALReader::ForEach` replays a WAL whose tail is
damaged, it delivers every record preceding the damaged tail to the callback
and then stops; the returned status is `Ok` only when the tail breaks at a
record boundary (empty, or shorter than the 4-byte CRC header, reported by
`ReadRecord` as EOF) and is otherwise the `Corruption` error from the tail
(`Database::Recover` logs and tolerates it); a non-Ok status returned by the
callback stops the replay right after the offending record and is propagated
as `ForEach`'s result. -/
theorem wal_forEach_delivery_and_status :
    (∀ (cb : WALRecord → Status) (rs : List WALRecord) (t : List Nat),
      (∀ r ∈ rs, recWF r) → (∀ r ∈ rs, (cb r).isOk = true) →
      readFails t = true →
      walForEach cb (encodeRecords rs ++ t) = (rs, tailStatus t)) ∧
    (∀ (cb : WALRecord → Status) (rs1 : List WALRecord) (r : WALRecord)
        (rs2 : List WALRecord) (t : List Nat),
      (∀ x ∈ rs1, recWF x) → (∀ x ∈ rs1, (cb x).isOk = true) →
      recWF r → (cb r).isOk = false →
      walForEach cb (encodeRecords (rs1 ++ r :: rs2) ++ t) = (rs1 ++ [r], cb r)) := by
  constructor
  · intro cb rs t hwf hcb htail
    exact forEachGo_clean cb rs t _ hwf hcb (Nat.lt_succ_self _) (readFails_iff t htail)
  · intro cb rs1 r rs2 t hwf hcb hwfr hcbr
    exact forEachGo_cbError cb rs1 r rs2 t _ hwf hcb hwfr hcbr (Nat.lt_succ_self _)

/-- Witness for `wal_forEach_delivery_and_status` at concrete inputs. -/
theorem wal_forEach_delivery_and_status_witness :
    ((∀ r ∈ [WALRecord.mk 1 [107] [118] 1], recWF r) ∧
      readFails [92, 183, 91, 219, 5] = true ∧
      walForEach (fun _ => Status.okStatus)
          (encodeRecords [WALRecord.mk 1 [107] [118] 1] ++ [92, 183, 91, 219, 5])
        = ([WALRecord.mk 1 [107] [118] 1], tailStatus [92, 183, 91, 219, 5])) ∧
    (recWF (WALRecord.mk 2 [107] [] 3) ∧
      ((fun _ => Status.ioError "cb failed") (WALRecord.mk 2 [107] [] 3)).isOk = false ∧
      walForEach (fun _ => Status.ioError "cb failed")
          (encodeRecords ([] ++ WALRecord.mk 2 [107] [] 3 :: []) ++ [])
        = ([] ++ [WALRecord.mk 2 [107] [] 3], Status.ioError "cb failed")) := by
  refine ⟨⟨by decide, by decide, ?_⟩, by decide, by decide, ?_⟩
  · exact wal_forEach_delivery_and_status.1 (fun _ => Status.okStatus)
      [WALRecord.mk 1 [107] [118] 1] [92, 183, 91, 219, 5]
      (by decide) (by decide) (by decide)
  · exact wal_forEach_delivery_and_status.2 (fun _ => Status.ioError "cb failed")
      [] (WALRecord.mk 2 [107] [] 3) [] []
      (by decide) (by decide) (by decide) (by decide)

/-! ### Single-byte flips in a WAL record (C5) -/

theorem walPayload_length (t : Nat) (key value : List Nat) (s : Nat) :
    (walPayload t key value s).length = 17 + key.length + value.length := by
  simp [walPayload, encBytes_length]
  omega

theorem walPayload_bytes_lt (t : Nat) (key value : List Nat) (s : Nat)
    (hkb : ∀ x ∈ key, x < 256) (hvb : ∀ x ∈ value, x < 256) :
    ∀ x ∈ walPayload t key value s, x < 256 := by
  intro x hx
  simp only [walPayload, List.mem_append, List.mem_singleton] at hx
  rcases hx with ((((h | h) | h) | h) | h) | h
  · exact encBytes_byte_lt 8 s x h
  · subst h
    exact Nat.mod_lt t (by norm_num)
  · exact encBytes_byte_lt 4 key.length x h
  · exact hkb x h
  · exact encBytes_byte_lt 4 value.length x h
  · exact hvb x h

theorem list_eq_take_getD_drop (l : List Nat) (j : Nat) (hj : j < l.length) :
    l = l.take j ++ l.getD j 0 :: l.drop (j + 1) := by
  conv_lhs => rw [← List.take_append_drop j l]
  rw [List.drop_eq_getElem_cons hj, List.getD_eq_getElem l 0 hj]

theorem list_set_take_drop (l : List Nat) (j b : Nat) (hj : j < l.length) :
    l.set j b = l.take j ++ b :: l.drop (j + 1) := by
  rw [List.set_eq_take_append_cons_drop, if_pos hj]

/-- Writing one byte at a payload position outside the two length fields
leaves the record's parse skeleton intact: the result is again a
`[seq 8][op 1][key_len 4][key][value_len 4][value]` layout with the same
length fields. -/
theorem walPayload_set_segments (t : Nat) (key value : List Nat) (seq : Nat) (j b : Nat)
    (hj : j < 17 + key.length + value.length)
    (hkf : ¬ (9 ≤ j ∧ j < 13))
    (hvf : ¬ (13 + key.length ≤ j ∧ j < 17 + key.length)) :
    ∃ s o ky vv : List Nat,
      s.length = 8 ∧ o.length = 1 ∧ ky.length = key.length ∧ vv.length = value.length ∧
      (walPayload t key value seq).set j b
        = s ++ (o ++ (encU32 key.length ++ (ky ++ (encU32 value.length ++ vv)))) := by
  rw [show walPayload t key value seq = encU64 seq ++ ([t % 256] ++ (encU32 key.length
      ++ (key ++ (encU32 value.length ++ value)))) from by
    simp [walPayload, List.append_assoc]]
  rw [List.set_append]
  by_cases h1 : j < 8
  · rw [if_pos (by rw [encBytes_length]; exact h1)]
    exact ⟨(encU64 seq).set j b, [t % 256], key, value,
      by rw [List.length_set]; exact encBytes_length 8 seq, rfl, rfl, rfl, rfl⟩
  · rw [if_neg (by rw [encBytes_length]; exact h1), encBytes_length, List.set_append]
    by_cases h2 : j - 8 < 1
    · rw [if_pos (by simpa using h2)]
      exact ⟨encU64 seq, [t % 256].set (j - 8) b, key, value, encBytes_length 8 seq,
        by rw [List.length_set]; rfl, rfl, rfl, rfl⟩
    · rw [if_neg (by simpa using h2), List.length_singleton, List.set_append]
      have h13 : 13 ≤ j := by omega
      rw [if_neg (by rw [encBytes_length]; omega), encBytes_length, List.set_append]
      by_cases h3 : j - 8 - 1 - 4 < key.length
      · rw [if_pos h3]
        exact ⟨encU64 seq, [t % 256], key.set (j - 8 - 1 - 4) b, value,
          encBytes_length 8 seq, rfl, List.length_set key _ b, rfl, rfl⟩
      · rw [if_neg h3, List.set_append,
          if_neg (by rw [encBytes_length]; omega), encBytes_length]
        exact ⟨encU64 seq, [t % 256], key, value.set (j - 8 - 1 - 4 - key.length - 4) b,
          encBytes_length 8 seq, rfl, rfl, List.length_set value _ b, rfl⟩

/-- C5 (amended): flipping any single payload byte that lies outside the two
length fields — i.e. in the sequence, op, key or value bytes — causes
`ReadRecord` on the modified record to fail with the CRC-mismatch
`Corruption` error. -/
theorem wal_flip_nonlength_rejected (t : Nat) (key value : List Nat) (seq : Nat)
    (p b : Nat)
    (hkb : ∀ x ∈ key, x < 256) (hvb : ∀ x ∈ value, x < 256)
    (hkl : key.length < 2 ^ 32) (hvl : value.length < 2 ^ 32)
    (hb : b < 256) (hp4 : 4 ≤ p)
    (hplen : p < (walAppendRecord t key value seq).length)
    (hkf : ¬ (13 ≤ p ∧ p < 17))
    (hvf : ¬ (17 + key.length ≤ p ∧ p < 21 + key.length))
    (hbne : b ≠ (walAppendRecord t key value seq).getD p 0) :
    readRecord ((walAppendRecord t key value seq).set p b)
      = .error (.corruption "CRC mismatch in WAL record") := by
  have hPlen := walPayload_length t key value seq
  have hreclen := walAppendRecord_length t key value seq
  have hjP : p - 4 < (walPayload t key value seq).length := by omega
  have hsplit : (walAppendRecord t key value seq).set p b
      = encU32 (crc32 (walPayload t key value seq))
          ++ (walPayload t key value seq).set (p - 4) b := by
    unfold walAppendRecord
    rw [List.set_append, if_neg (by rw [encBytes_length]; omega), encBytes_length]
  obtain ⟨s, o, ky, vv, hs, ho, hky, hvv, hseg⟩ :=
    walPayload_set_segments t key value seq (p - 4) b (by omega)
      (by omega) (by omega)
  have hk : decU32 (encU32 key.length) = ky.length := by
    rw [hky]
    exact decBytes_encBytes_of_lt 4 _ (lt_of_lt_of_le hkl (by norm_num))
  have hv : decU32 (encU32 value.length) = vv.length := by
    rw [hvv]
    exact decBytes_encBytes_of_lt 4 _ (lt_of_lt_of_le hvl (by norm_num))
  have hsh := readRecord_segments (crc32 (walPayload t key value seq)) s o
    (encU32 key.length) ky (encU32 value.length) vv [] hs ho
    (encBytes_length 4 _) (encBytes_length 4 _) hk hv
  rw [List.append_nil] at hsh
  rw [hsplit, hseg, hsh, if_neg]
  rw [Nat.mod_eq_of_lt (crc32_lt _)]
  have hconcat : s ++ o ++ encU32 key.length ++ ky ++ encU32 value.length ++ vv
      = (walPayload t key value seq).set (p - 4) b := by
    rw [hseg]
    simp [List.append_assoc]
  rw [hconcat]
  have hold : (walPayload t key value seq).getD (p - 4) 0 < 256 := by
    apply walPayload_bytes_lt t key value seq hkb hvb
    rw [List.getD_eq_getElem _ 0 hjP]
    exact List.getElem_mem hjP
  have hbneP : b ≠ (walPayload t key value seq).getD (p - 4) 0 := by
    intro hc
    apply hbne
    unfold walAppendRecord
    rw [getD_append_ge _ _ p 0 (by rw [encBytes_length]; omega), encBytes_length]
    exact hc
  have hne := crc32_flip_ne ((walPayload t key value seq).take (p - 4))
    ((walPayload t key value seq).drop (p - 4 + 1)) b
    ((walPayload t key value seq).getD (p - 4) 0) hb hold hbneP
  rw [← list_set_take_drop _ _ _ hjP, ← list_eq_take_getD_drop _ _ hjP] at hne
  exact hne

instance exceptDecEq {e a : Type} [DecidableEq e] [DecidableEq a] :
    DecidableEq (Except e a) := fun x y =>
  match x, y with
  | .error e1, .error e2 =>
    if h : e1 = e2 then isTrue (by rw [h]) else isFalse (by intro hc; cases hc; exact h rfl)
  | .ok x1, .ok x2 =>
    if h : x1 = x2 then isTrue (by rw [h]) else isFalse (by intro hc; cases hc; exact h rfl)
  | .error _, .ok _ => isFalse (by intro hc; cases hc)
  | .ok _, .error _ => isFalse (by intro hc; cases hc)

/-- The engineered record of the C5 counterexample: its value bytes are chosen
so that the CRC of the stream re-parsed after the length-field flip collides
with the stored CRC. -/
def cexValue : List Nat :=
  [0, 1, 2, 3, 4, 5, 6, 7, 8, 9, 10, 11, 12, 13, 14, 15, 188, 12, 127, 79]

/-- C5 counterexample: flipping payload byte 14 (stream position 18, the low
byte of the value-length field) of this record from 20 to 10 produces a
stream that `ReadRecord` accepts and decodes — the claim that every
single-byte payload flip is rejected is false. -/
theorem wal_flip_accepted :
    4 ≤ 18 ∧ 18 < (walAppendRecord 1 [107] cexValue 1).length ∧
    (walAppendRecord 1 [107] cexValue 1).getD 18 0 = 20 ∧ (10 : Nat) ≠ 20 ∧
    readRecord ((walAppendRecord 1 [107] cexValue 1).set 18 10)
      = .ok (WALRecord.mk 1 [107] [0, 1, 2, 3, 4, 5, 6, 7, 8, 9] 1,
             [10, 11, 12, 13, 14, 15, 188, 12, 127, 79]) := by
  refine ⟨by norm_num, by decide, by decide, by decide, by decide⟩

/-- Witness for `wal_flip_nonlength_rejected`: flipping the first sequence
byte of a concrete record is rejected with a CRC mismatch. -/
theorem wal_flip_nonlength_rejected_witness :
    ((∀ x ∈ [107], x < 256) ∧ (∀ x ∈ [118], x < 256) ∧
      (4 : Nat) ≤ 4 ∧ 4 < (walAppendRecord 1 [107] [118] 1).length ∧
      ¬ (13 ≤ 4 ∧ 4 < 17) ∧ ¬ (17 + 1 ≤ 4 ∧ 4 < 21 + 1) ∧
      (7 : Nat) ≠ (walAppendRecord 1 [107] [118] 1).getD 4 0) ∧
    readRecord ((walAppendRecord 1 [107] [118] 1).set 4 7)
      = .error (.corruption "CRC mismatch in WAL record") := by
  refine ⟨⟨by decide, by decide, by norm_num, by decide, by decide, by decide, by decide⟩, ?_⟩
  exact wal_flip_nonlength_rejected 1 [107] [118] 1 4 7 (by decide) (by decide)
    (by norm_num) (by norm_num) (by norm_num) (by norm_num) (by decide)
    (by decide) (by decide) (by decide)

/-! ## Slotted page (src/include/mydb/storage/page.hpp)

The 4096-byte page is a header, a slot directory and a tuple-data region; the
model splits the raw buffer into its interpreted parts.  `pin_count_` is a C++
`int`, so it is modelled as `Int`. -/

structure Slot where
  offset : Nat
  length : Nat
  isValid : Bool
deriving Repr, DecidableEq

structure Page where
  pageId : Int
  lsn : Int
  tupleCount : Nat
  freeSpacePointer : Nat
  slotArrayEnd : Nat
  checksum : Nat
  slots : List Slot
  data : List Nat
  pinCount : Int
  dirty : Bool
deriving Repr, DecidableEq

/-- `Page::GetTuple` (const): bounds check on the slot index, validity check on
the slot, then the addressed byte range. -/
def Page.getTuple (p : Page) (slotIdx : Int) : Option (List Nat) :=
  if slotIdx < 0 ∨ (p.tupleCount : Int) ≤ slotIdx then none
  else
    let slot := p.slots.getD slotIdx.toNat ⟨0, 0, false⟩
    if slot.isValid = false then none
    else some ((p.data.drop slot.offset).take slot.length)

/-- `Page::DeleteTuple`: same checks; on success the slot is marked invalid and
the page dirty (tuple data is not touched). -/
def Page.deleteTuple (p : Page) (slotIdx : Int) : Bool × Page :=
  if slotIdx < 0 ∨ (p.tupleCount : Int) ≤ slotIdx then (false, p)
  else
    let slot := p.slots.getD slotIdx.toNat ⟨0, 0, false⟩
    if slot.isValid = false then (false, p)
    else (true, { p with slots := p.slots.set slotIdx.toNat { slot with isValid := false },
                         dirty := true })

/-- C10: for a negative index, an index at or beyond `tuple_count`, or a slot
marked invalid, `GetTuple` returns null and `DeleteTuple` returns false with
the page unchanged; neither error branch depends on the tuple-data region
(the same results hold for any contents of `data`). -/
theorem page_error_branches (p : Page) (idx : Int)
    (h : idx < 0 ∨ (p.tupleCount : Int) ≤ idx ∨
      (p.slots.getD idx.toNat ⟨0, 0, false⟩).isValid = false) :
    p.getTuple idx = none ∧ p.deleteTuple idx = (false, p) ∧
    (∀ d2 : List Nat, Page.getTuple { p with data := d2 } idx = none) ∧
    (∀ d2 : List Nat,
      Page.deleteTuple { p with data := d2 } idx = (false, { p with data := d2 })) := by
  rcases h with h | h | h
  · refine ⟨?_, ?_, fun d2 => ?_, fun d2 => ?_⟩ <;>
      simp [Page.getTuple, Page.deleteTuple, h]
  · refine ⟨?_, ?_, fun d2 => ?_, fun d2 => ?_⟩ <;>
      simp [Page.getTuple, Page.deleteTuple, h]
  · have h2 : (p.slots[idx.toNat]?.getD ⟨0, 0, false⟩).isValid = false := by
      simpa [List.getD_eq_getElem?_getD] using h
    refine ⟨?_, ?_, fun d2 => ?_, fun d2 => ?_⟩ <;>
      by_cases hb : idx < 0 ∨ (p.tupleCount : Int) ≤ idx <;>
      simp [Page.getTuple, Page.deleteTuple, hb, h, h2]

/-- Witness for `page_error_branches`: an in-range index whose slot is marked
invalid. -/
theorem page_error_branches_witness :
    ((0 : Int) < 0 ∨ ((1 : Nat) : Int) ≤ 0 ∨
      (([Slot.mk 100 2 false] : List Slot).getD (Int.toNat 0) ⟨0, 0, false⟩).isValid = false) ∧
    (Page.mk 1 0 1 4000 32 0 [Slot.mk 100 2 false] [7, 7] 0 false).getTuple 0 = none ∧
    (Page.mk 1 0 1 4000 32 0 [Slot.mk 100 2 false] [7, 7] 0 false).deleteTuple 0
      = (false, Page.mk 1 0 1 4000 32 0 [Slot.mk 100 2 false] [7, 7] 0 false) := by
  have h := page_error_branches (Page.mk 1 0 1 4000 32 0 [Slot.mk 100 2 false] [7, 7] 0 false)
    0 (by decide)
  exact ⟨by decide, h.1, h.2.1⟩

/-! ## LRU-K replacer (src/include/mydb/storage/lru_k_replacer.hpp)

`access_history_` is an `std::unordered_map<frame_id_t, std::list<timestamp_t>>`
(modelled as an association list with `lookup`), `evictable_frames_` an
`std::unordered_set` (modelled as a duplicate-free list whose unspecified
iteration order is passed to `evict` explicitly).  Frame ids are `int32_t`,
hence `Int`; `INVALID_FRAME_ID = -1`. -/

structure LRUKReplacer where
  numFrames : Nat
  k : Nat
  currentTimestamp : Nat
  accessHistory : List (Int × List Nat)
  evictableFrames : List Int
deriving Repr, DecidableEq

def LRUKReplacer.init (numFrames k : Nat) : LRUKReplacer :=
  ⟨numFrames, k, 0, [], []⟩

/-- Write-through update of the association list (`access_history_[fid] = l`,
default-constructing the entry when absent, as `operator[]` does). -/
def setHist (h : List (Int × List Nat)) (fid : Int) (l : List Nat) : List (Int × List Nat) :=
  if (h.lookup fid).isSome then h.map fun pr => if pr.1 = fid then (fid, l) else pr
  else h ++ [(fid, l)]

def eraseHist (h : List (Int × List Nat)) (fid : Int) : List (Int × List Nat) :=
  h.filter fun pr => pr.1 != fid

/-- `while (history.size() > k_) history.pop_front()`. -/
def trimToK (l : List Nat) (k : Nat) : List Nat := l.drop (l.length - k)

/-- `LRUKReplacer::RecordAccess`: bump the clock, append the timestamp, keep
the last K entries. -/
def LRUKReplacer.recordAccess (r : LRUKReplacer) (fid : Int) : LRUKReplacer :=
  let ts := r.currentTimestamp + 1
  let hist := ((r.accessHistory.lookup fid).getD []) ++ [ts]
  { r with currentTimestamp := ts,
           accessHistory := setHist r.accessHistory fid (trimToK hist r.k) }

/-- Set membership insert for the `unordered_set`. -/
def insertSet (l : List Int) (fid : Int) : List Int := if fid ∈ l then l else l ++ [fid]

/-- `LRUKReplacer::SetEvictable`. -/
def LRUKReplacer.setEvictable (r : LRUKReplacer) (fid : Int) (ev : Bool) : LRUKReplacer :=
  if ev then { r with evictableFrames := insertSet r.evictableFrames fid }
  else { r with evictableFrames := r.evictableFrames.erase fid }

/-- Accumulator of the selection loop in `LRUKReplacer::Evict`
(`victim`, `max_k_distance`, `earliest_first_access`, `found_inf`). -/
structure EvictAcc where
  victim : Int
  maxKDistance : Nat
  earliestFirstAccess : Nat
  foundInf : Bool
deriving Repr, DecidableEq

/-- One iteration of the `for (frame_id_t fid : evictable_frames_)` loop. -/
def evictStep (r : LRUKReplacer) (acc : EvictAcc) (fid : Int) : EvictAcc :=
  match r.accessHistory.lookup fid with
  | none =>
    if acc.foundInf = false ∨ fid < acc.victim then
      { acc with victim := fid, foundInf := true }
    else acc
  | some history =>
    if history.isEmpty then
      if acc.foundInf = false ∨ fid < acc.victim then
        { acc with victim := fid, foundInf := true }
      else acc
    else if history.length < r.k then
      if acc.foundInf = false ∨ history.headD 0 < acc.earliestFirstAccess then
        { acc with victim := fid, earliestFirstAccess := history.headD 0, foundInf := true }
      else acc
    else if acc.foundInf = false then
      if r.currentTimestamp - history.headD 0 > acc.maxKDistance then
        { acc with maxKDistance := r.currentTimestamp - history.headD 0, victim := fid }
      else acc
    else acc

/-- `LRUKReplacer::Evict`, with the set's iteration order passed explicitly
(`order` is the sequence in which the `unordered_set` enumerates the
evictable frames).  Returns the evicted frame (if any) and the new state. -/
def LRUKReplacer.evict (r : LRUKReplacer) (order : List Int) : Option Int × LRUKReplacer :=
  if r.evictableFrames.isEmpty then (none, r)
  else
    let acc := order.foldl (evictStep r) ⟨-1, 0, 18446744073709551615, false⟩
    if acc.victim = -1 then (none, r)
    else (some acc.victim,
      { r with evictableFrames := r.evictableFrames.erase acc.victim,
               accessHistory := eraseHist r.accessHistory acc.victim })

/-! ## Buffer pool (src/include/mydb/storage/buffer_pool.hpp)

Only the state touched by `UnpinPage` needs precision; the disk manager is a
page-id to bytes map.  `page_table_` is an `unordered_map<page_id_t, frame_id_t>`
modelled as an association list. -/

structure BufferPoolManager where
  poolSize : Nat
  pages : List Page
  pageTable : List (Int × Nat)
  freeList : List Nat
  replacer : LRUKReplacer
  disk : List (Int × List Nat)
deriving Repr, DecidableEq

/-- Update frame `fid` of the pool in place (`pages_[frame_id]`). -/
def setFrame (pages : List Page) (fid : Nat) (p : Page) : List Page := pages.set fid p

def emptyPage : Page := ⟨-1, 0, 0, 4096, 32, 0, [], [], 0, false⟩

/-- `BufferPoolManager::UnpinPage`: page-table lookup, pin-count guard, then
decrement, dirty OR-set, and evictability hand-off at pin count zero. -/
def BufferPoolManager.unpinPage (b : BufferPoolManager) (pageId : Int)
    (isDirty : Bool) : Bool × BufferPoolManager :=
  match b.pageTable.lookup pageId with
  | none => (false, b)
  | some frameId =>
    let page := b.pages.getD frameId emptyPage
    if page.pinCount ≤ 0 then (false, b)
    else
      let page := { page with pinCount := if page.pinCount > 0 then page.pinCount - 1
                                          else page.pinCount }
      let page := if isDirty then { page with dirty := true } else page
      let b2 := { b with pages := setFrame b.pages frameId page }
      if page.pinCount = 0 then
        (true, { b2 with replacer := b2.replacer.setEvictable (frameId : Int) true })
      else (true, b2)

/-- C9: `UnpinPage` returns false and leaves the entire pool state unchanged
when the page id is absent from the page table or the mapped frame's pin count
is already at (or below) zero; moreover a false return never modifies any
state. -/
theorem unpinPage_error_no_change (b : BufferPoolManager) (pageId : Int) (isDirty : Bool) :
    ((b.pageTable.lookup pageId = none ∨
        (b.pages.getD ((b.pageTable.lookup pageId).getD 0) emptyPage).pinCount ≤ 0) →
      b.unpinPage pageId isDirty = (false, b)) ∧
    (∀ b2, b.unpinPage pageId isDirty = (false, b2) → b2 = b) := by
  constructor
  · intro h
    unfold BufferPoolManager.unpinPage
    cases hl : b.pageTable.lookup pageId with
    | none => rfl
    | some fid =>
      rcases h with h | h
      · rw [hl] at h
        cases h
      · rw [hl] at h
        simp only [Option.getD_some] at h
        dsimp only
        rw [if_pos h]
  · intro b2 hrun
    unfold BufferPoolManager.unpinPage at hrun
    cases hl : b.pageTable.lookup pageId with
    | none =>
      rw [hl] at hrun
      cases hrun
      rfl
    | some fid =>
      rw [hl] at hrun
      by_cases hpin : (b.pages.getD fid emptyPage).pinCount ≤ 0
      · simp only [if_pos hpin] at hrun
        cases hrun
        rfl
      · simp only [if_neg hpin] at hrun
        have hfst := congrArg Prod.fst hrun
        repeat' split at hfst
        all_goals simp at hfst

/-- Witness for `unpinPage_error_no_change` at a concrete pool whose only page
has pin count 0. -/
theorem unpinPage_error_no_change_witness :
    ((BufferPoolManager.mk 1 [emptyPage] [(5, 0)] [] (LRUKReplacer.init 1 2) []).pageTable.lookup 5
        = none ∨
      (([emptyPage] : List Page).getD
          (((BufferPoolManager.mk 1 [emptyPage] [(5, 0)] [] (LRUKReplacer.init 1 2)
            []).pageTable.lookup 5).getD 0) emptyPage).pinCount ≤ 0) ∧
    (BufferPoolManager.mk 1 [emptyPage] [(5, 0)] [] (LRUKReplacer.init 1 2) []).unpinPage 5 true
      = (false, BufferPoolManager.mk 1 [emptyPage] [(5, 0)] [] (LRUKReplacer.init 1 2) []) := by
  refine ⟨by decide, ?_⟩
  exact (unpinPage_error_no_change
    (BufferPoolManager.mk 1 [emptyPage] [(5, 0)] [] (LRUKReplacer.init 1 2) []) 5 true).1
    (by decide)

/-! ## Byte-string ordering

C++ `std::string` comparison is lexicographic over `unsigned char`. -/

def bytesLt : List Nat → List Nat → Bool
  | [], [] => false
  | [], _ :: _ => true
  | _ :: _, [] => false
  | a :: as, b :: bs => if a < b then true else if b < a then false else bytesLt as bs

/-- `a <= b` as `!(b < a)`. -/
def bytesLe (a b : List Nat) : Bool := ! bytesLt b a

/-! ## SSTable (src/src/engine/sstable_builder.cpp, src/src/engine/sstable_reader.cpp)

Layout: `[data blocks][index block][bloom block][60-byte footer]`. -/

def kMagicNumber : Nat := 0x4D594442
def kSSTableBlockSizeModel : Nat := 4 * 1024
def kBloomFilterBitsPerKeyModel : Nat := 10

structure SSTableFooter where
  dataBlockOffset : Nat
  dataBlockSize : Nat
  indexBlockOffset : Nat
  indexBlockSize : Nat
  bloomFilterOffset : Nat
  bloomFilterSize : Nat
  entryCount : Nat
  magicNumber : Nat
deriving Repr, DecidableEq

/-- `SSTableFooter::Encode`: seven u64 fields then the u32 magic, LE. -/
def SSTableFooter.encode (f : SSTableFooter) : List Nat :=
  encU64 f.dataBlockOffset ++ encU64 f.dataBlockSize ++ encU64 f.indexBlockOffset ++
    encU64 f.indexBlockSize ++ encU64 f.bloomFilterOffset ++ encU64 f.bloomFilterSize ++
    encU64 f.entryCount ++ encU32 f.magicNumber

/-- `SSTableFooter::Decode` with its length and magic checks. -/
def SSTableFooter.decode (data : List Nat) : Except Status SSTableFooter :=
  if data.length < 60 then .error (.corruption "Footer too short")
  else
    let f : SSTableFooter :=
      { dataBlockOffset := decU64 data
        dataBlockSize := decU64 (data.drop 8)
        indexBlockOffset := decU64 (data.drop 16)
        indexBlockSize := decU64 (data.drop 24)
        bloomFilterOffset := decU64 (data.drop 32)
        bloomFilterSize := decU64 (data.drop 40)
        entryCount := decU64 (data.drop 48)
        magicNumber := decU32 (data.drop 56) }
    if f.magicNumber ≠ kMagicNumber then .error (.corruption "Invalid magic number")
    else .ok f

structure IndexEntry where
  firstKey : List Nat
  blockOffset : Nat
  blockSize : Nat
deriving Repr, DecidableEq

/-- `IndexEntry::Encode`: `[key_len u32][first_key][block_offset u64][block_size u64]`. -/
def IndexEntry.encode (e : IndexEntry) : List Nat :=
  encU32 e.firstKey.length ++ e.firstKey ++ encU64 e.blockOffset ++ encU64 e.blockSize

/-- `IndexEntry::Decode` with its two bound checks. -/
def IndexEntry.decode (data : List Nat) : Except Status IndexEntry :=
  if data.length < 20 then .error (.corruption "Index entry too short")
  else
    let keyLen := decU32 data
    if 4 + keyLen + 16 > data.length then .error (.corruption "Index entry truncated")
    else .ok ⟨(data.drop 4).take keyLen, decU64 (data.drop (4 + keyLen)),
      decU64 (data.drop (12 + keyLen))⟩

/-- A block-local record: `[key_len u32][key][value_len u32][value]`. -/
def encodeEntry (key value : List Nat) : List Nat :=
  encU32 key.length ++ key ++ encU32 value.length ++ value

def encodeEntries (es : List (List Nat × List Nat)) : List Nat :=
  (es.map fun pr => encodeEntry pr.1 pr.2).flatten

/-- `SSTableBuilder` data state.  The output file stream is `fileBytes`;
`finished_`/`abandoned_` and I/O failure are not data-relevant and are
omitted. -/
structure SSTableBuilder where
  blockSize : Nat
  bloomBitsPerKey : Nat
  fileBytes : List Nat
  dataBlock : List Nat
  firstKeyInBlock : List Nat
  entriesInBlock : Nat
  indexEntries : List IndexEntry
  keysForBloom : List (List Nat)
  numEntries : Nat
  offset : Nat
  indexOffset : Nat
  bloomOffset : Nat
deriving Repr, DecidableEq

def SSTableBuilder.init (blockSize bloomBits : Nat) : SSTableBuilder :=
  ⟨blockSize, bloomBits, [], [], [], 0, [], [], 0, 0, 0, 0⟩

/-- `SSTableBuilder::FlushBlock`: record an index entry for the pending block,
append it to the file, reset the block buffer. -/
def SSTableBuilder.flushBlock (b : SSTableBuilder) : SSTableBuilder :=
  if b.dataBlock.isEmpty then b
  else
    { b with
      indexEntries := b.indexEntries ++ [⟨b.firstKeyInBlock, b.offset, b.dataBlock.length⟩]
      fileBytes := b.fileBytes ++ b.dataBlock
      offset := b.offset + b.dataBlock.length
      dataBlock := []
      entriesInBlock := 0 }

/-- `SSTableBuilder::Add`: record the block's first key, the bloom key, the
encoded entry; flush when the block buffer reaches the target size. -/
def SSTableBuilder.add (b : SSTableBuilder) (key value : List Nat) : SSTableBuilder :=
  let b := if b.entriesInBlock = 0 then { b with firstKeyInBlock := key } else b
  let b :=
    { b with
      keysForBloom := b.keysForBloom ++ [key]
      dataBlock := b.dataBlock ++ encodeEntry key value
      numEntries := b.numEntries + 1
      entriesInBlock := b.entriesInBlock + 1 }
  if b.blockSize ≤ b.dataBlock.length then b.flushBlock else b

/-- `SSTableBuilder::WriteIndexBlock`: `[num_entries u32][entries…]`. -/
def SSTableBuilder.writeIndexBlock (b : SSTableBuilder) : SSTableBuilder :=
  let indexData := encU32 b.indexEntries.length ++ (b.indexEntries.map IndexEntry.encode).flatten
  { b with indexOffset := b.offset, fileBytes := b.fileBytes ++ indexData,
           offset := b.offset + indexData.length }

/-- `SSTableBuilder::WriteBloomFilter`. -/
def SSTableBuilder.writeBloomFilter (b : SSTableBuilder) : SSTableBuilder :=
  let bloomData := (BloomFilter.create b.keysForBloom b.bloomBitsPerKey).serialize
  { b with bloomOffset := b.offset, fileBytes := b.fileBytes ++ bloomData,
           offset := b.offset + bloomData.length }

/-- `SSTableBuilder::WriteFooter` (`data_start_offset_` is always 0). -/
def SSTableBuilder.writeFooter (b : SSTableBuilder) : SSTableBuilder :=
  let footer : SSTableFooter :=
    ⟨0, b.indexOffset, b.indexOffset, b.bloomOffset - b.indexOffset, b.bloomOffset,
      b.offset - b.bloomOffset, b.numEntries, kMagicNumber⟩
  { b with fileBytes := b.fileBytes ++ footer.encode, offset := b.offset + 60 }

/-- `SSTableBuilder::Finish`. -/
def SSTableBuilder.finish (b : SSTableBuilder) : SSTableBuilder :=
  b.flushBlock.writeIndexBlock.writeBloomFilter.writeFooter

/-- Build one SSTable file image from a pair sequence (`Add*; Finish`) with the
default options. -/
def buildSSTable (pairs : List (List Nat × List Nat)) : List Nat :=
  ((pairs.foldl (fun b pr => b.add pr.1 pr.2)
      (SSTableBuilder.init kSSTableBlockSizeModel kBloomFilterBitsPerKeyModel)).finish).fileBytes

/-- `SSTableReader::ReadBlock`: `size` bytes at `offset`; bytes past EOF stay
zero-filled as in the C++ `std::string(size, 0)` buffer. -/
def readBlock (file : List Nat) (offset size : Nat) : List Nat :=
  let raw := (file.drop offset).take size
  raw ++ List.replicate (size - raw.length) 0

/-- The entry-decoding loop of `SSTableReader::ReadIndex`. -/
def readIndexEntries (data : List Nat) : Nat → Nat → Except Status (List IndexEntry)
  | _, 0 => .ok []
  | offset, n + 1 =>
    match IndexEntry.decode (data.drop offset) with
    | .error e => .error e
    | .ok entry =>
      match readIndexEntries data (offset + 4 + entry.firstKey.length + 16) n with
      | .error e => .error e
      | .ok rest => .ok (entry :: rest)

/-- `SSTableReader::ReadIndex`. -/
def readIndex (data : List Nat) : Except Status (List IndexEntry) :=
  if data.length < 4 then .error (.corruption "Index block too small")
  else readIndexEntries data 4 (decU32 data)

/-- The `while` loop in `SSTableReader::Initialize` that scans the last data
block for its last key (fuel: each iteration consumes at least 8 bytes). -/
def scanLastKeyGo (block : List Nat) : Nat → Nat → List Nat → List Nat
  | 0, _, acc => acc
  | fuel + 1, offset, acc =>
    if offset + 8 ≤ block.length then
      let keyLen := decU32 (block.drop offset)
      if offset + 4 + keyLen + 4 > block.length then acc
      else
        let key := (block.drop (offset + 4)).take keyLen
        let valLen := decU32 (block.drop (offset + 4 + keyLen))
        scanLastKeyGo block fuel (offset + 4 + keyLen + 4 + valLen) key
    else acc

def scanLastKey (block : List Nat) : List Nat := scanLastKeyGo block (block.length + 1) 0 []

structure SSTableReader where
  file : List Nat
  fileSize : Nat
  footer : SSTableFooter
  index : List IndexEntry
  bloom : BloomFilter
  smallestKey : List Nat
  largestKey : List Nat
deriving Repr, DecidableEq

/-- `SSTableReader::Open`/`Initialize`: footer, index, bloom, then the
smallest/largest keys. -/
def SSTableReader.openFile (file : List Nat) : Except Status SSTableReader :=
  if file.length < 60 then .error (.corruption "SSTable too small")
  else
    match SSTableFooter.decode (file.drop (file.length - 60)) with
    | .error e => .error e
    | .ok footer =>
      match readIndex (readBlock file footer.indexBlockOffset footer.indexBlockSize) with
      | .error e => .error e
      | .ok index =>
        match BloomFilter.deserialize
            (readBlock file footer.bloomFilterOffset footer.bloomFilterSize) with
        | none => .error (.corruption "Failed to deserialize bloom filter")
        | some bloom =>
          if index.isEmpty then
            .ok ⟨file, file.length, footer, index, bloom, [], []⟩
          else
            let lastEntry := index.getLastD ⟨[], 0, 0⟩
            let lastBlock := readBlock file lastEntry.blockOffset lastEntry.blockSize
            .ok ⟨file, file.length, footer, index, bloom,
              (index.headD ⟨[], 0, 0⟩).firstKey, scanLastKey lastBlock⟩

/-- `SSTableReader::MayContain` (the bloom filter always exists after a
successful `Open`). -/
def SSTableReader.mayContain (r : SSTableReader) (key : List Nat) : Bool :=
  r.bloom.mayContain key

/-- `SSTableIteratorImpl` cursor state. -/
structure SSTIter where
  blockIndex : Nat
  entryIndex : Nat
  blockData : List Nat
  offsetInBlock : Nat
  currentKey : List Nat
  currentValue : List Nat
  valid : Bool
deriving Repr, DecidableEq

/-- `SSTableIteratorImpl::ParseCurrentEntry` (returns the mutated cursor and
the C++ boolean result). -/
def parseCurrentEntry (it : SSTIter) : SSTIter × Bool :=
  if it.blockData.length < it.offsetInBlock + 8 then ({ it with valid := false }, false)
  else
    let keyLen := decU32 (it.blockData.drop it.offsetInBlock)
    let o1 := it.offsetInBlock + 4
    if it.blockData.length < o1 + keyLen + 4 then
      ({ it with offsetInBlock := o1, valid := false }, false)
    else
      let key := (it.blockData.drop o1).take keyLen
      let o2 := o1 + keyLen
      let valLen := decU32 (it.blockData.drop o2)
      let o3 := o2 + 4
      if it.blockData.length < o3 + valLen then
        ({ it with offsetInBlock := o3, currentKey := key, valid := false }, false)
      else
        ({ it with offsetInBlock := o3 + valLen, currentKey := key,
                   currentValue := (it.blockData.drop o3).take valLen, valid := true }, true)

/-- `SSTableIteratorImpl::LoadBlock`. -/
def loadBlock (r : SSTableReader) (it : SSTIter) (index : Nat) : SSTIter :=
  if r.index.length ≤ index then { it with blockData := [], valid := false }
  else
    let e := r.index.getD index ⟨[], 0, 0⟩
    { it with blockData := readBlock r.file e.blockOffset e.blockSize, offsetInBlock := 0 }

/-- `SSTableIteratorImpl::SeekToFirst`. -/
def SSTIter.seekToFirst (r : SSTableReader) : SSTIter :=
  let it : SSTIter := ⟨0, 0, [], 0, [], [], false⟩
  let it := loadBlock r it 0
  if it.blockData.isEmpty then it else (parseCurrentEntry it).1

/-- `SSTableIteratorImpl::Next`. -/
def SSTIter.next (r : SSTableReader) (it : SSTIter) : SSTIter :=
  let it := { it with entryIndex := it.entryIndex + 1 }
  let pr := parseCurrentEntry it
  if pr.2 then pr.1
  else
    let it2 := { pr.1 with blockIndex := pr.1.blockIndex + 1 }
    if it2.blockIndex < r.index.length then
      let it3 := loadBlock r it2 it2.blockIndex
      (parseCurrentEntry { it3 with entryIndex := 0, offsetInBlock := 0 }).1
    else { it2 with valid := false }

/-- Collect the `(key, value)` stream visited by `SeekToFirst` + `Next`
(fuel: every step consumes at least 8 block bytes or advances a block). -/
def collectGo (r : SSTableReader) : Nat → SSTIter → List (List Nat × List Nat)
  | 0, _ => []
  | fuel + 1, it =>
    if it.valid then (it.currentKey, it.currentValue) :: collectGo r fuel (it.next r)
    else []

def SSTableReader.iterate (r : SSTableReader) : List (List Nat × List Nat) :=
  collectGo r (r.fileSize + r.index.length + 1) (SSTIter.seekToFirst r)

/-! ### Builder characterisation

The builder chops the input into greedy blocks (chunks); the file is the
concatenation of the encoded chunks and the index records their first keys,
offsets and sizes. -/

/-- The index entries describing a chunk partition laid out from `off`. -/
def indexFromChunks : List (List (List Nat × List Nat)) → Nat → List IndexEntry
  | [], _ => []
  | c :: cs, off =>
    ⟨(c.headD ([], [])).1, off, (encodeEntries c).length⟩
      :: indexFromChunks cs (off + (encodeEntries c).length)

theorem encodeEntries_nil : encodeEntries [] = [] := rfl

theorem encodeEntries_append (a b : List (List Nat × List Nat)) :
    encodeEntries (a ++ b) = encodeEntries a ++ encodeEntries b := by
  simp [encodeEntries]

theorem encodeEntry_length (k v : List Nat) :
    (encodeEntry k v).length = 8 + k.length + v.length := by
  simp [encodeEntry, encBytes_length]
  omega

theorem indexFromChunks_length (chunks : List (List (List Nat × List Nat))) (off : Nat) :
    (indexFromChunks chunks off).length = chunks.length := by
  induction chunks generalizing off with
  | nil => rfl
  | cons c cs ih => simp [indexFromChunks, ih]

theorem indexFromChunks_append (a b : List (List (List Nat × List Nat))) (off : Nat) :
    indexFromChunks (a ++ b) off
      = indexFromChunks a off
          ++ indexFromChunks b (off + ((a.map encodeEntries).flatten).length) := by
  induction a generalizing off with
  | nil => simp [indexFromChunks]
  | cons c cs ih =>
    simp only [List.cons_append, indexFromChunks, List.map_cons, List.flatten_cons,
      List.length_append, List.append_eq]
    rw [ih, Nat.add_assoc]

/-- Invariant of the builder state after adding the pairs `ps`. -/
def BuilderInv (bs bpk : Nat) (ps : List (List Nat × List Nat)) (b : SSTableBuilder) : Prop :=
  ∃ chunks pending,
    b.blockSize = bs ∧ b.bloomBitsPerKey = bpk ∧
    ps = chunks.flatten ++ pending ∧
    (∀ c ∈ chunks, c ≠ []) ∧
    b.fileBytes = (chunks.map encodeEntries).flatten ∧
    b.indexEntries = indexFromChunks chunks 0 ∧
    b.dataBlock = encodeEntries pending ∧
    b.entriesInBlock = pending.length ∧
    (pending ≠ [] → b.firstKeyInBlock = (pending.headD ([], [])).1) ∧
    b.offset = b.fileBytes.length ∧
    b.numEntries = ps.length ∧
    b.keysForBloom = ps.map Prod.fst

theorem builderInv_init (bs bpk : Nat) : BuilderInv bs bpk [] (SSTableBuilder.init bs bpk) := by
  refine ⟨[], [], rfl, rfl, rfl, ?_, rfl, rfl, rfl, rfl, ?_, rfl, rfl, rfl⟩
  · intro c hc
    cases hc
  · intro h
    cases h rfl

theorem builderInv_add (bs bpk : Nat) (ps : List (List Nat × List Nat)) (b : SSTableBuilder)
    (pr : List Nat × List Nat) (hinv : BuilderInv bs bpk ps b) :
    BuilderInv bs bpk (ps ++ [pr]) (b.add pr.1 pr.2) := by
  obtain ⟨chunks, pending, hbs, hbpk, hps, hne, hfile, hidx, hdb, heib, hfk, hoff, hnum, hbloom⟩ :=
    hinv
  unfold SSTableBuilder.add
  set b1 := if b.entriesInBlock = 0 then { b with firstKeyInBlock := pr.1 } else b with hb1
  have e0 : b1.blockSize = bs ∧ b1.bloomBitsPerKey = bpk ∧
      b1.fileBytes = b.fileBytes ∧ b1.indexEntries = b.indexEntries ∧
      b1.dataBlock = b.dataBlock ∧ b1.entriesInBlock = b.entriesInBlock ∧
      b1.keysForBloom = b.keysForBloom ∧ b1.numEntries = b.numEntries ∧
      b1.offset = b.offset := by
    rw [hb1]
    split <;> exact ⟨hbs, hbpk, rfl, rfl, rfl, rfl, rfl, rfl, rfl⟩
  obtain ⟨e1, e2, e3, e4, e5, e6, e7, e8, e9⟩ := e0
  have hfk1 : b1.firstKeyInBlock = ((pending ++ [pr]).headD ([], [])).1 := by
    rw [hb1]
    cases hpend : pending with
    | nil =>
      rw [if_pos (by rw [heib, hpend]; rfl)]
      rfl
    | cons q qs =>
      rw [if_neg (by rw [heib, hpend]; simp)]
      rw [hfk (by rw [hpend]; simp)]
      rw [hpend]
      rfl
  set b2 : SSTableBuilder :=
    { b1 with
      keysForBloom := b1.keysForBloom ++ [pr.1]
      dataBlock := b1.dataBlock ++ encodeEntry pr.1 pr.2
      numEntries := b1.numEntries + 1
      entriesInBlock := b1.entriesInBlock + 1 } with hb2
  have hdb2 : b2.dataBlock = encodeEntries (pending ++ [pr]) := by
    rw [hb2]
    show b1.dataBlock ++ encodeEntry pr.1 pr.2 = _
    rw [e5, hdb, encodeEntries_append]
    simp [encodeEntries]
  have hfile2 : b2.fileBytes = (chunks.map encodeEntries).flatten := by
    rw [hb2]
    show b1.fileBytes = _
    rw [e3, hfile]
  have hidx2 : b2.indexEntries = indexFromChunks chunks 0 := by
    rw [hb2]
    show b1.indexEntries = _
    rw [e4, hidx]
  have hoff2 : b2.offset = b2.fileBytes.length := by
    rw [hb2]
    show b1.offset = b1.fileBytes.length
    rw [e9, e3, hoff]
  have hfk2 : b2.firstKeyInBlock = ((pending ++ [pr]).headD ([], [])).1 := hfk1
  have hnum2 : b2.numEntries = (ps ++ [pr]).length := by
    rw [hb2]
    show b1.numEntries + 1 = _
    rw [e8, hnum]
    simp
  have hbloom2 : b2.keysForBloom = (ps ++ [pr]).map Prod.fst := by
    rw [hb2]
    show b1.keysForBloom ++ [pr.1] = _
    rw [e7, hbloom]
    simp
  have hbs2 : b2.blockSize = bs := by
    rw [hb2]
    show b1.blockSize = bs
    exact e1
  have hbpk2 : b2.bloomBitsPerKey = bpk := by
    rw [hb2]
    show b1.bloomBitsPerKey = bpk
    exact e2
  by_cases hflush : b2.blockSize ≤ b2.dataBlock.length
  · rw [if_pos hflush]
    unfold SSTableBuilder.flushBlock
    rw [if_neg (by
      rw [hdb2, encodeEntries_append]
      simp only [List.isEmpty_iff, ← List.length_eq_zero, List.length_append]
      have hl : (encodeEntries [pr]).length = 8 + pr.1.length + pr.2.length := by
        simp [encodeEntries, encodeEntry_length]
      omega)]
    refine ⟨chunks ++ [pending ++ [pr]], [], hbs2, hbpk2, ?_, ?_, ?_, ?_, rfl, rfl,
      (fun h => absurd rfl h), ?_, hnum2, ?_⟩
    · rw [List.flatten_append, hps]
      simp
    · intro c hc
      rcases List.mem_append.mp hc with hc | hc
      · exact hne c hc
      · rw [List.mem_singleton.mp hc]
        simp
    · show b2.fileBytes ++ b2.dataBlock = _
      rw [hfile2, hdb2, List.map_append, List.flatten_append]
      simp
    · show b2.indexEntries ++ [⟨b2.firstKeyInBlock, b2.offset, b2.dataBlock.length⟩] = _
      rw [indexFromChunks_append, hidx2, hfk2, hdb2, hoff2, hfile2]
      simp [indexFromChunks]
    · show b2.offset + b2.dataBlock.length = (b2.fileBytes ++ b2.dataBlock).length
      rw [hoff2]
      simp
    · show b2.keysForBloom = _
      exact hbloom2
  · rw [if_neg hflush]
    refine ⟨chunks, pending ++ [pr], hbs2, hbpk2, ?_, hne, hfile2, hidx2, hdb2, ?_, ?_, hoff2,
      hnum2, hbloom2⟩
    · rw [hps, List.append_assoc]
    · show b2.entriesInBlock = _
      rw [hb2]
      show b1.entriesInBlock + 1 = _
      rw [e6, heib]
      simp
    · intro h
      exact hfk2


/-! ### File layout produced by `Finish` -/

/-- The concatenated encoded data blocks of a chunk partition. -/
def sstDataBytes (cs : List (List (List Nat × List Nat))) : List Nat :=
  (cs.map encodeEntries).flatten

/-- The index block for a chunk partition: entry count then encoded entries. -/
def sstIndexBytes (cs : List (List (List Nat × List Nat))) : List Nat :=
  encU32 cs.length ++ ((indexFromChunks cs 0).map IndexEntry.encode).flatten

/-- The serialized bloom block for the added pairs. -/
def sstBloomBytes (ps : List (List Nat × List Nat)) (bpk : Nat) : List Nat :=
  (BloomFilter.create (ps.map Prod.fst) bpk).serialize

/-- The footer written by `WriteFooter` for that layout. -/
def sstFooter (cs : List (List (List Nat × List Nat))) (ps : List (List Nat × List Nat))
    (bpk : Nat) : SSTableFooter :=
  ⟨0, (sstDataBytes cs).length, (sstDataBytes cs).length, (sstIndexBytes cs).length,
    (sstDataBytes cs).length + (sstIndexBytes cs).length, (sstBloomBytes ps bpk).length,
    ps.length, kMagicNumber⟩

theorem sstDataBytes_eq (cs : List (List (List Nat × List Nat))) :
    sstDataBytes cs = encodeEntries cs.flatten := by
  induction cs with
  | nil => rfl
  | cons c cs ih =>
    simp only [sstDataBytes, List.map_cons, List.flatten_cons, encodeEntries_append] at *
    rw [ih]

theorem encodeEntries_length_ge (es : List (List Nat × List Nat)) :
    8 * es.length ≤ (encodeEntries es).length := by
  induction es with
  | nil => simp [encodeEntries]
  | cons e es ih =>
    have h : encodeEntries (e :: es) = encodeEntry e.1 e.2 ++ encodeEntries es := by
      simp [encodeEntries]
    rw [h]
    simp only [List.length_append, List.length_cons, encodeEntry_length]
    omega

theorem footer_encode_length (f : SSTableFooter) : f.encode.length = 60 := by
  simp [SSTableFooter.encode, encBytes_length]

/-- Decode a little-endian u64 sitting at the head of a byte stream. -/
theorem decU64_head (v : Nat) (rest : List Nat) (hv : v < 2 ^ 64) :
    decU64 (encU64 v ++ rest) = v := by
  show decBytes 8 (encBytes 8 v ++ rest) = v
  rw [decBytes_append 8 (encBytes 8 v) rest (by rw [encBytes_length])]
  exact decBytes_encBytes_of_lt 8 v hv

/-- Decode a little-endian u32 sitting at the head of a byte stream. -/
theorem decU32_head (v : Nat) (rest : List Nat) (hv : v < 2 ^ 32) :
    decU32 (encU32 v ++ rest) = v := by
  show decBytes 4 (encBytes 4 v ++ rest) = v
  rw [decBytes_append 4 (encBytes 4 v) rest (by rw [encBytes_length])]
  exact decBytes_encBytes_of_lt 4 v hv

/-- Decode a little-endian u64 at a known offset inside a byte stream. -/
theorem decU64_at (pre : List Nat) (v : Nat) (rest : List Nat) (n : Nat) (hv : v < 2 ^ 64)
    (hn : pre.length = n) :
    decU64 ((pre ++ (encU64 v ++ rest)).drop n) = v := by
  subst hn
  rw [List.drop_left]
  exact decU64_head v rest hv

/-- Decode a little-endian u32 at a known offset inside a byte stream. -/
theorem decU32_at (pre : List Nat) (v : Nat) (rest : List Nat) (n : Nat) (hv : v < 2 ^ 32)
    (hn : pre.length = n) :
    decU32 ((pre ++ (encU32 v ++ rest)).drop n) = v := by
  subst hn
  rw [List.drop_left]
  exact decU32_head v rest hv

theorem footer_decode_encode (f : SSTableFooter)
    (h1 : f.dataBlockOffset < 2 ^ 64) (h2 : f.dataBlockSize < 2 ^ 64)
    (h3 : f.indexBlockOffset < 2 ^ 64) (h4 : f.indexBlockSize < 2 ^ 64)
    (h5 : f.bloomFilterOffset < 2 ^ 64) (h6 : f.bloomFilterSize < 2 ^ 64)
    (h7 : f.entryCount < 2 ^ 64) (h8 : f.magicNumber = kMagicNumber) :
    SSTableFooter.decode f.encode = .ok f := by
  obtain ⟨f1, f2, f3, f4, f5, f6, f7, fm⟩ := f
  replace h8 : fm = kMagicNumber := h8
  subst h8
  replace h1 : f1 < 2 ^ 64 := h1
  replace h2 : f2 < 2 ^ 64 := h2
  replace h3 : f3 < 2 ^ 64 := h3
  replace h4 : f4 < 2 ^ 64 := h4
  replace h5 : f5 < 2 ^ 64 := h5
  replace h6 : f6 < 2 ^ 64 := h6
  replace h7 : f7 < 2 ^ 64 := h7
  have hD : SSTableFooter.encode ⟨f1, f2, f3, f4, f5, f6, f7, kMagicNumber⟩
      = encU64 f1 ++ (encU64 f2 ++ (encU64 f3 ++ (encU64 f4 ++ (encU64 f5 ++ (encU64 f6 ++ (encU64 f7 ++ (encU32 kMagicNumber))))))) := by
    simp [SSTableFooter.encode, List.append_assoc]
  have d1 : (encU64 f1 ++ (encU64 f2 ++ (encU64 f3 ++ (encU64 f4 ++ (encU64 f5 ++ (encU64 f6 ++ (encU64 f7 ++ (encU32 kMagicNumber)))))))).drop 8 = encU64 f2 ++ (encU64 f3 ++ (encU64 f4 ++ (encU64 f5 ++ (encU64 f6 ++ (encU64 f7 ++ (encU32 kMagicNumber)))))) :=
    List.drop_left' (encBytes_length 8 f1)
  have d2 : (encU64 f1 ++ (encU64 f2 ++ (encU64 f3 ++ (encU64 f4 ++ (encU64 f5 ++ (encU64 f6 ++ (encU64 f7 ++ (encU32 kMagicNumber)))))))).drop 16 = encU64 f3 ++ (encU64 f4 ++ (encU64 f5 ++ (encU64 f6 ++ (encU64 f7 ++ (encU32 kMagicNumber))))) := by
    rw [show (16 : Nat) = 8 + 8 from rfl, ← List.drop_drop, d1,
      List.drop_left' (encBytes_length 8 f2)]
  have d3 : (encU64 f1 ++ (encU64 f2 ++ (encU64 f3 ++ (encU64 f4 ++ (encU64 f5 ++ (encU64 f6 ++ (encU64 f7 ++ (encU32 kMagicNumber)))))))).drop 24 = encU64 f4 ++ (encU64 f5 ++ (encU64 f6 ++ (encU64 f7 ++ (encU32 kMagicNumber)))) := by
    rw [show (24 : Nat) = 16 + 8 from rfl, ← List.drop_drop, d2,
      List.drop_left' (encBytes_length 8 f3)]
  have d4 : (encU64 f1 ++ (encU64 f2 ++ (encU64 f3 ++ (encU64 f4 ++ (encU64 f5 ++ (encU64 f6 ++ (encU64 f7 ++ (encU32 kMagicNumber)))))))).drop 32 = encU64 f5 ++ (encU64 f6 ++ (encU64 f7 ++ (encU32 kMagicNumber))) := by
    rw [show (32 : Nat) = 24 + 8 from rfl, ← List.drop_drop, d3,
      List.drop_left' (encBytes_length 8 f4)]
  have d5 : (encU64 f1 ++ (encU64 f2 ++ (encU64 f3 ++ (encU64 f4 ++ (encU64 f5 ++ (encU64 f6 ++ (encU64 f7 ++ (encU32 kMagicNumber)))))))).drop 40 = encU64 f6 ++ (encU64 f7 ++ (encU32 kMagicNumber)) := by
    rw [show (40 : Nat) = 32 + 8 from rfl, ← List.drop_drop, d4,
      List.drop_left' (encBytes_length 8 f5)]
  have d6 : (encU64 f1 ++ (encU64 f2 ++ (encU64 f3 ++ (encU64 f4 ++ (encU64 f5 ++ (encU64 f6 ++ (encU64 f7 ++ (encU32 kMagicNumber)))))))).drop 48 = encU64 f7 ++ (encU32 kMagicNumber) := by
    rw [show (48 : Nat) = 40 + 8 from rfl, ← List.drop_drop, d5,
      List.drop_left' (encBytes_length 8 f6)]
  have d7 : (encU64 f1 ++ (encU64 f2 ++ (encU64 f3 ++ (encU64 f4 ++ (encU64 f5 ++ (encU64 f6 ++ (encU64 f7 ++ (encU32 kMagicNumber)))))))).drop 56 = encU32 kMagicNumber := by
    rw [show (56 : Nat) = 48 + 8 from rfl, ← List.drop_drop, d6,
      List.drop_left' (encBytes_length 8 f7)]
  have v1 : decU64 (encU64 f1 ++ (encU64 f2 ++ (encU64 f3 ++ (encU64 f4 ++ (encU64 f5 ++ (encU64 f6 ++ (encU64 f7 ++ (encU32 kMagicNumber)))))))) = f1 := decU64_head f1 (encU64 f2 ++ (encU64 f3 ++ (encU64 f4 ++ (encU64 f5 ++ (encU64 f6 ++ (encU64 f7 ++ (encU32 kMagicNumber))))))) h1
  have v2 : decU64 (encU64 f2 ++ (encU64 f3 ++ (encU64 f4 ++ (encU64 f5 ++ (encU64 f6 ++ (encU64 f7 ++ (encU32 kMagicNumber))))))) = f2 := decU64_head f2 (encU64 f3 ++ (encU64 f4 ++ (encU64 f5 ++ (encU64 f6 ++ (encU64 f7 ++ (encU32 kMagicNumber)))))) h2
  have v3 : decU64 (encU64 f3 ++ (encU64 f4 ++ (encU64 f5 ++ (encU64 f6 ++ (encU64 f7 ++ (encU32 kMagicNumber)))))) = f3 := decU64_head f3 (encU64 f4 ++ (encU64 f5 ++ (encU64 f6 ++ (encU64 f7 ++ (encU32 kMagicNumber))))) h3
  have v4 : decU64 (encU64 f4 ++ (encU64 f5 ++ (encU64 f6 ++ (encU64 f7 ++ (encU32 kMagicNumber))))) = f4 := decU64_head f4 (encU64 f5 ++ (encU64 f6 ++ (encU64 f7 ++ (encU32 kMagicNumber)))) h4
  have v5 : decU64 (encU64 f5 ++ (encU64 f6 ++ (encU64 f7 ++ (encU32 kMagicNumber)))) = f5 := decU64_head f5 (encU64 f6 ++ (encU64 f7 ++ (encU32 kMagicNumber))) h5
  have v6 : decU64 (encU64 f6 ++ (encU64 f7 ++ (encU32 kMagicNumber))) = f6 := decU64_head f6 (encU64 f7 ++ (encU32 kMagicNumber)) h6
  have v7 : decU64 (encU64 f7 ++ (encU32 kMagicNumber)) = f7 := decU64_head f7 (encU32 kMagicNumber) h7
  have vm : decU32 (encU32 kMagicNumber) = kMagicNumber :=
    decBytes_encBytes_of_lt 4 kMagicNumber (by decide)
  unfold SSTableFooter.decode
  rw [hD]
  rw [if_neg (by simp [encBytes_length])]
  simp only [d1, d2, d3, d4, d5, d6, d7, v1, v2, v3, v4, v5, v6, v7, vm, ne_eq,
    not_true_eq_false, if_false, ite_false]

theorem indexEntry_encode_length (e : IndexEntry) :
    e.encode.length = 20 + e.firstKey.length := by
  simp [IndexEntry.encode, encBytes_length]
  omega


theorem indexEntry_decode_encode (e : IndexEntry) (rest : List Nat)
    (hk : e.firstKey.length < 2 ^ 32) (ho : e.blockOffset < 2 ^ 64)
    (hs : e.blockSize < 2 ^ 64) :
    IndexEntry.decode (e.encode ++ rest) = .ok e := by
  obtain ⟨key, off, sz⟩ := e
  replace hk : key.length < 2 ^ 32 := hk
  replace ho : off < 2 ^ 64 := ho
  replace hs : sz < 2 ^ 64 := hs
  have hD : IndexEntry.encode ⟨key, off, sz⟩ ++ rest
      = encU32 key.length ++ (key ++ (encU64 off ++ (encU64 sz ++ rest))) := by
    simp [IndexEntry.encode, List.append_assoc]
  have hlen : (encU32 key.length ++ (key ++ (encU64 off ++ (encU64 sz ++ rest)))).length
      = 20 + key.length + rest.length := by
    simp [encBytes_length]
    omega
  have hkl : decU32 (encU32 key.length ++ (key ++ (encU64 off ++ (encU64 sz ++ rest))))
      = key.length := decU32_head key.length _ hk
  have hd4 : (encU32 key.length ++ (key ++ (encU64 off ++ (encU64 sz ++ rest)))).drop 4
      = key ++ (encU64 off ++ (encU64 sz ++ rest)) :=
    List.drop_left' (encBytes_length 4 key.length)
  have hd4k : (encU32 key.length ++ (key ++ (encU64 off ++ (encU64 sz ++ rest)))).drop
      (4 + key.length) = encU64 off ++ (encU64 sz ++ rest) := by
    rw [← List.drop_drop, hd4]
    exact List.drop_left key _
  have hd12k : (encU32 key.length ++ (key ++ (encU64 off ++ (encU64 sz ++ rest)))).drop
      (12 + key.length) = encU64 sz ++ rest := by
    rw [show (12 : Nat) + key.length = 4 + key.length + 8 by omega, ← List.drop_drop, hd4k]
    exact List.drop_left' (encBytes_length 8 off)
  have hoff : decU64 ((encU32 key.length ++ (key ++ (encU64 off ++ (encU64 sz ++ rest)))).drop
      (4 + key.length)) = off := by
    rw [hd4k]
    exact decU64_head off _ ho
  have hsz : decU64 ((encU32 key.length ++ (key ++ (encU64 off ++ (encU64 sz ++ rest)))).drop
      (12 + key.length)) = sz := by
    rw [hd12k]
    exact decU64_head sz rest hs
  rw [hD]
  unfold IndexEntry.decode
  rw [if_neg (by rw [hlen]; omega)]
  simp only [hkl]
  rw [if_neg (by rw [hlen]; omega)]
  simp only [hd4, List.take_left, hoff, hsz]

theorem readIndexEntries_ok (es : List IndexEntry) :
    ∀ (pre : List Nat) (n : Nat), pre.length = n →
      (∀ e ∈ es, e.firstKey.length < 2 ^ 32 ∧ e.blockOffset < 2 ^ 64 ∧ e.blockSize < 2 ^ 64) →
      readIndexEntries (pre ++ (es.map IndexEntry.encode).flatten) n es.length = .ok es := by
  induction es with
  | nil =>
    intro pre n hn h
    rfl
  | cons e es ih =>
    intro pre n hn h
    subst hn
    simp only [List.map_cons, List.flatten_cons, List.length_cons]
    rw [readIndexEntries]
    have hassoc : pre ++ (IndexEntry.encode e ++ (es.map IndexEntry.encode).flatten)
        = (pre ++ IndexEntry.encode e) ++ (es.map IndexEntry.encode).flatten :=
      (List.append_assoc pre _ _).symm
    have hdrop : (pre ++ (IndexEntry.encode e ++ (es.map IndexEntry.encode).flatten)).drop
        pre.length = IndexEntry.encode e ++ (es.map IndexEntry.encode).flatten :=
      List.drop_left pre _
    obtain ⟨hk, ho, hs⟩ := h e (by simp)
    rw [hdrop, indexEntry_decode_encode e _ hk ho hs]
    have hrec := ih (pre ++ IndexEntry.encode e)
      (pre.length + 4 + e.firstKey.length + 16)
      (by simp [indexEntry_encode_length]; omega)
      (fun x hx => h x (by simp [hx]))
    rw [← hassoc] at hrec
    dsimp only
    rw [hrec]

theorem readIndex_ok (es : List IndexEntry) (hcnt : es.length < 2 ^ 32)
    (h : ∀ e ∈ es, e.firstKey.length < 2 ^ 32 ∧ e.blockOffset < 2 ^ 64 ∧
      e.blockSize < 2 ^ 64) :
    readIndex (encU32 es.length ++ (es.map IndexEntry.encode).flatten) = .ok es := by
  unfold readIndex
  rw [if_neg (by rw [List.length_append, encBytes_length]; omega)]
  rw [decU32_head es.length _ hcnt]
  exact readIndexEntries_ok es (encU32 es.length) 4 (encBytes_length 4 _) h


theorem builderInv_foldl (bs bpk : Nat) (qs : List (List Nat × List Nat)) :
    ∀ (ps : List (List Nat × List Nat)) (b : SSTableBuilder), BuilderInv bs bpk ps b →
      BuilderInv bs bpk (ps ++ qs) (qs.foldl (fun b pr => b.add pr.1 pr.2) b) := by
  induction qs with
  | nil =>
    intro ps b hinv
    simpa using hinv
  | cons q qs ih =>
    intro ps b hinv
    have h1 := builderInv_add bs bpk ps b q hinv
    have h2 := ih (ps ++ [q]) _ h1
    simpa using h2

theorem sstDataBytes_append (a c : List (List (List Nat × List Nat))) :
    sstDataBytes (a ++ c) = sstDataBytes a ++ sstDataBytes c := by
  simp [sstDataBytes]

theorem builder_flush_layout (bs bpk : Nat) (ps : List (List Nat × List Nat))
    (b : SSTableBuilder) (hinv : BuilderInv bs bpk ps b) :
    ∃ cs, ps = cs.flatten ∧ (∀ c ∈ cs, c ≠ []) ∧
      b.flushBlock.fileBytes = sstDataBytes cs ∧
      b.flushBlock.indexEntries = indexFromChunks cs 0 ∧
      b.flushBlock.offset = (sstDataBytes cs).length ∧
      b.flushBlock.numEntries = ps.length ∧
      b.flushBlock.keysForBloom = ps.map Prod.fst ∧
      b.flushBlock.bloomBitsPerKey = bpk := by
  obtain ⟨chunks, pending, hbs, hbpk, hps, hne, hfile, hidx, hdb, heib, hfk, hoff, hnum, hbloom⟩ :=
    hinv
  cases hpend : pending with
  | nil =>
    subst hpend
    have hdbe : b.dataBlock = [] := by rw [hdb]; rfl
    have hfl : b.flushBlock = b := by
      unfold SSTableBuilder.flushBlock
      rw [if_pos (by rw [hdbe]; rfl)]
    refine ⟨chunks, by simpa using hps, hne, ?_, ?_, ?_, ?_, ?_, ?_⟩
    · rw [hfl, hfile]; rfl
    · rw [hfl, hidx]
    · rw [hfl, hoff, hfile]; rfl
    · rw [hfl, hnum]
    · rw [hfl, hbloom]
    · rw [hfl, hbpk]
  | cons q qs =>
    subst hpend
    have hdbl : (encodeEntries (q :: qs)).length
        = 8 + q.1.length + q.2.length + (encodeEntries qs).length := by
      have h : encodeEntries (q :: qs) = encodeEntry q.1 q.2 ++ encodeEntries qs := by
        simp [encodeEntries]
      rw [h, List.length_append, encodeEntry_length]
    have hlen0 : b.dataBlock.length ≠ 0 := by rw [hdb, hdbl]; omega
    have hdbne : b.dataBlock.isEmpty = false := by
      cases hdb2 : b.dataBlock with
      | nil => rw [hdb2] at hlen0; simp at hlen0
      | cons x xs => rfl
    have hfl : b.flushBlock =
        { b with
          indexEntries := b.indexEntries
            ++ [⟨b.firstKeyInBlock, b.offset, b.dataBlock.length⟩]
          fileBytes := b.fileBytes ++ b.dataBlock
          offset := b.offset + b.dataBlock.length
          dataBlock := []
          entriesInBlock := 0 } := by
      unfold SSTableBuilder.flushBlock
      rw [if_neg (by rw [hdbne]; simp)]
    refine ⟨chunks ++ [q :: qs], ?_, ?_, ?_, ?_, ?_, ?_, ?_, ?_⟩
    · rw [hps]
      simp
    · intro c hc
      rcases List.mem_append.mp hc with hc | hc
      · exact hne c hc
      · rw [List.mem_singleton.mp hc]
        simp
    · rw [hfl]
      show b.fileBytes ++ b.dataBlock = _
      rw [hfile, hdb, sstDataBytes_append]
      simp [sstDataBytes]
    · rw [hfl]
      show b.indexEntries ++ [⟨b.firstKeyInBlock, b.offset, b.dataBlock.length⟩] = _
      rw [indexFromChunks_append, hidx, hfk (by simp), hoff, hfile, hdb]
      simp [indexFromChunks]
    · rw [hfl]
      show b.offset + b.dataBlock.length = _
      rw [hoff, hfile, hdb, sstDataBytes_append]
      simp [sstDataBytes]
    · rw [hfl]
      exact hnum
    · rw [hfl]
      exact hbloom
    · rw [hfl]
      exact hbpk

theorem builder_finish_layout (bs bpk : Nat) (ps : List (List Nat × List Nat))
    (b : SSTableBuilder) (hinv : BuilderInv bs bpk ps b) :
    ∃ cs, ps = cs.flatten ∧ (∀ c ∈ cs, c ≠ []) ∧
      b.finish.fileBytes
        = sstDataBytes cs ++ (sstIndexBytes cs ++ (sstBloomBytes ps bpk
            ++ (sstFooter cs ps bpk).encode)) := by
  obtain ⟨cs, hps, hcne, hfb, hidx, hoff, hnum, hkeys, hbpk⟩ :=
    builder_flush_layout bs bpk ps b hinv
  refine ⟨cs, hps, hcne, ?_⟩
  unfold SSTableBuilder.finish SSTableBuilder.writeFooter SSTableBuilder.writeBloomFilter
    SSTableBuilder.writeIndexBlock
  dsimp only
  rw [hfb, hidx, hkeys, hbpk, hoff, hnum, indexFromChunks_length]
  simp [sstIndexBytes, sstBloomBytes, sstFooter, List.append_assoc]


theorem indexFromChunks_bounds (cs : List (List (List Nat × List Nat))) :
    ∀ off, ∀ e ∈ indexFromChunks cs off,
      (∃ c, c ∈ cs ∧ e.firstKey = (c.headD ([], [])).1
        ∧ e.blockSize = (encodeEntries c).length) ∧
      off ≤ e.blockOffset ∧ e.blockOffset + e.blockSize ≤ off + (sstDataBytes cs).length := by
  induction cs with
  | nil =>
    intro off e he
    cases he
  | cons c cs ih =>
    intro off e he
    have hlen : (sstDataBytes (c :: cs)).length
        = (encodeEntries c).length + (sstDataBytes cs).length := by
      simp [sstDataBytes]
    rcases List.mem_cons.mp he with rfl | he2
    · refine ⟨⟨c, by simp, rfl, rfl⟩, Nat.le_refl _, ?_⟩
      dsimp only
      rw [hlen]
      omega
    · obtain ⟨⟨c2, hc2, hfk, hsz⟩, hlo, hhi⟩ := ih (off + (encodeEntries c).length) e he2
      refine ⟨⟨c2, by simp [hc2], hfk, hsz⟩, by omega, ?_⟩
      rw [hlen]
      omega

theorem openFile_layout (cs : List (List (List Nat × List Nat)))
    (ps : List (List Nat × List Nat)) (bpk : Nat) (file : List Nat)
    (hfile : file = sstDataBytes cs ++ (sstIndexBytes cs ++ (sstBloomBytes ps bpk
        ++ (sstFooter cs ps bpk).encode)))
    (hps : ps = cs.flatten) (hcne : ∀ c ∈ cs, c ≠ [])
    (hklen : ∀ pr ∈ ps, pr.1.length < 2 ^ 32)
    (hcnt : cs.length < 2 ^ 32)
    (hfl : file.length < 2 ^ 64) :
    ∃ r : SSTableReader,
      SSTableReader.openFile file = .ok r ∧ r.file = file ∧ r.fileSize = file.length ∧
        r.index = indexFromChunks cs 0 := by
  have hlenfile : file.length = (sstDataBytes cs).length + ((sstIndexBytes cs).length
      + ((sstBloomBytes ps bpk).length + 60)) := by
    rw [hfile]
    simp [footer_encode_length]
  have hps8 : 8 * ps.length ≤ (sstDataBytes cs).length := by
    rw [hps, sstDataBytes_eq]
    exact encodeEntries_length_ge cs.flatten
  have hfoot_drop : file.drop (file.length - 60) = (sstFooter cs ps bpk).encode := by
    have hassoc : file = (sstDataBytes cs ++ (sstIndexBytes cs ++ sstBloomBytes ps bpk))
        ++ (sstFooter cs ps bpk).encode := by
      rw [hfile]
      simp [List.append_assoc]
    rw [hassoc]
    refine List.drop_left' ?_
    simp only [List.length_append, footer_encode_length]
    omega
  have hdec := footer_decode_encode (sstFooter cs ps bpk)
    (by show (0 : Nat) < 2 ^ 64; decide)
    (by show (sstDataBytes cs).length < 2 ^ 64; omega)
    (by show (sstDataBytes cs).length < 2 ^ 64; omega)
    (by show (sstIndexBytes cs).length < 2 ^ 64; omega)
    (by show (sstDataBytes cs).length + (sstIndexBytes cs).length < 2 ^ 64; omega)
    (by show (sstBloomBytes ps bpk).length < 2 ^ 64; omega)
    (by show ps.length < 2 ^ 64; omega)
    rfl
  have hidxblock : readBlock file (sstDataBytes cs).length (sstIndexBytes cs).length
      = sstIndexBytes cs := by
    unfold readBlock
    rw [hfile, List.drop_left]
    have ht : (sstIndexBytes cs ++ (sstBloomBytes ps bpk
        ++ (sstFooter cs ps bpk).encode)).take (sstIndexBytes cs).length
        = sstIndexBytes cs := List.take_left _ _
    rw [ht]
    simp
  have hsstidx : sstIndexBytes cs = encU32 (indexFromChunks cs 0).length
      ++ ((indexFromChunks cs 0).map IndexEntry.encode).flatten := by
    unfold sstIndexBytes
    rw [indexFromChunks_length]
  have hidxok : readIndex (sstIndexBytes cs) = .ok (indexFromChunks cs 0) := by
    rw [hsstidx]
    refine readIndex_ok _ (by rw [indexFromChunks_length]; exact hcnt) ?_
    intro e he
    obtain ⟨⟨c, hc, hfk, hsz⟩, hlo, hhi⟩ := indexFromChunks_bounds cs 0 e he
    refine ⟨?_, by omega, by omega⟩
    rw [hfk]
    cases c with
    | nil => exact absurd rfl (hcne [] hc)
    | cons x xs =>
      have hx : x ∈ ps := by
        rw [hps]
        exact List.mem_flatten.mpr ⟨x :: xs, hc, by simp⟩
      simpa using hklen x hx
  have hbloomblock : readBlock file ((sstDataBytes cs).length + (sstIndexBytes cs).length)
      ((sstBloomBytes ps bpk).length) = sstBloomBytes ps bpk := by
    unfold readBlock
    have hassoc : file = (sstDataBytes cs ++ sstIndexBytes cs)
        ++ (sstBloomBytes ps bpk ++ (sstFooter cs ps bpk).encode) := by
      rw [hfile]
      simp [List.append_assoc]
    rw [hassoc]
    rw [List.drop_left' (by rw [List.length_append])]
    rw [List.take_left]
    simp
  have hdeser : BloomFilter.deserialize (sstBloomBytes ps bpk)
      = some { bits := (BloomFilter.create (ps.map Prod.fst) bpk).bits,
               numHashes := (BloomFilter.create (ps.map Prod.fst) bpk).numHashes % 2 ^ 32,
               numKeys := 0 } := by
    unfold sstBloomBytes
    exact deserialize_serialize _ (create_bits_pos _ _)
  unfold SSTableReader.openFile
  rw [if_neg (by omega)]
  rw [hfoot_drop, hdec]
  dsimp only
  rw [show (sstFooter cs ps bpk).indexBlockOffset = (sstDataBytes cs).length from rfl,
    show (sstFooter cs ps bpk).indexBlockSize = (sstIndexBytes cs).length from rfl,
    hidxblock, hidxok]
  dsimp only
  rw [show (sstFooter cs ps bpk).bloomFilterOffset
      = (sstDataBytes cs).length + (sstIndexBytes cs).length from rfl,
    show (sstFooter cs ps bpk).bloomFilterSize = (sstBloomBytes ps bpk).length from rfl,
    hbloomblock, hdeser]
  dsimp only
  cases hemp : (indexFromChunks cs 0).isEmpty with
  | true =>
    rw [if_pos rfl]
    exact ⟨_, rfl, rfl, rfl, rfl⟩
  | false =>
    rw [if_neg (by simp)]
    exact ⟨_, rfl, rfl, rfl, rfl⟩


theorem parseCurrentEntry_cons (it : SSTIter) (done todo : List (List Nat × List Nat))
    (k v : List Nat) (chunk : List (List Nat × List Nat))
    (hchunk : chunk = done ++ (k, v) :: todo)
    (hbd : it.blockData = encodeEntries chunk)
    (hoff : it.offsetInBlock = (encodeEntries done).length)
    (hk : k.length < 2 ^ 32) (hv : v.length < 2 ^ 32) :
    parseCurrentEntry it
      = ({ it with
            offsetInBlock := (encodeEntries (done ++ [(k, v)])).length
            currentKey := k
            currentValue := v
            valid := true }, true) := by
  have hdecomp : encodeEntries chunk = encodeEntries done
      ++ (encU32 k.length ++ (k ++ (encU32 v.length ++ (v ++ encodeEntries todo)))) := by
    rw [hchunk, encodeEntries_append]
    simp [encodeEntries, encodeEntry, List.append_assoc]
  have hlen : it.blockData.length = it.offsetInBlock + 8 + k.length + v.length
      + (encodeEntries todo).length := by
    rw [hbd, hdecomp, hoff]
    simp only [List.length_append, encBytes_length]
    omega
  have hdrop0 : it.blockData.drop it.offsetInBlock
      = encU32 k.length ++ (k ++ (encU32 v.length ++ (v ++ encodeEntries todo))) := by
    rw [hbd, hdecomp, hoff]
    exact List.drop_left _ _
  have hkl : decU32 (it.blockData.drop it.offsetInBlock) = k.length := by
    rw [hdrop0]
    exact decU32_head _ _ hk
  have hdrop4 : it.blockData.drop (it.offsetInBlock + 4)
      = k ++ (encU32 v.length ++ (v ++ encodeEntries todo)) := by
    rw [← List.drop_drop, hdrop0]
    exact List.drop_left' (encBytes_length 4 k.length)
  have hkey : (it.blockData.drop (it.offsetInBlock + 4)).take k.length = k := by
    rw [hdrop4]
    exact List.take_left _ _
  have hdropk : it.blockData.drop (it.offsetInBlock + 4 + k.length)
      = encU32 v.length ++ (v ++ encodeEntries todo) := by
    rw [← List.drop_drop, hdrop4]
    exact List.drop_left _ _
  have hvl : decU32 (it.blockData.drop (it.offsetInBlock + 4 + k.length)) = v.length := by
    rw [hdropk]
    exact decU32_head _ _ hv
  have hdropkv : it.blockData.drop (it.offsetInBlock + 4 + k.length + 4)
      = v ++ encodeEntries todo := by
    rw [← List.drop_drop, hdropk]
    exact List.drop_left' (encBytes_length 4 v.length)
  have hval : (it.blockData.drop (it.offsetInBlock + 4 + k.length + 4)).take v.length = v := by
    rw [hdropkv]
    exact List.take_left _ _
  have hoff2 : (encodeEntries (done ++ [(k, v)])).length
      = it.offsetInBlock + 4 + k.length + 4 + v.length := by
    rw [encodeEntries_append, hoff]
    have h1 : (encodeEntries [(k, v)]).length = 8 + k.length + v.length := by
      simp [encodeEntries, encodeEntry_length]
    rw [List.length_append, h1]
    omega
  unfold parseCurrentEntry
  rw [if_neg (by omega)]
  dsimp only
  rw [hkl]
  rw [if_neg (by omega)]
  rw [hkey, hvl]
  rw [if_neg (by omega)]
  rw [hval, hoff2]

theorem parseCurrentEntry_end (it : SSTIter)
    (h : it.blockData.length < it.offsetInBlock + 8) :
    parseCurrentEntry it = ({ it with valid := false }, false) := by
  unfold parseCurrentEntry
  rw [if_pos h]

theorem collectGo_invalid (r : SSTableReader) (fuel : Nat) (it : SSTIter)
    (h : it.valid = false) : collectGo r fuel it = [] := by
  cases fuel with
  | zero => rfl
  | succ f =>
    unfold collectGo
    rw [if_neg (by simp [h])]

theorem indexFromChunks_getD (cs : List (List (List Nat × List Nat))) :
    ∀ (j off : Nat), j < cs.length →
      (indexFromChunks cs off).getD j ⟨[], 0, 0⟩
        = ⟨((cs.getD j []).headD ([], [])).1,
           off + (sstDataBytes (cs.take j)).length,
           (encodeEntries (cs.getD j [])).length⟩ := by
  induction cs with
  | nil =>
    intro j off h
    simp at h
  | cons c cs ih =>
    intro j off hj
    cases j with
    | zero =>
      simp [indexFromChunks, sstDataBytes]
    | succ n =>
      have hrec := ih n (off + (encodeEntries c).length) (by simpa using hj)
      show (indexFromChunks cs (off + (encodeEntries c).length)).getD n ⟨[], 0, 0⟩ = _
      rw [hrec]
      have htake : sstDataBytes ((c :: cs).take (n + 1))
          = encodeEntries c ++ sstDataBytes (cs.take n) := by
        simp [sstDataBytes]
      simp [htake, Nat.add_assoc]
      simp [sstDataBytes]

theorem readBlock_chunk (cs : List (List (List Nat × List Nat))) (tail file : List Nat)
    (hfile : file = sstDataBytes cs ++ tail) (j : Nat) (hj : j < cs.length) :
    readBlock file ((sstDataBytes (cs.take j)).length) ((encodeEntries (cs.getD j [])).length)
      = encodeEntries (cs.getD j []) := by
  have h1 : cs.take j ++ (cs.getD j [] :: cs.drop (j + 1)) = cs := by
    rw [List.getD_eq_getElem cs [] hj, ← List.drop_eq_getElem_cons hj,
      List.take_append_drop]
  have h2 : sstDataBytes (cs.getD j [] :: cs.drop (j + 1))
      = encodeEntries (cs.getD j []) ++ sstDataBytes (cs.drop (j + 1)) := by
    simp [sstDataBytes]
  have hsplit : sstDataBytes cs ++ tail = sstDataBytes (cs.take j)
      ++ (encodeEntries (cs.getD j []) ++ (sstDataBytes (cs.drop (j + 1)) ++ tail)) := by
    conv_lhs => rw [← h1]
    rw [sstDataBytes_append, h2]
    simp [List.append_assoc]
  rw [hfile, hsplit]
  unfold readBlock
  rw [List.drop_left, List.take_left]
  simp

theorem collectGo_chunks (r : SSTableReader) (cs : List (List (List Nat × List Nat)))
    (tail : List Nat)
    (hfile : r.file = sstDataBytes cs ++ tail)
    (hidx : r.index = indexFromChunks cs 0)
    (hcne : ∀ c ∈ cs, c ≠ [])
    (hlen : ∀ pr ∈ cs.flatten, pr.1.length < 2 ^ 32 ∧ pr.2.length < 2 ^ 32) :
    ∀ (fuel j : Nat) (done todo : List (List Nat × List Nat)) (k v : List Nat) (it : SSTIter),
      j < cs.length →
      cs.getD j [] = done ++ (k, v) :: todo →
      it.valid = true → it.currentKey = k → it.currentValue = v →
      it.blockIndex = j →
      it.blockData = encodeEntries (cs.getD j []) →
      it.offsetInBlock = (encodeEntries (done ++ [(k, v)])).length →
      todo.length + ((cs.drop (j + 1)).flatten).length < fuel →
      collectGo r fuel it = (k, v) :: (todo ++ (cs.drop (j + 1)).flatten) := by
  have hidxlen : r.index.length = cs.length := by
    rw [hidx, indexFromChunks_length]
  intro fuel
  induction fuel with
  | zero =>
    intro j done todo k v it hj hchunk hvalid hck hcv hbi hbd hoff hfuel
    omega
  | succ f ih =>
    intro j done todo k v it hj hchunk hvalid hck hcv hbi hbd hoff hfuel
    have hmemchunk : cs.getD j [] ∈ cs := by
      rw [List.getD_eq_getElem cs [] hj]
      exact List.getElem_mem hj
    unfold collectGo
    rw [if_pos hvalid, hck, hcv]
    congr 1
    cases todo with
    | cons p todo2 =>
      obtain ⟨k2, v2⟩ := p
      have hchunk2 : cs.getD j [] = (done ++ [(k, v)]) ++ (k2, v2) :: todo2 := by
        rw [hchunk]
        simp
      have hm : (k2, v2) ∈ cs.flatten :=
        List.mem_flatten.mpr ⟨cs.getD j [], hmemchunk, by rw [hchunk]; simp⟩
      have hpr := parseCurrentEntry_cons { it with entryIndex := it.entryIndex + 1 }
        (done ++ [(k, v)]) todo2 k2 v2 (cs.getD j []) hchunk2 hbd hoff
        (hlen _ hm).1 (hlen _ hm).2
      have hnext : it.next r = { it with
          entryIndex := it.entryIndex + 1
          offsetInBlock := (encodeEntries ((done ++ [(k, v)]) ++ [(k2, v2)])).length
          currentKey := k2
          currentValue := v2
          valid := true } := by
        unfold SSTIter.next
        dsimp only
        rw [hpr]
        simp
      rw [hnext]
      have hrec := ih j (done ++ [(k, v)]) todo2 k2 v2
        { it with
          entryIndex := it.entryIndex + 1
          offsetInBlock := (encodeEntries ((done ++ [(k, v)]) ++ [(k2, v2)])).length
          currentKey := k2
          currentValue := v2
          valid := true }
        hj hchunk2 rfl rfl rfl hbi hbd rfl (by simp at hfuel ⊢; omega)
      rw [hrec]
      simp
    | nil =>
      have hoffeq : it.offsetInBlock = it.blockData.length := by
        rw [hoff, hbd, hchunk]
      have hpr := parseCurrentEntry_end { it with entryIndex := it.entryIndex + 1 }
        (by show it.blockData.length < it.offsetInBlock + 8; omega)
      by_cases hjlt : j + 1 < cs.length
      · have hcmem : cs.getD (j + 1) [] ∈ cs := by
          rw [List.getD_eq_getElem cs [] hjlt]
          exact List.getElem_mem hjlt
        have hcne2 := hcne _ hcmem
        cases hc2 : cs.getD (j + 1) [] with
        | nil => exact absurd hc2 hcne2
        | cons p todo3 =>
          obtain ⟨k2, v2⟩ := p
          have hgd := indexFromChunks_getD cs (j + 1) 0 hjlt
          have hrb := readBlock_chunk cs tail r.file hfile (j + 1) hjlt
          have hm2 : (k2, v2) ∈ cs.flatten :=
            List.mem_flatten.mpr ⟨cs.getD (j + 1) [], hcmem, by rw [hc2]; simp⟩
          have hchunk3 : cs.getD (j + 1) [] = [] ++ (k2, v2) :: todo3 := by
            rw [hc2]
            rfl
          have hflat : (cs.drop (j + 1)).flatten = (k2, v2) :: (todo3 ++ (cs.drop (j + 2)).flatten) := by
            have hdropc : cs.drop (j + 1) = cs.getD (j + 1) [] :: cs.drop (j + 2) := by
              rw [List.getD_eq_getElem cs [] hjlt]
              exact List.drop_eq_getElem_cons hjlt
            rw [hdropc, hc2]
            simp
          have hloadData : readBlock r.file
              (0 + (sstDataBytes (cs.take (j + 1))).length)
              ((encodeEntries (cs.getD (j + 1) [])).length)
              = encodeEntries (cs.getD (j + 1) []) := by
            rw [Nat.zero_add]
            exact hrb
          have hcondp : it.blockIndex + 1 < r.index.length := by omega
          have hcond2 : ¬(r.index.length ≤ j + 1) := by omega
          have hpr2 := parseCurrentEntry_cons
            { blockIndex := j + 1, entryIndex := 0,
              blockData := encodeEntries (cs.getD (j + 1) []), offsetInBlock := 0,
              currentKey := it.currentKey, currentValue := it.currentValue, valid := false }
            [] todo3 k2 v2 (cs.getD (j + 1) []) hchunk3 rfl rfl
            (hlen _ hm2).1 (hlen _ hm2).2
          have hnext : it.next r =
              { blockIndex := j + 1, entryIndex := 0,
                blockData := encodeEntries (cs.getD (j + 1) []),
                offsetInBlock := (encodeEntries [(k2, v2)]).length,
                currentKey := k2, currentValue := v2, valid := true } := by
            unfold SSTIter.next
            dsimp only
            rw [hpr]
            dsimp only
            rw [if_pos hcondp]
            unfold loadBlock
            dsimp only
            rw [hbi]
            rw [if_neg hcond2]
            rw [hidx, hgd]
            dsimp only
            rw [hloadData]
            rw [hpr2]
            simp
          have hfuel2 : todo3.length + ((cs.drop (j + 2)).flatten).length < f := by
            rw [hflat] at hfuel
            simp only [List.length_cons, List.length_append, List.length_nil] at hfuel
            omega
          have hrec := ih (j + 1) [] todo3 k2 v2
            { blockIndex := j + 1, entryIndex := 0,
              blockData := encodeEntries (cs.getD (j + 1) []),
              offsetInBlock := (encodeEntries [(k2, v2)]).length,
              currentKey := k2, currentValue := v2, valid := true }
            hjlt hchunk3 rfl rfl rfl rfl rfl (by simp) hfuel2
          rw [hnext, hrec, hflat]
          simp
      · have hnext : it.next r = { it with
            entryIndex := it.entryIndex + 1
            blockIndex := it.blockIndex + 1
            valid := false } := by
          have hcond : ¬(it.blockIndex + 1 < r.index.length) := by omega
          unfold SSTIter.next
          dsimp only
          rw [hpr]
          dsimp only
          rw [if_neg hcond]
          simp
        rw [hnext, collectGo_invalid r f _ rfl]
        have hdrop : cs.drop (j + 1) = [] := List.drop_eq_nil_of_le (by omega)
        rw [hdrop]
        rfl


theorem iterate_chunks (r : SSTableReader) (cs : List (List (List Nat × List Nat)))
    (tail : List Nat)
    (hfile : r.file = sstDataBytes cs ++ tail)
    (hfs : r.fileSize = r.file.length)
    (hidx : r.index = indexFromChunks cs 0)
    (hcne : ∀ c ∈ cs, c ≠ [])
    (hlen : ∀ pr ∈ cs.flatten, pr.1.length < 2 ^ 32 ∧ pr.2.length < 2 ^ 32) :
    r.iterate = cs.flatten := by
  unfold SSTableReader.iterate
  cases cs with
  | nil =>
    have hseek : SSTIter.seekToFirst r = {
        blockIndex := 0
        entryIndex := 0
        blockData := []
        offsetInBlock := 0
        currentKey := []
        currentValue := []
        valid := false } := by
      unfold SSTIter.seekToFirst loadBlock
      dsimp only
      have hcond : r.index.length ≤ 0 := by rw [hidx]; rfl
      rw [if_pos hcond]
      simp
    rw [hseek, collectGo_invalid r _ _ rfl]
    rfl
  | cons c0 cs2 =>
    cases hc0 : c0 with
    | nil => exact absurd hc0 (hcne c0 (by simp))
    | cons p todo =>
      obtain ⟨k, v⟩ := p
      subst hc0
      have hchunk0 : (((k, v) :: todo) :: cs2).getD 0 [] = [] ++ (k, v) :: todo := rfl
      have hm0 : (k, v) ∈ (((k, v) :: todo) :: cs2).flatten := by simp
      have hcond0 : ¬(r.index.length ≤ 0) := by
        rw [hidx, indexFromChunks_length]
        simp
      have hgd0 := indexFromChunks_getD (((k, v) :: todo) :: cs2) 0 0 (by simp)
      have hload0 : readBlock r.file
          (0 + (sstDataBytes (List.take 0 (((k, v) :: todo) :: cs2))).length)
          ((encodeEntries ((((k, v) :: todo) :: cs2).getD 0 [])).length)
          = encodeEntries ((((k, v) :: todo) :: cs2).getD 0 []) := by
        rw [Nat.zero_add]
        exact readBlock_chunk _ tail r.file hfile 0 (by simp)
      have hE : encodeEntries ((((k, v) :: todo) :: cs2).getD 0 [])
          = encodeEntry k v ++ encodeEntries todo := by
        rw [hchunk0]
        simp [encodeEntries]
      have hlen0 : (encodeEntries ((((k, v) :: todo) :: cs2).getD 0 [])).length ≠ 0 := by
        rw [hE, List.length_append, encodeEntry_length]
        omega
      have hcondE : ¬((encodeEntries ((((k, v) :: todo) :: cs2).getD 0 [])).isEmpty = true) := by
        cases hEE : encodeEntries ((((k, v) :: todo) :: cs2).getD 0 []) with
        | nil => rw [hEE] at hlen0; simp at hlen0
        | cons a l => simp
      have hpr0 := parseCurrentEntry_cons
        { blockIndex := 0, entryIndex := 0,
          blockData := encodeEntries ((((k, v) :: todo) :: cs2).getD 0 []),
          offsetInBlock := 0, currentKey := [], currentValue := [], valid := false }
        [] todo k v ((((k, v) :: todo) :: cs2).getD 0 []) hchunk0 rfl rfl
        (hlen _ hm0).1 (hlen _ hm0).2
      have hseek : SSTIter.seekToFirst r =
          { blockIndex := 0, entryIndex := 0,
            blockData := encodeEntries ((((k, v) :: todo) :: cs2).getD 0 []),
            offsetInBlock := (encodeEntries [(k, v)]).length,
            currentKey := k, currentValue := v, valid := true } := by
        unfold SSTIter.seekToFirst loadBlock
        dsimp only
        rw [if_neg hcond0]
        rw [hidx, hgd0]
        dsimp only
        rw [hload0]
        rw [if_neg hcondE]
        rw [hpr0]
        simp
      have h8 : 8 * ((((k, v) :: todo) :: cs2).flatten).length
          ≤ (sstDataBytes (((k, v) :: todo) :: cs2)).length := by
        rw [sstDataBytes_eq]
        exact encodeEntries_length_ge _
      have hfs2 : (sstDataBytes (((k, v) :: todo) :: cs2)).length ≤ r.fileSize := by
        rw [hfs, hfile]
        simp
      have hflatlen : ((((k, v) :: todo) :: cs2).flatten).length
          = 1 + todo.length + (cs2.flatten).length := by
        simp
        omega
      have hdrop1 : (((((k, v) :: todo) :: cs2)).drop (0 + 1)).flatten.length
          = cs2.flatten.length := by
        simp
      have hfuelX : todo.length + (((((k, v) :: todo) :: cs2)).drop (0 + 1)).flatten.length
          < r.fileSize + r.index.length + 1 := by
        rw [hdrop1]
        omega
      have hcoll := collectGo_chunks r (((k, v) :: todo) :: cs2) tail hfile hidx hcne hlen
        (r.fileSize + r.index.length + 1) 0 [] todo k v
        { blockIndex := 0, entryIndex := 0,
          blockData := encodeEntries ((((k, v) :: todo) :: cs2).getD 0 []),
          offsetInBlock := (encodeEntries [(k, v)]).length,
          currentKey := k, currentValue := v, valid := true }
        (by simp) hchunk0 rfl rfl rfl rfl rfl (by simp) hfuelX
      rw [hseek, hcoll]
      simp


theorem chunks_length_le (cs : List (List (List Nat × List Nat)))
    (h : ∀ c ∈ cs, c ≠ []) : cs.length ≤ cs.flatten.length := by
  induction cs with
  | nil => simp
  | cons c cs ih =>
    have hc := h c (by simp)
    have hrec := ih (fun x hx => h x (by simp [hx]))
    cases c with
    | nil => exact absurd rfl hc
    | cons p c2 =>
      simp only [List.flatten_cons, List.length_append, List.length_cons]
      omega

/-- C8: for every monotonically non-decreasing sequence of `(key, value)`
pairs (within the `uint32` length bounds and `uint64` file-size bound the C++
types impose), building an SSTable by calling `SSTableBuilder::Add` on each
pair and then `Finish`, opening the resulting file with `SSTableReader::Open`,
and iterating with `SeekToFirst` followed by `Next` yields exactly the pairs
that were added, in the order they were added. -/
theorem sstable_roundtrip (pairs : List (List Nat × List Nat))
    (hsorted : List.Chain' (fun a b => bytesLe a.1 b.1 = true) pairs)
    (hlen : ∀ pr ∈ pairs, pr.1.length < 2 ^ 32 ∧ pr.2.length < 2 ^ 32)
    (hcnt : pairs.length < 2 ^ 32)
    (hfl : (buildSSTable pairs).length < 2 ^ 64) :
    ∃ r : SSTableReader, SSTableReader.openFile (buildSSTable pairs) = .ok r ∧
      r.iterate = pairs := by
  have hinv := builderInv_foldl kSSTableBlockSizeModel kBloomFilterBitsPerKeyModel pairs []
    (SSTableBuilder.init kSSTableBlockSizeModel kBloomFilterBitsPerKeyModel)
    (builderInv_init _ _)
  rw [List.nil_append] at hinv
  obtain ⟨cs, hps, hcne, hlayout⟩ :=
    builder_finish_layout kSSTableBlockSizeModel kBloomFilterBitsPerKeyModel pairs _ hinv
  have hbuild : buildSSTable pairs = sstDataBytes cs ++ (sstIndexBytes cs
      ++ (sstBloomBytes pairs kBloomFilterBitsPerKeyModel
        ++ (sstFooter cs pairs kBloomFilterBitsPerKeyModel).encode)) := hlayout
  have hcnt2 : cs.length < 2 ^ 32 := by
    have h1 := chunks_length_le cs hcne
    rw [← hps] at h1
    omega
  obtain ⟨r, hopen, hrfile, hrfs, hridx⟩ := openFile_layout cs pairs
    kBloomFilterBitsPerKeyModel (buildSSTable pairs) hbuild hps hcne
    (fun pr hm => (hlen pr hm).1) hcnt2 hfl
  refine ⟨r, hopen, ?_⟩
  have hiter := iterate_chunks r cs
    (sstIndexBytes cs ++ (sstBloomBytes pairs kBloomFilterBitsPerKeyModel
      ++ (sstFooter cs pairs kBloomFilterBitsPerKeyModel).encode))
    (by rw [hrfile, hbuild]) (by rw [hrfs, hrfile]) hridx hcne
    (by rw [← hps]; exact hlen)
  rw [hiter, ← hps]

theorem sstable_roundtrip_witness :
    List.Chain' (fun a b => bytesLe a.1 b.1 = true)
      [([1], [10]), ([1], [11]), ([2], [])] ∧
    ∃ r : SSTableReader,
      SSTableReader.openFile (buildSSTable [([1], [10]), ([1], [11]), ([2], [])]) = .ok r ∧
        r.iterate = [([1], [10]), ([1], [11]), ([2], [])] :=
  ⟨by simp [List.chain'_cons, bytesLe, bytesLt],
    sstable_roundtrip [([1], [10]), ([1], [11]), ([2], [])]
    (by simp [List.chain'_cons, bytesLe, bytesLt]) (by decide) (by decide) (by decide)⟩


/-! ## Reader point lookup (src/src/engine/sstable_reader.cpp)

`FindBlock`, `Seek` and `Get`, needed by `Database::GetFromLevels` and by
compaction. -/

/-- The binary-search loop of `SSTableReader::FindBlock` (fuel: `right - left`
shrinks every iteration). -/
def findBlockGo (r : SSTableReader) (key : List Nat) : Nat → Nat → Nat → Nat
  | 0, left, _ => left
  | fuel + 1, left, right =>
    if left < right then
      let mid := left + (right - left) / 2
      if bytesLe (r.index.getD mid ⟨[], 0, 0⟩).firstKey key then
        findBlockGo r key fuel (mid + 1) right
      else
        findBlockGo r key fuel left mid
    else left

/-- `SSTableReader::FindBlock`. -/
def SSTableReader.findBlock (r : SSTableReader) (key : List Nat) : Except Status Nat :=
  if r.index.isEmpty then .error (.notFound "Empty SSTable")
  else
    let left := findBlockGo r key (r.index.length + 1) 0 r.index.length
    .ok (if 0 < left then left - 1 else 0)

/-- The `while (ParseCurrentEntry())` loop of `SSTableIteratorImpl::Seek`
(fuel: each iteration consumes at least 8 block bytes). -/
def seekScanGo (key : List Nat) : Nat → SSTIter → SSTIter × Bool
  | 0, it => (it, false)
  | fuel + 1, it =>
    let pr := parseCurrentEntry it
    if pr.2 then
      if bytesLe key pr.1.currentKey then (pr.1, true)
      else seekScanGo key fuel { pr.1 with entryIndex := pr.1.entryIndex + 1 }
    else (pr.1, false)

/-- `SSTableIteratorImpl::Seek`. -/
def SSTIter.seek (r : SSTableReader) (key : List Nat) : SSTIter :=
  let it : SSTIter := ⟨0, 0, [], 0, [], [], false⟩
  match r.findBlock key with
  | .error _ => { it with valid := false }
  | .ok blockIndex =>
    let it := loadBlock r { it with blockIndex := blockIndex } blockIndex
    let it := { it with entryIndex := 0, offsetInBlock := 0 }
    let (it2, found) := seekScanGo key (it.blockData.length + 1) it
    if found then it2
    else if it2.blockIndex + 1 < r.index.length then
      let it3 := loadBlock r { it2 with blockIndex := it2.blockIndex + 1 } (it2.blockIndex + 1)
      (parseCurrentEntry { it3 with entryIndex := 0, offsetInBlock := 0 }).1
    else { it2 with valid := false }

/-- `SSTableReader::Get`. -/
def SSTableReader.get (r : SSTableReader) (key : List Nat) : Except Status (List Nat) :=
  if ! r.mayContain key then .error (.notFound "Key not in bloom filter")
  else
    let it := SSTIter.seek r key
    if it.valid && it.currentKey = key then .ok it.currentValue
    else .error (.notFound "Key not found in SSTable")

/-! ## MemTable (src/src/engine/memtable.cpp)

The skiplist iterates entries in the order of `Entry::operator<`:
ascending key, and for equal keys descending sequence. -/

def kOpPut : Nat := 1
def kOpDelete : Nat := 2

structure MTEntry where
  key : List Nat
  value : List Nat
  sequence : Nat
  type : Nat
deriving Repr, DecidableEq

/-- `SkipListImpl::Entry::operator<`. -/
def entryLt (a b : MTEntry) : Bool :=
  if a.key = b.key then decide (b.sequence < a.sequence) else bytesLt a.key b.key

/-- `SkipList::Insert` places the new entry before the first element it
compares less than, keeping the list sorted. -/
def insertEntry : List MTEntry → MTEntry → List MTEntry
  | [], e => [e]
  | x :: xs, e => if entryLt e x then e :: x :: xs else x :: insertEntry xs e

/-- `MemTable::Add`. -/
def mtAdd (t : List MTEntry) (key value : List Nat) (seq ty : Nat) : List MTEntry :=
  insertEntry t ⟨key, value, seq, ty⟩

/-- The walk loop of `MemTable::Get` after the seek. -/
def mtGetGo (key : List Nat) (snapshot : Nat) : List MTEntry → Except Status (List Nat)
  | [] => .error (.notFound "Key not found in MemTable")
  | e :: rest =>
    if e.key ≠ key then .error (.notFound "Key not found in MemTable")
    else if e.sequence ≤ snapshot then
      if e.type = kOpDelete then .error (.notFound "Key was deleted")
      else .ok e.value
    else mtGetGo key snapshot rest

/-- `MemTable::Get`: seek to the first entry `≥ (key, snapshot)`, then walk. -/
def mtGet (t : List MTEntry) (key : List Nat) (snapshot : Nat) : Except Status (List Nat) :=
  mtGetGo key snapshot (t.dropWhile fun e => entryLt e ⟨key, [], snapshot, kOpPut⟩)

/-- `MemTable::Add`'s per-entry memory estimate (`sizeof(SequenceNumber)`
= 8, `sizeof(OperationType)` = 1, `sizeof(void*) * kSkipListMaxHeight`
= 8 * 12). -/
def mtEntrySize (key value : List Nat) : Nat := key.length + value.length + 8 + 1 + 8 * 12

def kMemTableMaxSizeModel : Nat := 64 * 1024 * 1024
def kMaxLevelsModel : Nat := 7
def kLevel0CompactionTriggerModel : Nat := 4
def kLevelSizeMultiplierModel : Nat := 10

/-! ## Database (src/src/db.cpp) and compaction (src/src/engine/compactor.cpp)

`fileBytes` stands for the SSTable file on disk; WAL writes and the manifest
do not affect the read path and are omitted.  Flushing happens synchronously
(`RotateMemTable` calls `FlushImmutableMemTable` directly), and a compaction
pass is modelled as one iteration of `Compactor::BackgroundThread`. -/

structure FileMeta where
  bytes : List Nat
  smallestKey : List Nat
  largestKey : List Nat
deriving Repr, DecidableEq

structure DBState where
  mem : List MTEntry
  memUsage : Nat
  imm : Option (List MTEntry)
  levels : List (List FileMeta)
  sequence : Nat
deriving Repr, DecidableEq

def DBState.init : DBState := ⟨[], 0, none, List.replicate kMaxLevelsModel [], 0⟩

/-- `Database::FlushImmutableMemTable`: builds an SSTable from the memtable
iteration order (`iter->key()`, `iter->value()` only — sequence and operation
type are not written), records its first/last key, and appends it to level 0. -/
def DBState.flushImm (db : DBState) : DBState :=
  match db.imm with
  | none => db
  | some t =>
    let pairs := t.map fun e => (e.key, e.value)
    let bytes := buildSSTable pairs
    let meta : FileMeta := ⟨bytes, (pairs.headD ([], [])).1, (pairs.getLastD ([], [])).1⟩
    { db with imm := none, levels := db.levels.set 0 (db.levels.getD 0 [] ++ [meta]) }

/-- `Database::RotateMemTable`. -/
def DBState.rotateMemTable (db : DBState) : DBState :=
  let db := db.flushImm
  let db := { db with imm := some db.mem, mem := [], memUsage := 0 }
  db.flushImm

/-- `Database::WriteInternal` (WAL append elided; it does not change the
in-memory read path). -/
def DBState.writeInternal (db : DBState) (key value : List Nat) (ty : Nat) : DBState :=
  let seq := db.sequence + 1
  let db := { db with
    sequence := seq
    mem := mtAdd db.mem key value seq ty
    memUsage := db.memUsage + mtEntrySize key value }
  if kMemTableMaxSizeModel ≤ db.memUsage then db.rotateMemTable else db

def DBState.put (db : DBState) (key value : List Nat) : DBState :=
  db.writeInternal key value kOpPut

def DBState.delete (db : DBState) (key : List Nat) : DBState :=
  db.writeInternal key [] kOpDelete

def DBState.flush (db : DBState) : DBState := db.rotateMemTable

/-- The per-level file loop of `Database::GetFromLevels`. -/
def getInFiles (key : List Nat) : List FileMeta → Option (List Nat)
  | [] => none
  | f :: fs =>
    if bytesLt key f.smallestKey || bytesLt f.largestKey key then getInFiles key fs
    else
      match SSTableReader.openFile f.bytes with
      | .error _ => getInFiles key fs
      | .ok r =>
        if ! r.mayContain key then getInFiles key fs
        else
          match r.get key with
          | .ok v => some v
          | .error _ => getInFiles key fs

/-- `Database::GetFromLevels` — note that `seq` is accepted but never used. -/
def getFromLevels (levels : List (List FileMeta)) (key : List Nat) (seq : Nat) :
    Except Status (List Nat) :=
  match levels.findSome? (fun fs => getInFiles key fs) with
  | some v => .ok v
  | none => .error (.notFound "Key not found")

/-- `Database::Get`. -/
def DBState.get (db : DBState) (key : List Nat) (s : Nat) : Except Status (List Nat) :=
  let snapshot := if s = 0 then db.sequence else s
  match mtGet db.mem key snapshot with
  | .ok v => .ok v
  | .error _ =>
    match db.imm with
    | some t =>
      match mtGet t key snapshot with
      | .ok v => .ok v
      | .error _ => getFromLevels db.levels key snapshot
    | none => getFromLevels db.levels key snapshot

/-! ### Compaction -/

/-- `Compactor::GetOverlappingFiles` uses `FileMetaData::Overlaps`; the merge
loop picks the iterator with the smallest current key (first index wins ties). -/
def dfltRI : SSTableReader × SSTIter :=
  (⟨[], 0, ⟨0, 0, 0, 0, 0, 0, 0, 0⟩, [], ⟨[], 0, 0⟩, [], []⟩, ⟨0, 0, [], 0, [], [], false⟩)

def mergePickMin (its : List (SSTableReader × SSTIter)) : Nat :=
  (List.range its.length).foldl
    (fun best i =>
      if bytesLt ((its.getD i dfltRI).2.currentKey) ((its.getD best dfltRI).2.currentKey)
      then i else best) 0

/-- The merge loop of `SSTableMerger::Merge`. -/
def mergeGo : Nat → List (SSTableReader × SSTIter) → SSTableBuilder → SSTableBuilder
  | 0, _, b => b
  | _ + 1, [], b => b
  | fuel + 1, its, b =>
    let m := mergePickMin its
    let p := its.getD m dfltRI
    let b := b.add p.2.currentKey p.2.currentValue
    let it2 := p.2.next p.1
    let its2 := if it2.valid then its.set m (p.1, it2) else its.take m ++ its.drop (m + 1)
    mergeGo fuel its2 b

/-- `SSTableMerger::Merge`: seek every input to its first entry, keep the valid
iterators, merge smallest-first, finish the builder. -/
def sstMerge (readers : List SSTableReader) : List Nat :=
  let its := (readers.map fun r => (r, SSTIter.seekToFirst r)).filter fun p => p.2.valid
  let fuel := (readers.map fun r => r.fileSize + r.index.length + 1).sum + 1
  ((mergeGo fuel its (SSTableBuilder.init kSSTableBlockSizeModel
      kBloomFilterBitsPerKeyModel)).finish).fileBytes

/-- `VersionSet::LevelSize` (`file_size` is the length of the file). -/
def levelSize (levels : List (List FileMeta)) (lvl : Nat) : Nat :=
  ((levels.getD lvl []).map fun f => f.bytes.length).sum

/-- `VersionSet::NeedsCompaction`. -/
def needsCompaction (levels : List (List FileMeta)) (lvl : Nat) : Bool :=
  if lvl = 0 then kLevel0CompactionTriggerModel ≤ (levels.getD 0 []).length
  else
    decide (10 * 1024 * 1024 * kLevelSizeMultiplierModel ^ (lvl - 1) < levelSize levels lvl)

/-- `Compactor::PickCompaction`: the first level (0 … kMaxLevels-2) that needs
compaction and has files; its whole file list is the input. -/
def pickCompaction (levels : List (List FileMeta)) : Option (Nat × List FileMeta) :=
  (List.range (kMaxLevelsModel - 1)).findSome? fun lvl =>
    if needsCompaction levels lvl ∧ (levels.getD lvl []) ≠ [] then
      some (lvl, levels.getD lvl [])
    else none

/-- Open every input file; `none` if any `SSTableReader::Open` fails. -/
def openAll : List FileMeta → Option (List SSTableReader)
  | [] => some []
  | f :: fs =>
    match SSTableReader.openFile f.bytes with
    | .error _ => none
    | .ok r =>
      match openAll fs with
      | none => none
      | some rs => some (r :: rs)

/-- `Compactor::DoCompaction` (one `BackgroundThread` pass after
`PickCompaction`): merge all files of the picked level into one SSTable,
remove the inputs from that level, and append the output to the next level.
On any open failure the version set is untouched. -/
def dbCompact (db : DBState) : DBState :=
  match pickCompaction db.levels with
  | none => db
  | some (lvl, inputs) =>
    match openAll inputs with
    | none => db
    | some readers =>
      let outBytes := sstMerge readers
      match SSTableReader.openFile outBytes with
      | .error _ => db
      | .ok r =>
        let meta : FileMeta := ⟨outBytes, r.smallestKey, r.largestKey⟩
        let newLevels := (db.levels.set lvl []).set (lvl + 1)
          ((db.levels.getD (lvl + 1) []) ++ [meta])
        { db with levels := newLevels }


/-! ### C1 / C2 -/

theorem bytesLt_asymm : ∀ a b : List Nat, bytesLt a b = true → bytesLt b a = false := by
  intro a
  induction a with
  | nil =>
    intro b h
    cases b with
    | nil => exact rfl
    | cons x xs => rfl
  | cons x xs ih =>
    intro b h
    cases b with
    | nil => cases h
    | cons y ys =>
      unfold bytesLt at h ⊢
      by_cases hxy : x < y
      · rw [if_neg (by omega), if_pos hxy]
      · rw [if_neg hxy] at h
        by_cases hyx : y < x
        · rw [if_pos hyx] at h
          cases h
        · rw [if_neg hyx] at h
          rw [if_neg hyx, if_neg hxy]
          exact ih ys h

theorem bytesLt_total : ∀ a b : List Nat, a ≠ b → bytesLt a b = true ∨ bytesLt b a = true := by
  intro a
  induction a with
  | nil =>
    intro b h
    cases b with
    | nil => exact absurd rfl h
    | cons y ys => exact Or.inl rfl
  | cons x xs ih =>
    intro b h
    cases b with
    | nil => exact Or.inr rfl
    | cons y ys =>
      unfold bytesLt
      by_cases hxy : x < y
      · exact Or.inl (by rw [if_pos hxy])
      · by_cases hyx : y < x
        · refine Or.inr ?_
          rw [if_pos hyx]
        · have hxeq : x = y := by omega
          subst hxeq
          have hne : xs ≠ ys := by
            intro hx
            exact h (by rw [hx])
          rcases ih ys hne with h1 | h1
          · exact Or.inl (by rw [if_neg hxy, if_neg hxy]; exact h1)
          · exact Or.inr (by rw [if_neg hxy, if_neg hxy]; exact h1)

/-- The claim's selection rule, written from the spec: the record with the
largest sequence `≤ S` among those with user key `key`. -/
def specStep (key : List Nat) (S : Nat) (acc : Option MTEntry) (e : MTEntry) :
    Option MTEntry :=
  if e.key = key ∧ e.sequence ≤ S then
    match acc with
    | none => some e
    | some b => if b.sequence < e.sequence then some e else some b
  else acc

def specNewestLe (t : List MTEntry) (key : List Nat) (S : Nat) : Option MTEntry :=
  t.foldl (specStep key S) none

theorem specStep_skip (key : List Nat) (S : Nat) (acc : Option MTEntry) (e : MTEntry)
    (h : ¬(e.key = key ∧ e.sequence ≤ S)) : specStep key S acc e = acc := by
  unfold specStep
  rw [if_neg h]

theorem specFold_keep (key : List Nat) (S : Nat) (b : MTEntry) :
    ∀ t : List MTEntry, (∀ x ∈ t, x.key = key → x.sequence ≤ S → x.sequence < b.sequence) →
      t.foldl (specStep key S) (some b) = some b := by
  intro t
  induction t with
  | nil => intro h; rfl
  | cons x xs ih =>
    intro h
    rw [List.foldl_cons]
    by_cases hm : x.key = key ∧ x.sequence ≤ S
    · have hlt := h x (by simp) hm.1 hm.2
      have hstep : specStep key S (some b) x = some b := by
        unfold specStep
        rw [if_pos hm]
        dsimp only
        have hb : ¬(b.sequence < x.sequence) := by omega
        rw [if_neg hb]
      rw [hstep]
      exact ih fun y hy => h y (by simp [hy])
    · rw [specStep_skip _ _ _ _ hm]
      exact ih fun y hy => h y (by simp [hy])

theorem specFold_none (key : List Nat) (S : Nat) :
    ∀ t : List MTEntry, (∀ x ∈ t, ¬(x.key = key ∧ x.sequence ≤ S)) →
      t.foldl (specStep key S) none = none := by
  intro t
  induction t with
  | nil => intro h; rfl
  | cons x xs ih =>
    intro h
    rw [List.foldl_cons, specStep_skip _ _ _ _ (h x (by simp))]
    exact ih fun y hy => h y (by simp [hy])

/-- C2 counterexample: two puts to the same key at sequences 1 and 2, a
`Flush()`, then `Get` with `snapshot = 1`.  The level-0 SSTable stores no
sequences, so the read returns the newer value `[8]` where the claim demands
the snapshot-visible value `[7]`. -/
theorem snapshot_get_after_flush_returns_newest :
    (((DBState.init.put [1] [7]).put [1] [8]).flush).get [1] 1 = .ok [8] := by
  decide

/-- C2 (amended): while the records are still in a memtable the claim's
snapshot rule does hold: on a skiplist-sorted entry list, `MemTable::Get`
returns the value of the record with the largest sequence `≤ S` among those
with the requested user key, `NotFound` when that record is a tombstone, and
`NotFound` when no such record exists. -/
theorem memtable_get_snapshot_rule (t : List MTEntry) (key : List Nat) (S : Nat)
    (hsorted : List.Pairwise (fun a b => entryLt a b = true) t) :
    (match specNewestLe t key S with
     | none => ∃ msg, mtGet t key S = .error (.notFound msg)
     | some e =>
       if e.type = kOpDelete then ∃ msg, mtGet t key S = .error (.notFound msg)
       else mtGet t key S = .ok e.value) := by
  induction t with
  | nil => exact ⟨"Key not found in MemTable", rfl⟩
  | cons e t' ih =>
    have hhead := (List.pairwise_cons.mp hsorted).1
    have htail := (List.pairwise_cons.mp hsorted).2
    by_cases hd : entryLt e ⟨key, [], S, kOpPut⟩ = true
    · have hskip : ¬(e.key = key ∧ e.sequence ≤ S) := by
        unfold entryLt at hd
        by_cases hk : e.key = key
        · rw [if_pos hk] at hd
          simp at hd
          intro hc
          omega
        · rw [if_neg hk] at hd
          intro hc
          exact hk hc.1
      have hmt : mtGet (e :: t') key S = mtGet t' key S := by
        unfold mtGet
        rw [List.dropWhile_cons, if_pos hd]
      have hsp : specNewestLe (e :: t') key S = specNewestLe t' key S := by
        unfold specNewestLe
        rw [List.foldl_cons, specStep_skip _ _ _ _ hskip]
      rw [hmt, hsp]
      exact ih htail
    · have hmt : mtGet (e :: t') key S = mtGetGo key S (e :: t') := by
        unfold mtGet
        rw [List.dropWhile_cons, if_neg hd]
      by_cases hk : e.key = key
      · have hseq : e.sequence ≤ S := by
          unfold entryLt at hd
          rw [if_pos hk] at hd
          simp at hd
          omega
        have hsp : specNewestLe (e :: t') key S = some e := by
          unfold specNewestLe
          rw [List.foldl_cons]
          unfold specStep
          rw [if_pos ⟨hk, hseq⟩]
          refine specFold_keep key S e t' ?_
          intro x hx hxk hxs
          have hlt := hhead x hx
          unfold entryLt at hlt
          rw [hk, hxk, if_pos rfl] at hlt
          simpa using hlt
        rw [hsp, hmt]
        unfold mtGetGo
        rw [if_neg (by simp [hk]), if_pos hseq]
        by_cases hdel : e.type = kOpDelete
        · rw [if_pos hdel]
          dsimp only
          rw [if_pos hdel]
          exact ⟨"Key was deleted", rfl⟩
        · rw [if_neg hdel]
          dsimp only
          rw [if_neg hdel]
      · have hklt : bytesLt key e.key = true := by
          unfold entryLt at hd
          rw [if_neg hk] at hd
          have hne : key ≠ e.key := fun hx => hk hx.symm
          rcases bytesLt_total key e.key hne with h1 | h1
          · exact h1
          · rw [h1] at hd
            cases hd rfl
        have hsp : specNewestLe (e :: t') key S = none := by
          unfold specNewestLe
          rw [List.foldl_cons, specStep_skip _ _ _ _ (by intro hc; exact hk hc.1)]
          refine specFold_none key S t' ?_
          intro x hx hc
          have hlt := hhead x hx
          unfold entryLt at hlt
          by_cases hek : e.key = x.key
          · rw [hc.1] at hek
            exact hk hek
          · rw [if_neg hek, hc.1] at hlt
            have := bytesLt_asymm key e.key hklt
            rw [this] at hlt
            cases hlt
        rw [hsp, hmt]
        unfold mtGetGo
        rw [if_pos (by simp [hk])]
        exact ⟨"Key not found in MemTable", rfl⟩

theorem memtable_get_snapshot_rule_witness :
    List.Pairwise (fun a b => entryLt a b = true)
      [⟨[1], [], 2, kOpDelete⟩, ⟨[1], [7], 1, kOpPut⟩] ∧
    (match specNewestLe [⟨[1], [], 2, kOpDelete⟩, ⟨[1], [7], 1, kOpPut⟩] [1] 2 with
     | none => ∃ msg, mtGet [⟨[1], [], 2, kOpDelete⟩, ⟨[1], [7], 1, kOpPut⟩] [1] 2
         = .error (.notFound msg)
     | some e =>
       if e.type = kOpDelete then
         ∃ msg, mtGet [⟨[1], [], 2, kOpDelete⟩, ⟨[1], [7], 1, kOpPut⟩] [1] 2
           = .error (.notFound msg)
       else mtGet [⟨[1], [], 2, kOpDelete⟩, ⟨[1], [7], 1, kOpPut⟩] [1] 2 = .ok e.value) :=
  ⟨by decide, memtable_get_snapshot_rule [⟨[1], [], 2, kOpDelete⟩, ⟨[1], [7], 1, kOpPut⟩]
    [1] 2 (by decide)⟩

/-- C1: the claim FAILS in the code.  `delete(k)` is acknowledged at sequence
2 after `put(k, v)` at sequence 1; a `Flush()` runs; then `get(k)` at the
latest snapshot returns `Ok` with the empty value instead of `NotFound`:
`FlushImmutableMemTable` writes only `iter->key()` and `iter->value()` into
the SSTable, so the tombstone is flushed as an ordinary empty-value record,
and `SSTableReader::Get` serves it as a live row. -/
theorem delete_flush_get_returns_ok :
    (((DBState.init.put [1] [7]).delete [1]).flush).get [1] 0 = .ok [] := by
  decide


/-! ### C3 -/

inductive DbOp where
  | put (key value : List Nat)
  | del (key : List Nat)
  | flush
  | compact
deriving Repr, DecidableEq

def isCompact : DbOp → Bool
  | .compact => true
  | _ => false

def applyOp (db : DBState) : DbOp → DBState
  | .put k v => db.put k v
  | .del k => db.delete k
  | .flush => db.flush
  | .compact => dbCompact db

/-- Run a sequence of client operations from a fresh database. -/
def runOps (ops : List DbOp) : DBState := ops.foldl applyOp DBState.init

def c3Ops : List DbOp :=
  [.put [1] [], .flush, .put [2] [], .flush, .put [3] [], .flush, .put [4] [], .flush,
   .compact,
   .put [2] [], .flush, .put [3] [], .flush, .put [4] [], .flush, .put [5] [], .flush,
   .compact]

def c3OneOps : List DbOp :=
  [.put [1] [], .flush, .put [2] [], .flush, .put [3] [], .flush, .put [4] [], .flush,
   .compact]

/-- C3 counterexample: four single-key flushes trigger a level-0 compaction
whose output at level 1 spans keys `[1]`–`[4]`; four more flushes and a second
compaction append a level-1 file spanning `[2]`–`[5]`.  `DoCompaction` merges
only the picked level and appends to the next level without consulting its
existing files, so the two level-1 ranges overlap and the level is not sorted
disjointly. -/
theorem compaction_overlap_at_level1 :
    ¬ List.Pairwise (fun f g => bytesLt f.largestKey g.smallestKey = true)
      ((runOps c3Ops).levels.getD 1 []) := by
  decide

theorem getD_set_ne2 {α : Type} (l : List α) (i j : Nat) (x d : α) (h : i ≠ j) :
    (l.set i x).getD j d = l.getD j d := by
  simp [List.getD_eq_getElem?_getD, List.getElem?_set, h]

theorem getD_set_self2 {α : Type} (l : List α) (i : Nat) (x d : α) :
    (l.set i x).getD i d = if i < l.length then x else l.getD i d := by
  by_cases hi : i < l.length
  · simp [List.getD_eq_getElem?_getD, List.getElem?_set, hi]
  · have hnone : l[i]? = none := List.getElem?_eq_none (by omega)
    simp [List.getD_eq_getElem?_getD, List.getElem?_set, hi, hnone]

theorem flushImm_levels_ge1 (db : DBState) (l : Nat) (h : 1 ≤ l) :
    db.flushImm.levels.getD l [] = db.levels.getD l [] := by
  unfold DBState.flushImm
  cases himm : db.imm with
  | none => rfl
  | some t =>
    dsimp only
    exact getD_set_ne2 db.levels 0 l _ [] (by omega)

theorem rotate_levels_ge1 (db : DBState) (l : Nat) (h : 1 ≤ l) :
    db.rotateMemTable.levels.getD l [] = db.levels.getD l [] := by
  unfold DBState.rotateMemTable
  dsimp only
  rw [flushImm_levels_ge1 _ l h]
  dsimp only
  exact flushImm_levels_ge1 db l h

theorem writeInternal_levels_ge1 (db : DBState) (key value : List Nat) (ty l : Nat)
    (h : 1 ≤ l) :
    (db.writeInternal key value ty).levels.getD l [] = db.levels.getD l [] := by
  unfold DBState.writeInternal
  dsimp only
  split
  · rw [rotate_levels_ge1 _ l h]
  · rfl

theorem applyOp_levels_ge1 (db : DBState) (op : DbOp) (l : Nat) (h : 1 ≤ l)
    (hnc : isCompact op = false) :
    (applyOp db op).levels.getD l [] = db.levels.getD l [] := by
  cases op with
  | put k v => exact writeInternal_levels_ge1 db k v kOpPut l h
  | del k => exact writeInternal_levels_ge1 db k [] kOpDelete l h
  | flush => exact rotate_levels_ge1 db l h
  | compact => cases hnc

theorem compact_levels_len (db : DBState) (c : Nat)
    (hall : ∀ l2, 1 ≤ l2 → ((db.levels.getD l2 []).length ≤ c)) (l : Nat) (h : 1 ≤ l) :
    ((dbCompact db).levels.getD l []).length ≤ c + 1 := by
  unfold dbCompact
  cases hp : pickCompaction db.levels with
  | none => exact Nat.le_succ_of_le (hall l h)
  | some p =>
    obtain ⟨lv, inputs⟩ := p
    dsimp only
    cases ho : openAll inputs with
    | none => exact Nat.le_succ_of_le (hall l h)
    | some readers =>
      dsimp only
      cases hop : SSTableReader.openFile (sstMerge readers) with
      | error e => exact Nat.le_succ_of_le (hall l h)
      | ok r =>
        dsimp only
        by_cases hl1 : l = lv + 1
        · subst hl1
          rw [getD_set_self2]
          split
          · rw [List.length_append]
            have h2 := hall (lv + 1) (by omega)
            simp only [List.length_singleton]
            omega
          · rw [getD_set_ne2 _ lv (lv + 1) _ _ (by omega)]
            exact Nat.le_succ_of_le (hall (lv + 1) (by omega))
        · rw [getD_set_ne2 _ (lv + 1) l _ _ (fun he => hl1 he.symm)]
          by_cases hl0 : l = lv
          · subst hl0
            rw [getD_set_self2]
            split
            · simp
            · exact Nat.le_succ_of_le (hall l h)
          · rw [getD_set_ne2 _ lv l _ _ (fun he => hl0 he.symm)]
            exact Nat.le_succ_of_le (hall l h)

theorem runOps_levels_len : ∀ (ops : List DbOp) (db : DBState) (c : Nat),
    (∀ l, 1 ≤ l → (db.levels.getD l []).length ≤ c) →
    c + (ops.filter isCompact).length ≤ 1 →
    ∀ l, 1 ≤ l → ((ops.foldl applyOp db).levels.getD l []).length ≤ 1 := by
  intro ops
  induction ops with
  | nil =>
    intro db c hall hc l hl
    exact Nat.le_trans (hall l hl) (by omega)
  | cons op ops ih =>
    intro db c hall hc l hl
    rw [List.foldl_cons]
    cases op with
    | compact =>
      have hfl : ((DbOp.compact :: ops).filter isCompact).length
          = (ops.filter isCompact).length + 1 := by
        simp [List.filter_cons, isCompact]
      refine ih (applyOp db .compact) (c + 1)
        (fun l2 hl2 => compact_levels_len db c hall l2 hl2) (by omega) l hl
    | put k v =>
      have hfl : ((DbOp.put k v :: ops).filter isCompact).length
          = (ops.filter isCompact).length := by
        simp [List.filter_cons, isCompact]
      refine ih (applyOp db (.put k v)) c ?_ (by omega) l hl
      intro l2 hl2
      rw [applyOp_levels_ge1 db (.put k v) l2 hl2 rfl]
      exact hall l2 hl2
    | del k =>
      have hfl : ((DbOp.del k :: ops).filter isCompact).length
          = (ops.filter isCompact).length := by
        simp [List.filter_cons, isCompact]
      refine ih (applyOp db (.del k)) c ?_ (by omega) l hl
      intro l2 hl2
      rw [applyOp_levels_ge1 db (.del k) l2 hl2 rfl]
      exact hall l2 hl2
    | flush =>
      have hfl : ((DbOp.flush :: ops).filter isCompact).length
          = (ops.filter isCompact).length := by
        simp [List.filter_cons, isCompact]
      refine ih (applyOp db .flush) c ?_ (by omega) l hl
      intro l2 hl2
      rw [applyOp_levels_ge1 db .flush l2 hl2 rfl]
      exact hall l2 hl2

/-- C3 (amended): the disjoint-and-sorted level invariant does hold in every
state reachable with at most one compaction pass, because flushes only append
to level 0 and a single compaction installs at most one file in any level
`≥ 1`; a second compaction into an already-populated level can break it (see
the counterexample). -/
theorem levels_pairwise_le_one_compaction (ops : List DbOp)
    (h : (ops.filter isCompact).length ≤ 1) (lvl : Nat) (h1 : 1 ≤ lvl) :
    List.Pairwise (fun f g => bytesLt f.largestKey g.smallestKey = true)
      ((runOps ops).levels.getD lvl []) := by
  have hinit : ∀ l, 1 ≤ l → ((DBState.init.levels.getD l []).length ≤ 0) := by
    intro l hl
    unfold DBState.init
    dsimp only
    by_cases hl7 : l < kMaxLevelsModel
    · simp [List.getD_eq_getElem?_getD, List.getElem?_replicate, hl7]
    · simp [List.getD_eq_getElem?_getD, List.getElem?_replicate, hl7]
  have hlen := runOps_levels_len ops DBState.init 0 hinit (by omega) lvl h1
  unfold runOps
  cases hl : (ops.foldl applyOp DBState.init).levels.getD lvl [] with
  | nil => exact List.Pairwise.nil
  | cons f fs =>
    rw [hl] at hlen
    have hfs : fs = [] := by
      cases fs with
      | nil => rfl
      | cons g gs => simp at hlen
    subst hfs
    simp

theorem levels_pairwise_le_one_compaction_witness :
    ((c3OneOps.filter isCompact).length ≤ 1) ∧
    List.Pairwise (fun f g => bytesLt f.largestKey g.smallestKey = true)
      ((runOps c3OneOps).levels.getD 1 []) :=
  ⟨by decide, levels_pairwise_le_one_compaction c3OneOps (by decide) 1 (by decide)⟩


/-! ### C7 -/

/-- C7 counterexample: with `k = 1`, a frame accessed once and made evictable
is never evicted.  Its backward K-distance is `current_timestamp -
last_access = 0`, and the loop in `Evict` only takes a finite-distance frame
when its distance is strictly greater than the initial `max_k_distance = 0`,
so `Evict` returns no victim although an evictable frame exists. -/
theorem lruk_evict_misses_distance_zero :
    ((((LRUKReplacer.init 10 1).recordAccess 0).setEvictable 0 true).evict [0]).1 = none ∧
    (((LRUKReplacer.init 10 1).recordAccess 0).setEvictable 0 true).evictableFrames = [0] := by
  decide

/-- The claim's comparison "frame `f` is preferred over frame `g`", written
from the spec: infinite distance (fewer than K accesses) beats finite; among
infinite, earlier first access; among finite, larger backward K-distance;
remaining ties go to the lower frame id. -/
def specBetter (r : LRUKReplacer) (f g : Int) : Prop :=
  (((r.accessHistory.lookup f).getD []).length < r.k ∧
    ¬(((r.accessHistory.lookup g).getD []).length < r.k)) ∨
  (((r.accessHistory.lookup f).getD []).length < r.k ∧
    ((r.accessHistory.lookup g).getD []).length < r.k ∧
    (((r.accessHistory.lookup f).getD []).headD 0
        < ((r.accessHistory.lookup g).getD []).headD 0 ∨
      (((r.accessHistory.lookup f).getD []).headD 0
          = ((r.accessHistory.lookup g).getD []).headD 0 ∧ f < g))) ∨
  (¬(((r.accessHistory.lookup f).getD []).length < r.k) ∧
    ¬(((r.accessHistory.lookup g).getD []).length < r.k) ∧
    (r.currentTimestamp - ((r.accessHistory.lookup g).getD []).headD 0
        < r.currentTimestamp - ((r.accessHistory.lookup f).getD []).headD 0 ∨
      (r.currentTimestamp - ((r.accessHistory.lookup g).getD []).headD 0
          = r.currentTimestamp - ((r.accessHistory.lookup f).getD []).headD 0 ∧ f < g)))

/-- Selection class: `0` for infinite backward distance, `1` for finite. -/
def lrukClass (r : LRUKReplacer) (f : Int) : Nat :=
  if ((r.accessHistory.lookup f).getD []).length < r.k then 0 else 1

/-- Selection key: the oldest retained access timestamp. -/
def lrukKey (r : LRUKReplacer) (f : Int) : Nat :=
  ((r.accessHistory.lookup f).getD []).headD 0

/-- `f` beats `g` in the loop's effective order: lexicographic on
(class, oldest retained timestamp). -/
def lrukBetter (r : LRUKReplacer) (f g : Int) : Prop :=
  lrukClass r f < lrukClass r g ∨ (lrukClass r f = lrukClass r g ∧ lrukKey r f < lrukKey r g)

theorem lookup_mem {β : Type} : ∀ (l : List (Int × β)) (f : Int) (b : β),
    l.lookup f = some b → (f, b) ∈ l := by
  intro l
  induction l with
  | nil => intro f b h; cases h
  | cons p t ih =>
    intro f b h
    rw [List.lookup_cons] at h
    cases he : (f == p.1) with
    | true =>
      rw [he] at h
      simp only [] at h
      have h1 : f = p.1 := by simpa using he
      have h2 : p.2 = b := by injection h
      have hp : (f, b) = p := by rw [h1, ← h2]
      rw [hp]
      exact List.mem_cons_self p t
    | false =>
      rw [he] at h
      simp only [] at h
      exact List.mem_cons_of_mem p (ih f b h)

/-- The structural facts every reachable replacer state satisfies. -/
def LRUKInv (r : LRUKReplacer) : Prop :=
  (∀ pr ∈ r.accessHistory, pr.2 ≠ [] ∧ List.Pairwise (fun a b => a < b) pr.2 ∧
    ∀ t ∈ pr.2, t ≤ r.currentTimestamp) ∧
  (∀ pr1 ∈ r.accessHistory, ∀ pr2 ∈ r.accessHistory, pr1.1 ≠ pr2.1 →
    ∀ t1 ∈ pr1.2, ∀ t2 ∈ pr2.2, t1 ≠ t2)

theorem headD_mem {l : List Nat} (h : l ≠ []) : l.headD 0 ∈ l := by
  cases l with
  | nil => exact absurd rfl h
  | cons a t => exact List.mem_cons_self a t

theorem lrukKey_lt_current (r : LRUKReplacer) (hinv : LRUKInv r) (hk : 2 ≤ r.k)
    (f : Int) (h : List Nat) (hl : r.accessHistory.lookup f = some h) (hne : h ≠ [])
    (hfin : ¬(h.length < r.k)) : lrukKey r f < r.currentTimestamp := by
  obtain ⟨hall, -⟩ := hinv
  obtain ⟨-, hpw, hle⟩ := hall (f, h) (lookup_mem _ f h hl)
  cases h with
  | nil => exact absurd rfl hne
  | cons a t =>
    cases t with
    | nil => simp at hfin; omega
    | cons b t2 =>
      have hab : a < b := (List.pairwise_cons.mp hpw).1 b (by simp)
      have hbc : b ≤ r.currentTimestamp := hle b (by simp)
      unfold lrukKey
      rw [hl]
      simp only [Option.getD_some, List.headD_cons]
      omega

theorem lrukKey_le_current (r : LRUKReplacer) (hinv : LRUKInv r)
    (f : Int) (h : List Nat) (hl : r.accessHistory.lookup f = some h) (hne : h ≠ []) :
    lrukKey r f ≤ r.currentTimestamp := by
  obtain ⟨hall, -⟩ := hinv
  obtain ⟨-, -, hle⟩ := hall (f, h) (lookup_mem _ f h hl)
  have := hle (h.headD 0) (headD_mem hne)
  unfold lrukKey
  rw [hl]
  simpa using this

theorem lrukKey_ne (r : LRUKReplacer) (hinv : LRUKInv r) (f g : Int)
    (hf : List Nat) (hg : List Nat)
    (hlf : r.accessHistory.lookup f = some hf) (hlg : r.accessHistory.lookup g = some hg)
    (hnef : hf ≠ []) (hneg : hg ≠ []) (hfg : f ≠ g) : lrukKey r f ≠ lrukKey r g := by
  obtain ⟨-, hdisj⟩ := hinv
  have hd := hdisj (f, hf) (lookup_mem _ f hf hlf) (g, hg) (lookup_mem _ g hg hlg)
    (by simpa using hfg) (hf.headD 0) (headD_mem hnef) (hg.headD 0) (headD_mem hneg)
  unfold lrukKey
  rw [hlf, hlg]
  simpa using hd

/-- A frame the eviction loop may inspect: nonnegative id and a nonempty
recorded history. -/
def GoodFrame (r : LRUKReplacer) (f : Int) : Prop :=
  0 ≤ f ∧ ∃ h, r.accessHistory.lookup f = some h ∧ h ≠ []

/-- What the loop accumulator means after scanning the frames `done`. -/
def AccGood (r : LRUKReplacer) (done : List Int) (acc : EvictAcc) : Prop :=
  (done = [] ∧ acc = ⟨-1, 0, 18446744073709551615, false⟩) ∨
  (∃ v, v ∈ done ∧ acc.victim = v ∧ (∀ g ∈ done, g ≠ v → lrukBetter r v g) ∧
    ((lrukClass r v = 0 ∧ acc.foundInf = true ∧ acc.earliestFirstAccess = lrukKey r v) ∨
     (lrukClass r v = 1 ∧ acc.foundInf = false ∧
       acc.maxKDistance = r.currentTimestamp - lrukKey r v)))

theorem lrukClass_le_one (r : LRUKReplacer) (f : Int) : lrukClass r f ≤ 1 := by
  unfold lrukClass
  split <;> omega

theorem evictStep_good (r : LRUKReplacer) (hinv : LRUKInv r) (hk : 2 ≤ r.k)
    (done : List Int) (acc : EvictAcc) (x : Int) (hx : GoodFrame r x)
    (hdone : ∀ g ∈ done, GoodFrame r g) (hnotin : x ∉ done)
    (hacc : AccGood r done acc) :
    AccGood r (done ++ [x]) (evictStep r acc x) := by
  obtain ⟨hx0, hlist, hlx, hlne⟩ := hx
  have hkeyx : lrukKey r x = hlist.headD 0 := by
    unfold lrukKey
    rw [hlx]
    rfl
  have hgetx : (r.accessHistory.lookup x).getD [] = hlist := by rw [hlx]; rfl
  have hEfalse : hlist.isEmpty = false := by
    cases hlist with
    | nil => exact absurd rfl hlne
    | cons a t => rfl
  have hkeyne : ∀ g ∈ done, g ≠ x → lrukKey r g ≠ lrukKey r x := by
    intro g hg hgx
    obtain ⟨hg0, hgl, hglk, hglne⟩ := hdone g hg
    exact lrukKey_ne r hinv g x hgl hlist hglk hlx hglne hlne hgx
  unfold evictStep
  rw [hlx]
  dsimp only
  rw [hEfalse]
  simp only [Bool.false_eq_true, if_false]
  by_cases hcls : hlist.length < r.k
  · -- the new frame has infinite backward distance
    have hclsx : lrukClass r x = 0 := by
      unfold lrukClass
      rw [hgetx, if_pos hcls]
    rw [if_pos hcls]
    rcases hacc with ⟨hde, hae⟩ | ⟨v, hv, hvic, hbet, hcase⟩
    · subst hde
      rw [hae]
      rw [if_pos (Or.inl rfl)]
      refine Or.inr ⟨x, by simp, rfl, ?_, Or.inl ⟨hclsx, rfl, hkeyx.symm⟩⟩
      intro g hg hgx
      simp at hg
      exact absurd hg hgx
    · rcases hcase with ⟨hcv, hfi, hea⟩ | ⟨hcv, hfi, hmd⟩
      · -- current victim is infinite-class
        by_cases hlt : hlist.headD 0 < acc.earliestFirstAccess
        · rw [if_pos (Or.inr hlt)]
          refine Or.inr ⟨x, by simp, rfl, ?_, Or.inl ⟨hclsx, rfl, hkeyx.symm⟩⟩
          intro g hg hgx
          rcases List.mem_append.mp hg with hg2 | hg2
          · by_cases hgv : g = v
            · subst hgv
              right
              rw [hclsx, hcv]
              refine ⟨rfl, ?_⟩
              rw [hkeyx, ← hea]
              exact hlt
            · have hb := hbet g hg2 hgv
              rcases hb with hb | ⟨hbc, hbk⟩
              · left
                omega
              · right
                refine ⟨by omega, ?_⟩
                rw [hkeyx]
                have h2 : hlist.headD 0 < lrukKey r v := by
                  rw [← hea]
                  exact hlt
                omega
          · simp at hg2
            exact absurd hg2 hgx
        · rw [if_neg (by
            push_neg
            refine ⟨?_, by omega⟩
            rw [hfi]
            simp)]
          refine Or.inr ⟨v, List.mem_append_left _ hv, hvic, ?_, Or.inl ⟨hcv, hfi, hea⟩⟩
          intro g hg hgv
          rcases List.mem_append.mp hg with hg2 | hg2
          · exact hbet g hg2 hgv
          · simp at hg2
            subst hg2
            right
            rw [hcv, hclsx]
            refine ⟨rfl, ?_⟩
            have hne2 : lrukKey r v ≠ lrukKey r g := by
              intro he
              have hvd : v ∈ done := hv
              exact hkeyne v hvd (fun hvx => hgv (by rw [← hvx])) (by rw [he])
            rw [hkeyx] at *
            rw [← hea] at *
            omega
      · -- current victim is finite-class, the new infinite frame wins
        rw [if_pos (Or.inl hfi)]
        refine Or.inr ⟨x, by simp, rfl, ?_, Or.inl ⟨hclsx, rfl, hkeyx.symm⟩⟩
        intro g hg hgx
        rcases List.mem_append.mp hg with hg2 | hg2
        · by_cases hgv : g = v
          · subst hgv
            left
            omega
          · have hb := hbet g hg2 hgv
            have hcg := lrukClass_le_one r g
            rcases hb with hb | ⟨hbc, hbk⟩
            · left
              omega
            · left
              omega
        · simp at hg2
          exact absurd hg2 hgx
  · -- the new frame has finite backward distance
    have hclsx : lrukClass r x = 1 := by
      unfold lrukClass
      rw [hgetx, if_neg hcls]
    have hkxlt : lrukKey r x < r.currentTimestamp :=
      lrukKey_lt_current r hinv hk x hlist hlx hlne hcls
    rw [if_neg hcls]
    rcases hacc with ⟨hde, hae⟩ | ⟨v, hv, hvic, hbet, hcase⟩
    · subst hde
      rw [hae]
      rw [if_pos rfl]
      have hcond : r.currentTimestamp - hlist.headD 0 > 0 := by
        rw [← hkeyx]
        omega
      rw [if_pos hcond]
      refine Or.inr ⟨x, by simp, rfl, ?_, Or.inr ⟨hclsx, rfl, by rw [hkeyx]⟩⟩
      intro g hg hgx
      simp at hg
      exact absurd hg hgx
    · rcases hcase with ⟨hcv, hfi, hea⟩ | ⟨hcv, hfi, hmd⟩
      · -- infinite-class victim found: the finite frame is skipped
        rw [if_neg (by rw [hfi]; simp)]
        refine Or.inr ⟨v, List.mem_append_left _ hv, hvic, ?_, Or.inl ⟨hcv, hfi, hea⟩⟩
        intro g hg hgv
        rcases List.mem_append.mp hg with hg2 | hg2
        · exact hbet g hg2 hgv
        · simp at hg2
          subst hg2
          left
          omega
      · -- both finite: larger distance (smaller oldest timestamp) wins
        have hkv : lrukKey r v ≤ r.currentTimestamp := by
          obtain ⟨hv0, hvl, hvlk, hvlne⟩ := hdone v hv
          exact lrukKey_le_current r hinv v hvl hvlk hvlne
        have hkne : lrukKey r v ≠ lrukKey r x := by
          refine hkeyne v hv ?_
          intro hvx
          rw [hvx] at hv
          exact hnotin hv
        rw [if_pos hfi]
        by_cases hlt : lrukKey r x < lrukKey r v
        · rw [if_pos (by rw [← hkeyx, hmd]; omega)]
          refine Or.inr ⟨x, by simp, rfl, ?_, Or.inr ⟨hclsx, hfi, by rw [hkeyx]⟩⟩
          intro g hg hgx
          rcases List.mem_append.mp hg with hg2 | hg2
          · by_cases hgv : g = v
            · subst hgv
              right
              rw [hclsx, hcv]
              exact ⟨rfl, hlt⟩
            · have hb := hbet g hg2 hgv
              rcases hb with hb | ⟨hbc, hbk⟩
              · left
                omega
              · right
                exact ⟨by omega, by omega⟩
          · simp at hg2
            exact absurd hg2 hgx
        · rw [if_neg (by rw [← hkeyx, hmd]; omega)]
          refine Or.inr ⟨v, List.mem_append_left _ hv, hvic, ?_, Or.inr ⟨hcv, hfi, hmd⟩⟩
          intro g hg hgv
          rcases List.mem_append.mp hg with hg2 | hg2
          · exact hbet g hg2 hgv
          · simp at hg2
            subst hg2
            right
            rw [hcv, hclsx]
            exact ⟨rfl, by omega⟩



theorem evictFold_good (r : LRUKReplacer) (hinv : LRUKInv r) (hk : 2 ≤ r.k) :
    ∀ (rest done : List Int) (acc : EvictAcc),
      (∀ g ∈ done ++ rest, GoodFrame r g) → (done ++ rest).Nodup →
      AccGood r done acc →
      AccGood r (done ++ rest) (rest.foldl (evictStep r) acc) := by
  intro rest
  induction rest with
  | nil =>
    intro done acc hgood hnd hacc
    simpa using hacc
  | cons x rest ih =>
    intro done acc hgood hnd hacc
    have hassoc : done ++ x :: rest = (done ++ [x]) ++ rest := by simp
    have hxgood : GoodFrame r x := hgood x (by simp)
    have hxnotin : x ∉ done := by
      have h1 := List.nodup_append.mp hnd
      intro hc
      exact h1.2.2 hc (by simp)
    rw [List.foldl_cons, hassoc]
    refine ih (done ++ [x]) (evictStep r acc x) ?_ ?_ ?_
    · rw [← hassoc]
      exact hgood
    · rw [← hassoc]
      exact hnd
    · exact evictStep_good r hinv hk done acc x hxgood
        (fun g hg => hgood g (by simp [hg])) hxnotin hacc

theorem lrukClass_zero_iff (r : LRUKReplacer) (f : Int) :
    lrukClass r f = 0 ↔ ((r.accessHistory.lookup f).getD []).length < r.k := by
  unfold lrukClass
  split
  · next h => simp [h]
  · next h => simp [h]

theorem lrukBetter_specBetter (r : LRUKReplacer) (hinv : LRUKInv r)
    (f g : Int) (hgf : GoodFrame r f) (hgg : GoodFrame r g)
    (h : lrukBetter r f g) : specBetter r f g := by
  obtain ⟨-, hf, hlf, hnef⟩ := hgf
  obtain ⟨-, hg2, hlg, hneg⟩ := hgg
  have hkf : lrukKey r f ≤ r.currentTimestamp := lrukKey_le_current r hinv f hf hlf hnef
  have hkg : lrukKey r g ≤ r.currentTimestamp := lrukKey_le_current r hinv g hg2 hlg hneg
  have hcf := lrukClass_le_one r f
  have hcg := lrukClass_le_one r g
  unfold specBetter
  rcases h with h | ⟨hc, hkey⟩
  · -- class f = 0, class g = 1
    have hf0 : lrukClass r f = 0 := by omega
    have hg1 : ¬(lrukClass r g = 0) := by omega
    left
    exact ⟨(lrukClass_zero_iff r f).mp hf0, fun hcon => hg1 ((lrukClass_zero_iff r g).mpr hcon)⟩
  · by_cases h0 : lrukClass r f = 0
    · right
      left
      have hg0 : lrukClass r g = 0 := by omega
      exact ⟨(lrukClass_zero_iff r f).mp h0, (lrukClass_zero_iff r g).mp hg0,
        Or.inl hkey⟩
    · right
      right
      have hg1 : ¬(lrukClass r g = 0) := by omega
      refine ⟨fun hcon => h0 ((lrukClass_zero_iff r f).mpr hcon),
        fun hcon => hg1 ((lrukClass_zero_iff r g).mpr hcon), Or.inl ?_⟩
      unfold lrukKey at *
      omega

theorem evict_selects (r : LRUKReplacer) (hinv : LRUKInv r) (hk : 2 ≤ r.k)
    (order : List Int)
    (hmemf : ∀ f ∈ order, f ∈ r.evictableFrames)
    (hmemb : ∀ f ∈ r.evictableFrames, f ∈ order)
    (hnd : order.Nodup) (hne : order ≠ [])
    (hgood : ∀ f ∈ order, GoodFrame r f) :
    ∃ v, (r.evict order).1 = some v ∧ v ∈ r.evictableFrames ∧
      ∀ g ∈ r.evictableFrames, g ≠ v → specBetter r v g := by
  have hfold := evictFold_good r hinv hk order [] ⟨-1, 0, 18446744073709551615, false⟩
    (by simpa using hgood) (by simpa using hnd) (Or.inl ⟨rfl, rfl⟩)
  rw [List.nil_append] at hfold
  rcases hfold with ⟨hde, -⟩ | ⟨v, hv, hvic, hbet, -⟩
  · exact absurd hde hne
  · have hvgood := hgood v hv
    have hv0 : 0 ≤ v := hvgood.1
    refine ⟨v, ?_, hmemf v hv, ?_⟩
    · unfold LRUKReplacer.evict
      have hef : r.evictableFrames.isEmpty = false := by
        cases hor : order with
        | nil => exact absurd hor hne
        | cons a t =>
          have ha := hmemf a (by rw [hor]; simp)
          cases hev : r.evictableFrames with
          | nil => rw [hev] at ha; cases ha
          | cons b s => rfl
      rw [hef]
      simp only [Bool.false_eq_true, if_false]
      rw [hvic]
      rw [if_neg (by intro hc; rw [hc] at hv0; omega)]
    · intro g hg hgv
      exact lrukBetter_specBetter r hinv v g hvgood (hgood g (hmemb g hg))
        (hbet g (hmemb g hg) hgv)


theorem lookup_none_not_mem {β : Type} : ∀ (l : List (Int × β)) (fid : Int),
    l.lookup fid = none → ∀ pr ∈ l, pr.1 ≠ fid := by
  intro l
  induction l with
  | nil => intro fid h pr hpr; cases hpr
  | cons p t ih =>
    intro fid h pr hpr
    rw [List.lookup_cons] at h
    cases he : (fid == p.1) with
    | true =>
      rw [he] at h
      simp at h
    | false =>
      rw [he] at h
      simp only [] at h
      rcases List.mem_cons.mp hpr with rfl | hpr2
      · intro hc
        rw [hc] at he
        simp at he
      · exact ih fid h pr hpr2

theorem setHist_mem (h : List (Int × List Nat)) (fid : Int) (l : List Nat)
    (pr : Int × List Nat) (hpr : pr ∈ setHist h fid l) :
    pr = (fid, l) ∨ (pr ∈ h ∧ pr.1 ≠ fid) := by
  unfold setHist at hpr
  by_cases hs : (h.lookup fid).isSome
  · rw [if_pos hs] at hpr
    obtain ⟨orig, horig, heq⟩ := List.mem_map.mp hpr
    by_cases ho : orig.1 = fid
    · rw [if_pos ho] at heq
      exact Or.inl heq.symm
    · rw [if_neg ho] at heq
      exact Or.inr ⟨heq ▸ horig, heq ▸ ho⟩
  · rw [if_neg hs] at hpr
    rcases List.mem_append.mp hpr with hpr2 | hpr2
    · have hnone : h.lookup fid = none := by
        cases hl : h.lookup fid with
        | none => rfl
        | some v => rw [hl] at hs; simp at hs
      exact Or.inr ⟨hpr2, lookup_none_not_mem h fid hnone pr hpr2⟩
    · simp at hpr2
      exact Or.inl (by rw [hpr2])

theorem recordAccess_inv (r : LRUKReplacer) (fid : Int) (hk1 : 1 ≤ r.k)
    (h : LRUKInv r) : LRUKInv (r.recordAccess fid) := by
  obtain ⟨h1, h2⟩ := h
  have hof : ∀ t ∈ (r.accessHistory.lookup fid).getD [], t ≤ r.currentTimestamp := by
    cases hlo : r.accessHistory.lookup fid with
    | none => intro t ht; simp at ht
    | some h0 =>
      intro t ht
      exact (h1 (fid, h0) (lookup_mem _ fid h0 hlo)).2.2 t (by simpa using ht)
  have hop : List.Pairwise (fun a b => a < b) ((r.accessHistory.lookup fid).getD []) := by
    cases hlo : r.accessHistory.lookup fid with
    | none => simp
    | some h0 =>
      have := (h1 (fid, h0) (lookup_mem _ fid h0 hlo)).2.1
      simpa using this
  have hpwapp : List.Pairwise (fun a b => a < b)
      ((r.accessHistory.lookup fid).getD [] ++ [r.currentTimestamp + 1]) := by
    rw [List.pairwise_append]
    refine ⟨hop, by simp, ?_⟩
    intro a ha b hb
    simp at hb
    have := hof a ha
    omega
  have hsub : trimToK ((r.accessHistory.lookup fid).getD [] ++ [r.currentTimestamp + 1])
      r.k ⊆ (r.accessHistory.lookup fid).getD [] ++ [r.currentTimestamp + 1] := by
    unfold trimToK
    exact List.drop_subset _ _
  have hnewne : trimToK ((r.accessHistory.lookup fid).getD [] ++ [r.currentTimestamp + 1])
      r.k ≠ [] := by
    unfold trimToK
    intro hc
    have hlen := congrArg List.length hc
    rw [List.length_drop, List.length_append] at hlen
    simp at hlen
    omega
  have hnewpw : List.Pairwise (fun a b => a < b)
      (trimToK ((r.accessHistory.lookup fid).getD [] ++ [r.currentTimestamp + 1]) r.k) := by
    unfold trimToK
    exact hpwapp.sublist (List.drop_sublist _ _)
  unfold LRUKReplacer.recordAccess LRUKInv
  dsimp only
  constructor
  · intro pr hpr
    rcases setHist_mem _ _ _ pr hpr with rfl | ⟨hin, hne⟩
    · refine ⟨hnewne, hnewpw, ?_⟩
      intro t ht
      rcases List.mem_append.mp (hsub ht) with ht2 | ht2
      · have := hof t ht2
        omega
      · simp at ht2
        omega
    · obtain ⟨ha, hb, hc⟩ := h1 pr hin
      refine ⟨ha, hb, ?_⟩
      intro t ht
      have := hc t ht
      omega
  · intro pr1 hpr1 pr2 hpr2 hne12 t1 ht1 t2 ht2
    rcases setHist_mem _ _ _ pr1 hpr1 with rfl | ⟨hin1, hne1⟩ <;>
      rcases setHist_mem _ _ _ pr2 hpr2 with rfl | ⟨hin2, hne2⟩
    · exact absurd rfl hne12
    · rcases List.mem_append.mp (hsub ht1) with ht1b | ht1b
      · cases hlo : r.accessHistory.lookup fid with
        | none => rw [hlo] at ht1b; simp at ht1b
        | some h0 =>
          refine h2 (fid, h0) (lookup_mem _ fid h0 hlo) pr2 hin2 (by simpa using hne2.symm)
            t1 ?_ t2 ht2
          rw [hlo] at ht1b
          simpa using ht1b
      · simp at ht1b
        have := (h1 pr2 hin2).2.2 t2 ht2
        omega
    · rcases List.mem_append.mp (hsub ht2) with ht2b | ht2b
      · cases hlo : r.accessHistory.lookup fid with
        | none => rw [hlo] at ht2b; simp at ht2b
        | some h0 =>
          refine fun hc =>
            (h2 (fid, h0) (lookup_mem _ fid h0 hlo) pr1 hin1 (by simpa using hne1.symm)
              t2 ?_ t1 ht1) hc.symm
          rw [hlo] at ht2b
          simpa using ht2b
      · simp at ht2b
        have := (h1 pr1 hin1).2.2 t1 ht1
        omega
    · exact h2 pr1 hin1 pr2 hin2 hne12 t1 ht1 t2 ht2

theorem setEvictable_inv (r : LRUKReplacer) (fid : Int) (ev : Bool)
    (h : LRUKInv r) : LRUKInv (r.setEvictable fid ev) := by
  obtain ⟨h1, h2⟩ := h
  unfold LRUKReplacer.setEvictable LRUKInv
  split <;> exact ⟨h1, h2⟩

inductive RepOp where
  | access (fid : Int)
  | setEv (fid : Int) (ev : Bool)
deriving Repr, DecidableEq

def applyRep (r : LRUKReplacer) : RepOp → LRUKReplacer
  | .access f => r.recordAccess f
  | .setEv f b => r.setEvictable f b

/-- Run a call sequence against a fresh replacer. -/
def runRep (nf k : Nat) (ops : List RepOp) : LRUKReplacer :=
  ops.foldl applyRep (LRUKReplacer.init nf k)

theorem applyRep_k (r : LRUKReplacer) (op : RepOp) : (applyRep r op).k = r.k := by
  cases op with
  | access f => rfl
  | setEv f b =>
    show (LRUKReplacer.setEvictable r f b).k = r.k
    unfold LRUKReplacer.setEvictable
    split <;> rfl

theorem foldRep_k : ∀ (ops : List RepOp) (r : LRUKReplacer),
    (ops.foldl applyRep r).k = r.k := by
  intro ops
  induction ops with
  | nil => intro r; rfl
  | cons op ops ih =>
    intro r
    rw [List.foldl_cons, ih, applyRep_k]

theorem runRep_k (nf k : Nat) (ops : List RepOp) : (runRep nf k ops).k = k :=
  foldRep_k ops _

theorem foldRep_inv : ∀ (ops : List RepOp) (r : LRUKReplacer), 1 ≤ r.k → LRUKInv r →
    LRUKInv (ops.foldl applyRep r) := by
  intro ops
  induction ops with
  | nil => intro r hk h; exact h
  | cons op ops ih =>
    intro r hk h
    rw [List.foldl_cons]
    refine ih (applyRep r op) (by rw [applyRep_k]; exact hk) ?_
    cases op with
    | access f => exact recordAccess_inv r f hk h
    | setEv f b => exact setEvictable_inv r f b h

theorem runRep_inv (nf k : Nat) (ops : List RepOp) (hk1 : 1 ≤ k) :
    LRUKInv (runRep nf k ops) := by
  refine foldRep_inv ops (LRUKReplacer.init nf k) hk1 ⟨?_, ?_⟩
  · intro pr hpr
    cases hpr
  · intro pr1 hpr1
    cases hpr1

/-- C7 (amended): for every sequence of `RecordAccess` and `SetEvictable`
calls on a replacer with `K ≥ 2` in which every evictable frame has at least
one recorded access, and for every enumeration order of the evictable set,
`Evict` evicts a frame that is preferred over every other evictable frame by
the claim's rule: a frame with fewer than K accesses (infinite backward
K-distance) beats any frame with K accesses; among the former the earliest
first access wins (FIFO); among the latter the largest backward K-distance
wins; any remaining tie goes to the lower frame id.  (With `K = 1` the
`k_distance > 0` guard can reject every frame — see the counterexample — and
a never-accessed evictable frame can steal the victim slot by id, so both
exclusions are necessary.) -/
theorem lruk_evict_rule (nf k : Nat) (ops : List RepOp) (order : List Int)
    (hk : 2 ≤ k)
    (hmemf : ∀ f ∈ order, f ∈ (runRep nf k ops).evictableFrames)
    (hmemb : ∀ f ∈ (runRep nf k ops).evictableFrames, f ∈ order)
    (hnd : order.Nodup) (hne : order ≠ [])
    (hgood : ∀ f ∈ order, 0 ≤ f ∧ ((runRep nf k ops).accessHistory.lookup f).isSome) :
    ∃ v, ((runRep nf k ops).evict order).1 = some v ∧
      v ∈ (runRep nf k ops).evictableFrames ∧
      ∀ g ∈ (runRep nf k ops).evictableFrames, g ≠ v →
        specBetter (runRep nf k ops) v g := by
  have hinv : LRUKInv (runRep nf k ops) := runRep_inv nf k ops (by omega)
  refine evict_selects (runRep nf k ops) hinv (by rw [runRep_k]; exact hk) order
    hmemf hmemb hnd hne ?_
  intro f hf
  obtain ⟨h0, hs⟩ := hgood f hf
  cases hl : (runRep nf k ops).accessHistory.lookup f with
  | none => rw [hl] at hs; simp at hs
  | some hist =>
    refine ⟨h0, hist, hl, ?_⟩
    exact (hinv.1 (f, hist) (lookup_mem _ f hist hl)).1

theorem lruk_evict_rule_witness :
    (2 ≤ 2) ∧
    (∀ f ∈ ([0, 1] : List Int),
      f ∈ (runRep 10 2 [.access 0, .access 1, .setEv 0 true, .setEv 1 true]).evictableFrames) ∧
    (∀ f ∈ (runRep 10 2 [.access 0, .access 1, .setEv 0 true, .setEv 1 true]).evictableFrames,
      f ∈ ([0, 1] : List Int)) ∧
    ([0, 1] : List Int).Nodup ∧
    (∀ f ∈ ([0, 1] : List Int), 0 ≤ f ∧
      ((runRep 10 2 [.access 0, .access 1, .setEv 0 true,
        .setEv 1 true]).accessHistory.lookup f).isSome) ∧
    ∃ v, ((runRep 10 2 [.access 0, .access 1, .setEv 0 true,
        .setEv 1 true]).evict [0, 1]).1 = some v ∧
      v ∈ (runRep 10 2 [.access 0, .access 1, .setEv 0 true, .setEv 1 true]).evictableFrames ∧
      ∀ g ∈ (runRep 10 2 [.access 0, .access 1, .setEv 0 true,
          .setEv 1 true]).evictableFrames, g ≠ v →
        specBetter (runRep 10 2 [.access 0, .access 1, .setEv 0 true, .setEv 1 true]) v g :=
  ⟨by omega, by decide, by decide, by decide, by decide,
    lruk_evict_rule 10 2 [.access 0, .access 1, .setEv 0 true, .setEv 1 true] [0, 1]
      (by omega) (by decide) (by decide) (by decide) (by decide) (by decide)⟩

end MyDB
